import Mathlib

/-!
The crawl step of the het indexer

A shallow embedding of `indexer/crawl.go`: the functions `AddOutgoingLink`,
`GetLink`, `ValidLink` and `CrawlPage`, over an explicit model of the bolt
database (named buckets of key/value pairs), of the network (an oracle that
sees the history of earlier requests) and of the external parsers.

Conventions.
* Go strings are Lean strings.
* Stored values are kept decoded: a bucket of JSON-encoded `het.Link`
  records is a bucket of the `Link` values that `json.Unmarshal` gives back
  for them.  What `json.Marshal` loses is lost where the record is put: the
  functions `URL.json`, `Link.json`, `Document.json` and `Keyword.json` are
  `json.Unmarshal` after `json.Marshal`, which empties the user info of a URL.
* Bolt's `Put` refuses a blank key and a key of more than 32768 bytes, and
  `crawl.go` drops the error of every `Put`: such a `Put` changes nothing.
* A nil Go map is `none`; a map `map[string]bool` used as a set is the list
  of its keys (the code only ever stores `true`).
* The counters and frequencies of package het are natural numbers.
* A Go map that is ranged over is the list of its entries, in the order of
  the iteration.
* `log.Fatal` ends the process (`Outcome.fatal`); unbounded recursion of
  `GetLink` on a redirect cycle is `Outcome.diverge`.
-/

namespace Het

/-! ## Go standard library: package strings -/

/-- Whether `sub` starts the character list `s`. -/
def startsWith : List Char → List Char → Bool
  | _, [] => true
  | [], _ :: _ => false
  | c :: cs, d :: ds => c = d && startsWith cs ds

/-- Search of `sub` at every position of `s`. -/
def containsAt : List Char → List Char → Bool
  | [], sub => startsWith [] sub
  | c :: cs, sub => startsWith (c :: cs) sub || containsAt cs sub

/-- Go `strings.Contains(s, substr)`: `substr` occurs within `s`. -/
def stringsContains (s substr : String) : Bool :=
  containsAt s.toList substr.toList

/-- Go `strings.Trim(s, cutset)`: `s` without the leading and trailing
characters that belong to `cutset`. -/
def stringsTrim (s cutset : String) : String :=
  let inCut : Char → Bool := fun c => cutset.toList.contains c
  String.mk ((s.toList.dropWhile inCut).reverse.dropWhile inCut).reverse

/-! ## Go standard library: package net/url -/

/-- Go `url.Userinfo`: the user name and the password of a URL; the fields
are not exported. -/
structure Userinfo where
  username : String
  password : String
  passwordSet : Bool
deriving DecidableEq, Repr

/-- Go `(*Userinfo).String()`: `username` or `username:password` (escaping
left out). -/
def Userinfo.String (u : Userinfo) : String :=
  u.username ++ (if u.passwordSet then ":" ++ u.password else "")

/-- Go `url.URL`; `User` is the pointer `*Userinfo`, `none` when nil. -/
structure URL where
  Scheme : String
  Opaque : String
  User : Option Userinfo
  Host : String
  Path : String
  RawQuery : String
  Fragment : String
deriving DecidableEq, Repr

/-- Go `(*URL).String()`: scheme, then the opaque part or `//userinfo@host`
and path, then `?query` and `#fragment` when these are not empty (escaping
left out). -/
def URL.String (u : URL) : String :=
  (if u.Scheme ≠ "" then u.Scheme ++ ":" else "") ++
  (if u.Opaque ≠ "" then u.Opaque
   else
    (if u.Scheme ≠ "" ∨ u.Host ≠ "" ∨ u.User ≠ none then
      "//" ++
        (match u.User with
          | some ui => ui.String ++ "@"
          | none => "") ++ u.Host
     else "") ++ u.Path) ++
  (if u.RawQuery ≠ "" then "?" ++ u.RawQuery else "") ++
  (if u.Fragment ≠ "" then "#" ++ u.Fragment else "")

/-- The assignment `url.Fragment = ""`. -/
def URL.noFragment (u : URL) : URL := { u with Fragment := "" }

/-- Go `json.Unmarshal` of the `json.Marshal` of a URL: the fields of
`Userinfo` are not exported, so a user info is written as an empty object and
read back as an empty `Userinfo`; a nil `User` is written as `null` and read back
as nil; the other fields are strings and come back as they were. -/
def URL.json (u : URL) : URL :=
  { u with User := u.User.map (fun _ => { username := "", password := "", passwordSet := false }) }

/-! ## Package het: the stored records

The package `search/het` is imported by `crawl.go`; its record types are
read off the fields the code uses. -/

/-- Modelled from the spec: the declaration of `het.Link` (status code,
content type, last-modified string, redirect flag, outgoing and incoming URL
sets); the field names are those used in `crawl.go`. -/
structure Link where
  URL : URL
  StatusCode : Int
  ContentType : String
  LastModified : String
  Redirect : Bool
  Outgoing : Option (List String)
  Incomming : Option (List String)
deriving DecidableEq, Repr

/-- The Go zero value `het.Link{}`. -/
def Link.zero : Link :=
  { URL := ⟨"", "", none, "", "", "", ""⟩, StatusCode := 0, ContentType := "",
    LastModified := "", Redirect := false, Outgoing := none, Incomming := none }

/-- Modelled from the spec: the declaration of `het.CountStats`, the three
corpus counters. -/
structure CountStats where
  DocumentCount : Nat
  PendingCount : Nat
  KeywordCount : Nat
deriving DecidableEq, Repr

/-- Modelled from the spec: the declaration of `het.Document`. -/
structure Document where
  URL : URL
  Title : String
  Size : Nat
  Length : Nat
deriving DecidableEq, Repr

/-- Modelled from the spec: the declaration of `het.KeywordRef`. -/
structure KeywordRef where
  Word : String
  Frequency : Nat
deriving DecidableEq, Repr

/-- Modelled from the spec: the declaration of `het.DocumentRef`. -/
structure DocumentRef where
  URL : URL
  Frequency : Nat
deriving DecidableEq, Repr

/-- Modelled from the spec: the declaration of `het.Keyword`. -/
structure Keyword where
  Frequency : Nat
  Docs : List DocumentRef
deriving DecidableEq, Repr

/-- Go `json.Unmarshal` of the `json.Marshal` of a `het.Link`. -/
def Link.json (l : Link) : Link := { l with URL := l.URL.json }

/-- Go `json.Unmarshal` of the `json.Marshal` of a `het.Document`. -/
def Document.json (d : Document) : Document := { d with URL := d.URL.json }

/-- Go `json.Unmarshal` of the `json.Marshal` of a `het.DocumentRef`. -/
def DocumentRef.json (d : DocumentRef) : DocumentRef := { d with URL := d.URL.json }

/-- Go `json.Unmarshal` of the `json.Marshal` of a `het.Keyword`. -/
def Keyword.json (k : Keyword) : Keyword := { k with Docs := k.Docs.map DocumentRef.json }

/-- The assignment `m[k] = true` on a set held as its list of keys. -/
def setAdd (m : List String) (k : String) : List String :=
  if k ∈ m then m else m ++ [k]

/-! ## The bolt key/value store -/

/-- A bolt bucket: key/value pairs; a key is bound to the first pair that
carries it. -/
abbrev Bucket (α : Type) : Type := List (String × α)

/-- Bolt `Bucket.Get`. -/
def Bucket.Get {α : Type} : Bucket α → String → Option α
  | [], _ => none
  | (k', v) :: rest, k => if k' = k then some v else Bucket.Get rest k

/-- Bolt `MaxKeySize`: the largest number of bytes of a key. -/
def MaxKeySize : Nat := 32768

/-- Whether the UTF-8 encoding of the characters takes at most `n` bytes. -/
def fitsIn : List Char → Nat → Bool
  | [], _ => true
  | c :: cs, n => if n < c.utf8Size then false else fitsIn cs (n - c.utf8Size)

/-- Whether bolt's `Put` takes the key: it refuses a blank key
(`ErrKeyRequired`) and a key of more than `MaxKeySize` bytes
(`ErrKeyTooLarge`). -/
def keyOK (k : String) : Bool := k ≠ "" && fitsIn k.toList MaxKeySize

/-- The pairs of a bucket with the key bound to the value: the key is
rebound when present and added otherwise. -/
def Bucket.write {α : Type} : Bucket α → String → α → Bucket α
  | [], k, v => [(k, v)]
  | (k', v') :: rest, k, v =>
    if k' = k then (k, v) :: rest else (k', v') :: Bucket.write rest k v

/-- Bolt `Bucket.Put` as `crawl.go` calls it, with the error dropped: the
key is bound to the value when bolt takes the key, and nothing changes when
bolt refuses it.  (Bolt also refuses a value of more than `MaxValueSize` =
2^31 - 2 bytes; the stored records are taken to encode to fewer bytes.) -/
def Bucket.Put {α : Type} (b : Bucket α) (k : String) (v : α) : Bucket α :=
  if keyOK k then b.write k v else b

/-- Bolt `Bucket.Delete`. -/
def Bucket.Delete {α : Type} (b : Bucket α) (k : String) : Bucket α :=
  List.filter (fun p => decide (p.1 ≠ k)) b

/-- The keys of a bucket. -/
def Bucket.keys {α : Type} (b : Bucket α) : List String :=
  List.map Prod.fst b

/-- Order of two keys: lexicographic on the code points, which for UTF-8
strings is the lexicographic order of the encoded bytes that bolt uses. -/
def lexLe : List Nat → List Nat → Bool
  | [], _ => true
  | _ :: _, [] => false
  | a :: as, b :: bs => if a < b then true else if b < a then false else lexLe as bs

/-- The key order of a bolt bucket. -/
def keyLe (a b : String) : Bool :=
  lexLe (a.toList.map Char.toNat) (b.toList.map Char.toNat)

/-- The smaller of two keys. -/
def keyMin (a b : String) : String := if keyLe a b then a else b

/-- Bolt `Cursor().First()`: the smallest key of the bucket, if any. -/
def Bucket.First {α : Type} : Bucket α → Option String
  | [] => none
  | (k, _) :: rest =>
    match Bucket.First rest with
    | none => some k
    | some m => some (keyMin k m)

/-- The six buckets of the database. -/
structure DB where
  pending : Bucket Unit
  docs : Bucket Document
  docKeywords : Bucket (List KeywordRef)
  links : Bucket Link
  keywords : Bucket Keyword
  stats : Bucket (Option CountStats)
deriving DecidableEq

/-! ## ValidLink -/

/-- The function `ValidLink` of `crawl.go`. -/
def ValidLink (link : Link) : Bool :=
  if !(link.URL.Scheme = "http" || link.URL.Scheme = "https") then false
  else if link.StatusCode < 200 || link.StatusCode ≥ 299 then false
  else if !(stringsContains link.ContentType "html") then false
  else true

/-! ## The external collaborators -/

/-- Go `html.NodeType`. -/
inductive NodeType where
  | ErrorNode
  | TextNode
  | DocumentNode
  | ElementNode
  | CommentNode
  | DoctypeNode
deriving DecidableEq, Repr

/-- Go `html.Attribute`. -/
structure Attribute where
  Namespace : String
  Key : String
  Val : String
deriving DecidableEq, Repr

/-- Go `html.Node`: type, data, attributes and the ordered children
(the `FirstChild`/`NextSibling` chain). -/
inductive Node where
  | mk (Typ : NodeType) (Data : String) (Attr : List Attribute) (children : List Node)

/-- The field `n.Type` (a reserved word here, hence `Typ`). -/
def Node.Typ : Node → NodeType
  | .mk t _ _ _ => t

/-- The field `n.Data`. -/
def Node.Data : Node → String
  | .mk _ d _ _ => d

/-- The field `n.Attr`. -/
def Node.Attr : Node → List Attribute
  | .mk _ _ a _ => a

/-- The children of `n`, from `n.FirstChild` along `NextSibling`. -/
def Node.children : Node → List Node
  | .mk _ _ _ cs => cs

/-- What `http.Get` hands back on success, as far as `crawl.go` reads it. -/
structure Response where
  URL : URL
  StatusCode : Int
  ContentType : String
  LastModified : String
  Body : Option (List Nat)
deriving DecidableEq, Repr

/-- The collaborators of the crawl step.
* `httpGet log u`: the outcome of `http.Get(u)` after the requests `log`
  (`Response.URL` is `resp.Request.URL`, the headers are those read with
  `Header.Get`, `Body` is `none` when `ioutil.ReadAll` fails);
* `urlParse`: `url.Parse`; `urlResolve base ref`: `base.Parse(ref)`;
* `htmlParse`: `html.Parse`;
* `GetVector`: the vectorizer of package indexer, which is outside
  `crawl.go`; the word map is the list of its entries. -/
structure Env where
  httpGet : List String → String → Except String Response
  urlParse : String → Option URL
  urlResolve : URL → String → Option URL
  htmlParse : List Nat → Option Node
  GetVector : String → List (String × Nat) × Nat

/-- How a call ends: it returns, the process exits in `log.Fatal`, or the
recursion never returns. -/
inductive Outcome (α : Type) where
  | ret (a : α)
  | fatal
  | diverge
deriving DecidableEq, Repr

/-! ## AddOutgoingLink -/

/-- The function `AddOutgoingLink` of `crawl.go`: the links bucket after the
call.  Both links are passed by value. -/
def AddOutgoingLink (links : Bucket Link) (parentLink childLink : Link) : Bucket Link :=
  let parentLink : Link :=
    if parentLink.Outgoing = none then { parentLink with Outgoing := some [] } else parentLink
  let childLink : Link :=
    if childLink.Incomming = none then { childLink with Incomming := some [] } else childLink
  let parentLink : Link :=
    { parentLink with Outgoing := parentLink.Outgoing.map (fun m => setAdd m childLink.URL.String) }
  let childLink : Link :=
    { childLink with Incomming := childLink.Incomming.map (fun m => setAdd m parentLink.URL.String) }
  let links := links.Put childLink.URL.String childLink.json
  links.Put parentLink.URL.String parentLink.json

/-- The caller's variable `parentLink` after `AddOutgoingLink`: the struct is
copied at the call, so a nil `Outgoing` stays nil in the caller, while a map
that exists is shared with the callee and gains the child's key. -/
def parentAfterAdd (parentLink childLink : Link) : Link :=
  { parentLink with Outgoing := parentLink.Outgoing.map (fun m => setAdd m childLink.URL.String) }

/-! ## GetLink -/

/-- What `GetLink` returns and leaves behind: the link, the error, the links
bucket and the request history. -/
structure GetLinkResult where
  link : Link
  err : Option String
  links : Bucket Link
  log : List String
deriving DecidableEq

/-- The function `GetLink` of `crawl.go`, with a bound on the depth of its
recursion. -/
def GetLinkFuel (env : Env) : Nat → Bucket Link → List String → URL → Outcome GetLinkResult
  | 0, _, _, _ => .diverge
  | fuel + 1, links, log, url =>
    let url := url.noFragment
    match links.Get url.String with
    | some link =>
      if link.Redirect then GetLinkFuel env fuel links log link.URL
      else .ret ⟨link, none, links, log⟩
    | none =>
      match env.httpGet log url.String with
      | .error e => .ret ⟨Link.zero, some e, links, log ++ [url.String]⟩
      | .ok resp =>
        let finalURL := resp.URL.noFragment
        let link : Link :=
          { URL := finalURL, StatusCode := resp.StatusCode, ContentType := resp.ContentType,
            LastModified := stringsTrim resp.LastModified " \t\n", Redirect := false,
            Outgoing := none, Incomming := none }
        let links := links.Put finalURL.String link.json
        let links :=
          if finalURL.String ≠ url.String then
            links.Put url.String (Link.json { Link.zero with URL := finalURL, Redirect := true })
          else links
        .ret ⟨link, none, links, log ++ [url.String]⟩

/-- The function `GetLink` of `crawl.go`.  A recursive call only follows a
stored redirect marker and writes nothing, so a run that makes more calls
than the bucket has records plus one is on a redirect cycle and never
returns. -/
def GetLink (env : Env) (links : Bucket Link) (log : List String) (url : URL) :
    Outcome GetLinkResult :=
  GetLinkFuel env (List.length links + 1) links log url

/-! ## CrawlPage: the walk over the parsed page -/

/-- The variables the closure `f` of `CrawlPage` reads and writes: the
page's `link`, the links bucket, the request history, and the collected
`outgoing`, `text` and `title`. -/
structure Walk where
  link : Link
  links : Bucket Link
  log : List String
  outgoing : List String
  text : List String
  title : String
deriving DecidableEq

/-- The loop over `n.Attr` of an `a` element (lines 220-243): every `href`
is resolved against the page, looked up with `GetLink`, filtered with
`ValidLink` and registered with `AddOutgoingLink`; a `break` leaves the
loop. -/
def hrefLoop (env : Env) : List Attribute → Walk → Outcome Walk
  | [], w => .ret w
  | a :: rest, w =>
    if a.Key = "href" then
      match env.urlResolve w.link.URL a.Val with
      | none => .ret w
      | some childURL =>
        if !(childURL.Scheme = "http" || childURL.Scheme = "https") then .ret w
        else
          match GetLink env w.links w.log childURL with
          | .fatal => .fatal
          | .diverge => .diverge
          | .ret r =>
            if r.err.isSome then .ret { w with links := r.links, log := r.log }
            else if !ValidLink r.link then .ret { w with links := r.links, log := r.log }
            else
              hrefLoop env rest
                { w with
                  links := AddOutgoingLink r.links w.link r.link
                  link := parentAfterAdd w.link r.link
                  log := r.log
                  outgoing := w.outgoing ++ [r.link.URL.String] }
    else hrefLoop env rest w

/-- The loop over the children of a `title` element (lines 248-253): the
data of the first text child, if there is one. -/
def firstText : List Node → Option String
  | [] => none
  | c :: cs => if c.Typ = NodeType.TextNode then some c.Data else firstText cs

/-- The closure `f` of `CrawlPage` (lines 217-270). -/
def f (env : Env) : Node → Walk → Outcome Walk
  | .mk ty data attr children, w =>
    if ty = NodeType.ElementNode then
      match (if data = "a" then hrefLoop env attr w else .ret w) with
      | .fatal => .fatal
      | .diverge => .diverge
      | .ret w =>
        let w : Walk :=
          if data = "title" then
            match firstText children with
            | some t => { w with title := t }
            | none => w
          else w
        if data = "script" || data = "style" then .ret w
        else fChildren children w
    else if ty = NodeType.TextNode then .ret { w with text := w.text ++ [data] }
    else fChildren children w
where
  /-- The loop `for c := n.FirstChild; c != nil; c = c.NextSibling`. -/
  fChildren : List Node → Walk → Outcome Walk
    | [], w => .ret w
    | c :: cs, w =>
      match f env c w with
      | .ret w => fChildren cs w
      | .fatal => .fatal
      | .diverge => .diverge

/-! ## CrawlPage: the inverted index -/

/-- The Go map lookup `wordCount[word]`: the zero value when the word is
absent. -/
def wordGet : List (String × Nat) → String → Nat
  | [], _ => 0
  | (w, n) :: rest, word => if w = word then n else wordGet rest word

/-- The keywords bucket, the counters and `dockeys` while the loop over
`wordCount` runs. -/
structure IndexState where
  keywords : Bucket Keyword
  countStats : CountStats
  dockeys : List KeywordRef
deriving DecidableEq

/-- One round of the loop over `wordCount` (lines 286-320). -/
def indexWord (url : URL) (wordCount : List (String × Nat)) (st : IndexState)
    (word : String) : IndexState :=
  if wordGet wordCount word = 0 then st
  else
    let dockeys := st.dockeys ++ [{ Word := word, Frequency := wordGet wordCount word }]
    let keyword : Keyword := { Frequency := 0, Docs := [] }
    let kc : Keyword × CountStats :=
      match st.keywords.Get word with
      | some stored => (stored, st.countStats)
      | none => (keyword, { st.countStats with KeywordCount := st.countStats.KeywordCount + 1 })
    let keyword : Keyword := { kc.1 with Frequency := kc.1.Frequency + wordGet wordCount word }
    let keyword : Keyword :=
      { keyword with Docs := keyword.Docs ++ [{ URL := url, Frequency := wordGet wordCount word }] }
    { keywords := st.keywords.Put word keyword.json, countStats := kc.2, dockeys := dockeys }

/-- The loop `for word := range wordCount`, over the keys in the order of
the list. -/
def indexWords (url : URL) (wordCount : List (String × Nat)) (st : IndexState) : IndexState :=
  List.foldl (indexWord url wordCount) st (List.map Prod.fst wordCount)

/-- One round of the loop over `outgoing` (lines 322-325). -/
def enqueue (st : Bucket Unit × CountStats) (l : String) : Bucket Unit × CountStats :=
  (st.1.Put l (), { st.2 with PendingCount := st.2.PendingCount + 1 })

/-! ## CrawlPage -/

/-- The return statement at which the transaction function of `CrawlPage`
stops. -/
inductive Exit where
  | emptyFrontier
  | badURL
  | resolveFailed
  | invalidLink
  | alreadyIndexed
  | fetchFailed
  | readFailed
  | parseFailed
  | committed
deriving DecidableEq, Repr

/-- The state at a return: the buckets as the transaction sees them, the
request history, `countStats`, the error returned and the return statement
reached. -/
structure TxResult where
  db : DB
  log : List String
  countStats : CountStats
  err : Option String
  exit : Exit
deriving DecidableEq

/-- The seed written into an empty frontier (line 152). -/
def seedURL : String := "http://en.wikipedia.org/wiki/List_of_most_popular_websites"

/-- The end of the transaction function of `CrawlPage`, after the walk `w`
over the page (lines 274-353): the text is joined and vectorized, the
keywords, the frontier, the document and the counters are written.  Here
`pending` is the frontier after the dequeue, `countStats` the counters read
at the start and `link` the link of the page. -/
def indexPage (env : Env) (db : DB) (pending : Bucket Unit) (countStats : CountStats)
    (link : Link) (contentSize : Nat) (w : Walk) : TxResult :=
  let body := String.join w.text
  let vec := env.GetVector body
  let doc : Document :=
    { URL := link.URL, Title := w.title, Size := contentSize, Length := vec.2 }
  let ix := indexWords link.URL vec.1 ⟨db.keywords, countStats, []⟩
  let pc := List.foldl enqueue (pending, ix.countStats) w.outgoing
  let docs := db.docs.Put link.URL.String doc.json
  let docKeywords := db.docKeywords.Put link.URL.String ix.dockeys
  let countStats : CountStats := { pc.2 with DocumentCount := pc.2.DocumentCount + 1 }
  let stats := db.stats.Put "count" (some countStats)
  ⟨{ pending := pc.1, docs := docs, docKeywords := docKeywords, links := w.links,
     keywords := ix.keywords, stats := stats },
    w.log, countStats, none, .committed⟩

/-- The function passed to `db.Update` in `CrawlPage` (lines 127-354), run
on the buckets `db` of the open transaction. -/
def crawlTx (env : Env) (db : DB) (log : List String) : Outcome TxResult :=
  match db.stats.Get "count" with
  | none => .fatal
  | some none => .fatal
  | some (some countStats) =>
    match db.pending.First with
    | none =>
      .ret ⟨{ db with pending := db.pending.Put seedURL () }, log, countStats,
        some "Somehow saturated the entire internet ?!!", .emptyFrontier⟩
    | some ubytes =>
      let pending := db.pending.Delete ubytes
      match env.urlParse ubytes with
      | none => .ret ⟨{ db with pending := pending }, log, countStats, none, .badURL⟩
      | some uri =>
        match GetLink env db.links log uri with
        | .fatal => .fatal
        | .diverge => .diverge
        | .ret g =>
          let uri := uri.noFragment
          let link := g.link
          if g.err.isSome then
            .ret ⟨{ db with pending := pending.Put uri.String (), links := g.links }, g.log,
              countStats, some "Cannot connect to internet to from link, returning ... ",
              .resolveFailed⟩
          else if !ValidLink link then
            .ret ⟨{ db with pending := pending, links := g.links }, g.log, countStats, none,
              .invalidLink⟩
          else if (db.docs.Get link.URL.String).isSome then
            .ret ⟨{ db with pending := pending, links := g.links }, g.log, countStats, none,
              .alreadyIndexed⟩
          else
            let log := g.log ++ [link.URL.String]
            match env.httpGet g.log link.URL.String with
            | .error e =>
              .ret ⟨{ db with pending := pending.Put link.URL.String (), links := g.links }, log,
                countStats, some e, .fetchFailed⟩
            | .ok resp =>
              match resp.Body with
              | none =>
                .ret ⟨{ db with pending := pending, links := g.links }, log, countStats, none,
                  .readFailed⟩
              | some buff =>
                let contentSize := buff.length
                match env.htmlParse buff with
                | none =>
                  .ret ⟨{ db with pending := pending, links := g.links }, log, countStats, none,
                    .parseFailed⟩
                | some htmlRoot =>
                  match f env htmlRoot ⟨link, g.links, log, [], [], ""⟩ with
                  | .fatal => .fatal
                  | .diverge => .diverge
                  | .ret w => .ret (indexPage env db pending countStats link contentSize w)

/-- The function `CrawlPage` of `crawl.go`: `db.Update` commits the buckets
of the transaction when its function returns no error and keeps the old ones
when it returns an error. -/
def CrawlPage (env : Env) (db : DB) (log : List String) : Outcome TxResult :=
  match crawlTx env db log with
  | .ret t => .ret { t with db := if t.err.isSome then db else t.db }
  | .fatal => .fatal
  | .diverge => .diverge

/-- The database on disk after a call of `CrawlPage`; a process that ends
inside the transaction commits nothing. -/
def persisted (db : DB) : Outcome TxResult → DB
  | .ret t => t.db
  | .fatal => db
  | .diverge => db

/-- The request history after a call of `CrawlPage` (kept as it was when the
process ends inside the transaction). -/
def historyAfter (log : List String) : Outcome TxResult → List String
  | .ret t => t.log
  | .fatal => log
  | .diverge => log

/-- The database and request history after `n` calls of `CrawlPage`. -/
def crawlSteps (env : Env) : Nat → DB × List String → DB × List String
  | 0, s => s
  | n + 1, s =>
    let s1 := crawlSteps env n s
    (persisted s1.1 (CrawlPage env s1.1 s1.2), historyAfter s1.2 (CrawlPage env s1.1 s1.2))

/-! ## Properties of the stored data -/

/-- The aggregate of a keyword record is the sum of the frequencies of the
documents it lists. -/
def KeywordOK (k : Keyword) : Prop :=
  k.Frequency = (k.Docs.map DocumentRef.Frequency).sum

instance (k : Keyword) : Decidable (KeywordOK k) :=
  inferInstanceAs (Decidable (_ = _))

/-- Every record of the keywords bucket satisfies `KeywordOK`. -/
def KeywordInv (b : Bucket Keyword) : Prop :=
  ∀ p ∈ b, KeywordOK p.2

instance (b : Bucket Keyword) : Decidable (KeywordInv b) :=
  inferInstanceAs (Decidable (∀ p ∈ b, KeywordOK p.2))

/-! ## A sample site

The page `http://a.test/` has the title `Hello`, the text
`hello world hello` and one anchor to `http://b.test/`, which answers 404. -/

/-- The URL `http://host/`. -/
def siteURL (host : String) : URL :=
  { Scheme := "http", Opaque := "", User := none, Host := host, Path := "/", RawQuery := "",
    Fragment := "" }

/-- An HTML answer with the given status and no body bytes. -/
def htmlResponse (host : String) (status : Int) : Response :=
  { URL := siteURL host, StatusCode := status, ContentType := "text/html",
    LastModified := "", Body := some [] }

/-- A text node. -/
def textNode (t : String) : Node := Node.mk NodeType.TextNode t [] []

/-- An element without attributes. -/
def element (tag : String) (children : List Node) : Node :=
  Node.mk NodeType.ElementNode tag [] children

/-- An anchor element `a` with one `href`. -/
def anchor (href : String) : Node :=
  Node.mk NodeType.ElementNode "a" [{ Namespace := "", Key := "href", Val := href }] []

/-- The parsed page of `http://a.test/`. -/
def samplePage : Node :=
  Node.mk NodeType.DocumentNode "" []
    [element "html"
      [element "head" [element "title" [textNode "Hello"]],
       element "body" [textNode "hello world hello", anchor "http://b.test/"]]]

/-- The sample network and parsers. -/
def sampleEnv : Env :=
  { httpGet := fun _ u =>
      if u = "http://a.test/" then .ok (htmlResponse "a.test" 200)
      else if u = "http://b.test/" then .ok (htmlResponse "b.test" 404)
      else .error "no such host"
    urlParse := fun s => if s = "http://a.test/" then some (siteURL "a.test") else none
    urlResolve := fun _ r => if r = "http://b.test/" then some (siteURL "b.test") else none
    htmlParse := fun _ => some samplePage
    GetVector := fun body =>
      if body = "Hellohello world hello" then ([("hello", 2), ("world", 1)], 3) else ([], 0) }

/-- A database whose frontier holds `http://a.test/` and nothing else. -/
def sampleDB : DB :=
  { pending := [("http://a.test/", ())], docs := [], docKeywords := [], links := [],
    keywords := [], stats := [("count", some ⟨0, 0, 0⟩)] }

/-- The sample step as it ends: the document of `http://a.test/` is stored,
`hello` and `world` are indexed, the link of `http://b.test/` is stored with
status 404 and nothing is pending. -/
def sampleResult : TxResult :=
  { db :=
      { pending := []
        docs := [("http://a.test/", ⟨siteURL "a.test", "Hello", 0, 3⟩)]
        docKeywords := [("http://a.test/", [⟨"hello", 2⟩, ⟨"world", 1⟩])]
        links :=
          [("http://a.test/",
              { URL := siteURL "a.test", StatusCode := 200, ContentType := "text/html",
                LastModified := "", Redirect := false, Outgoing := none, Incomming := none }),
           ("http://b.test/",
              { URL := siteURL "b.test", StatusCode := 404, ContentType := "text/html",
                LastModified := "", Redirect := false, Outgoing := none, Incomming := none })]
        keywords :=
          [("hello", ⟨2, [⟨siteURL "a.test", 2⟩]⟩), ("world", ⟨1, [⟨siteURL "a.test", 1⟩]⟩)]
        stats := [("count", some ⟨1, 0, 2⟩)] }
    log := ["http://a.test/", "http://a.test/", "http://b.test/"]
    countStats := ⟨1, 0, 2⟩
    err := none
    exit := Exit.committed }

/-- A site of three HTML pages `a.test`, `b.test`, `c.test`, all answering
200, where the page fetched for a crawl parses to `page`. -/
def htmlSite (page : Node) : Env :=
  { httpGet := fun _ u =>
      if u = "http://a.test/" then .ok (htmlResponse "a.test" 200)
      else if u = "http://b.test/" then .ok (htmlResponse "b.test" 200)
      else if u = "http://c.test/" then .ok (htmlResponse "c.test" 200)
      else .error "no such host"
    urlParse := fun s => if s = "http://a.test/" then some (siteURL "a.test") else none
    urlResolve := fun _ r =>
      if r = "http://a.test/" then some (siteURL "a.test")
      else if r = "http://b.test/" then some (siteURL "b.test")
      else if r = "http://c.test/" then some (siteURL "c.test")
      else none
    htmlParse := fun _ => some page
    GetVector := fun _ => ([], 0) }

/-- A page with anchors to `http://b.test/` and `http://c.test/`. -/
def forkPage : Node :=
  Node.mk NodeType.DocumentNode "" []
    [element "html" [element "body" [anchor "http://b.test/", anchor "http://c.test/"]]]

/-- A page with one anchor, to `http://a.test/`. -/
def selfPage : Node :=
  Node.mk NodeType.DocumentNode "" []
    [element "html" [element "body" [anchor "http://a.test/"]]]

/-- The outgoing set stored under `key` (`none` without a record or with a
nil map). -/
def outgoingOf (links : Bucket Link) (key : String) : Option (List String) :=
  (links.Get key).bind Link.Outgoing

/-- The incoming set stored under `key` (`none` without a record or with a
nil map). -/
def incomingOf (links : Bucket Link) (key : String) : Option (List String) :=
  (links.Get key).bind Link.Incomming

/-- The keyword record that the index loop writes for a word of frequency
`n` in the page `url`: the record `old` found under the word, or the record
with frequency 0 and no documents, with `n` added to the aggregate and
`DocumentRef{url, n}` put at the end of `Docs`. -/
def keywordAfter (url : URL) (old : Option Keyword) (n : Nat) : Keyword :=
  { Frequency := (old.getD ⟨0, []⟩).Frequency + n,
    Docs := (old.getD ⟨0, []⟩).Docs ++ [{ URL := url, Frequency := n }] }

/-! ## The paths of a crawl step -/

/-- The returns of the transaction function that carry an error. -/
def Exit.isAborted : Exit → Bool
  | .emptyFrontier => true
  | .resolveFailed => true
  | .fetchFailed => true
  | _ => false

/-- The returns that carry no error and process no content. -/
def Exit.isSkipped : Exit → Bool
  | .badURL => true
  | .invalidLink => true
  | .alreadyIndexed => true
  | .readFailed => true
  | .parseFailed => true
  | _ => false

/-- The three causes of an error: the frontier is empty, `GetLink` on the
dequeued URL returns an error, or the fetch of the page fails. -/
def AbortCause (env : Env) (db : DB) (log : List String) : Prop :=
  db.pending.First = none ∨
  (∃ k uri g, db.pending.First = some k ∧ env.urlParse k = some uri ∧
    GetLink env db.links log uri = .ret g ∧ g.err.isSome = true) ∨
  (∃ k uri g e, db.pending.First = some k ∧ env.urlParse k = some uri ∧
    GetLink env db.links log uri = .ret g ∧ g.err = none ∧ ValidLink g.link = true ∧
    db.docs.Get g.link.URL.String = none ∧
    env.httpGet g.log g.link.URL.String = .error e)

/-- The causes of a return without error: the dequeued string does not
parse, the link is rejected by `ValidLink`, the URL has a document already,
the body cannot be read, the body does not parse, or the page is indexed. -/
def QuietCause (env : Env) (db : DB) (log : List String) : Prop :=
  ∃ k, db.pending.First = some k ∧
    (env.urlParse k = none ∨
     ∃ uri g, env.urlParse k = some uri ∧ GetLink env db.links log uri = .ret g ∧
       g.err = none ∧
       (ValidLink g.link = false ∨
        (ValidLink g.link = true ∧ (db.docs.Get g.link.URL.String).isSome = true) ∨
        (ValidLink g.link = true ∧ db.docs.Get g.link.URL.String = none ∧
          ∃ resp, env.httpGet g.log g.link.URL.String = .ok resp ∧
            (resp.Body = none ∨
             ∃ buff, resp.Body = some buff ∧
               (env.htmlParse buff = none ∨
                ∃ root w, env.htmlParse buff = some root ∧
                  f env root ⟨g.link, g.links, g.log ++ [g.link.URL.String], [], [], ""⟩ =
                    .ret w)))))

/-- The bucket after `Put` of each key of `ks` in turn, with the empty
value. -/
def putAll (b : Bucket Unit) (ks : List String) : Bucket Unit :=
  List.foldl (fun b l => b.Put l ()) b ks


/-- The sample site with the network down: every request fails. -/
def offlineEnv : Env :=
  { sampleEnv with httpGet := fun _ _ => .error "offline" }

/-- The sample step with the network down as it ends: `GetLink` fails on the
dequeued URL and the database is as before. -/
def offlineResult : TxResult :=
  { db := sampleDB, log := ["http://a.test/"], countStats := ⟨0, 0, 0⟩,
    err := some "Cannot connect to internet to from link, returning ... ",
    exit := Exit.resolveFailed }

/-- The sample database with two pending keys, neither of which `urlParse`
of the sample site accepts. -/
def queueDB : DB :=
  { sampleDB with pending := [("http://c.test/", ()), ("http://b.test/", ())] }

/-- The step on `queueDB` as it ends: the smaller key is dropped. -/
def queueResult : TxResult :=
  { db := { queueDB with pending := [("http://c.test/", ())] }, log := [],
    countStats := ⟨0, 0, 0⟩, err := none, exit := Exit.badURL }

/-- A network where `http://a.test/` is redirected to `http://b.test/`: the
answer to a request for the first carries the second as its final URL. -/
def redirectEnv : Env :=
  { sampleEnv with
    httpGet := fun _ u =>
      if u = "http://a.test/" then .ok (htmlResponse "b.test" 200) else .error "no such host" }

/-- The link of an HTML page `http://host/` answering 200. -/
def linkOf (host : String) : Link :=
  { URL := siteURL host, StatusCode := 200, ContentType := "text/html", LastModified := "",
    Redirect := false, Outgoing := none, Incomming := none }

/-- A redirect marker with target `http://host/`. -/
def markerTo (host : String) : Link :=
  { Link.zero with URL := siteURL host, Redirect := true }

/-- What `GetLink` returns for `http://a.test/` on an empty bucket under
`redirectEnv`: the link of `b.test`, stored under `b.test`, and a marker
under `a.test`. -/
def redirectResult : GetLinkResult :=
  { link := linkOf "b.test", err := none,
    links := [("http://b.test/", linkOf "b.test"), ("http://a.test/", markerTo "b.test")],
    log := ["http://a.test/"] }

/-- A links bucket where `a.test` redirects to `b.test`, which redirects to
`c.test`, which holds a link. -/
def chainStore : Bucket Link :=
  [("http://a.test/", markerTo "b.test"), ("http://b.test/", markerTo "c.test"),
   ("http://c.test/", linkOf "c.test")]

/-- The outcome with `g` applied to the value returned, if any. -/
def Outcome.map {α β : Type} (g : α → β) : Outcome α → Outcome β
  | .ret a => .ret (g a)
  | .fatal => .fatal
  | .diverge => .diverge

/-- The attribute lists of the `a` elements that the walk `f` reaches, in
document order: the walk does not go below `script` and `style` elements nor
below text nodes. -/
def anchorsOf : Node → List (List Attribute)
  | .mk ty data attr children =>
    if ty = NodeType.ElementNode then
      (if data = "a" then [attr] else []) ++
        (if data = "script" || data = "style" then [] else anchorsOfList children)
    else if ty = NodeType.TextNode then []
    else anchorsOfList children
where
  /-- The anchors of a list of siblings. -/
  anchorsOfList : List Node → List (List Attribute)
    | [] => []
    | c :: cs => anchorsOf c ++ anchorsOfList cs

/-- The loops over the attributes of several `a` elements, one after the
other. -/
def hrefAll (env : Env) : List (List Attribute) → Walk → Outcome Walk
  | [], w => .ret w
  | attr :: rest, w =>
    match hrefLoop env attr w with
    | .ret w => hrefAll env rest w
    | .fatal => .fatal
    | .diverge => .diverge

/-- The text that the walk `f` collects below a node: the data of the text
nodes it reaches, in document order. -/
def walkText : Node → List String
  | .mk ty data _ children =>
    if ty = NodeType.ElementNode then
      (if data = "script" || data = "style" then [] else walkTextList children)
    else if ty = NodeType.TextNode then [data]
    else walkTextList children
where
  /-- The text collected below a list of siblings. -/
  walkTextList : List Node → List String
    | [] => []
    | c :: cs => walkText c ++ walkTextList cs

/-- The data of all text nodes of the tree that have no `script` or `style`
element among their ancestors (nor are below such an element), depth-first
and left to right. -/
def visibleText : Node → List String
  | .mk ty data _ children =>
    if ty = NodeType.ElementNode ∧ (data = "script" ∨ data = "style") then []
    else (if ty = NodeType.TextNode then [data] else []) ++ visibleTextList children
where
  /-- The visible text of a list of siblings. -/
  visibleTextList : List Node → List String
    | [] => []
    | c :: cs => visibleText c ++ visibleTextList cs

/-- Whether every text node of the tree is a leaf, as in the trees that
`html.Parse` builds. -/
def textLeaves : Node → Bool
  | .mk ty _ _ children =>
    (if ty = NodeType.TextNode then children.isEmpty else true) && textLeavesList children
where
  /-- Whether the text nodes of a list of siblings are leaves. -/
  textLeavesList : List Node → Bool
    | [] => true
    | c :: cs => textLeaves c && textLeavesList cs

/-- For each `title` element that the walk `f` reaches and that has a text
child, the data of its first text child; in document order. -/
def titleTexts : Node → List String
  | .mk ty data _ children =>
    if ty = NodeType.ElementNode then
      (if data = "title" then (firstText children).toList else []) ++
        (if data = "script" || data = "style" then [] else titleTextsList children)
    else if ty = NodeType.TextNode then []
    else titleTextsList children
where
  /-- The title texts of a list of siblings. -/
  titleTextsList : List Node → List String
    | [] => []
    | c :: cs => titleTexts c ++ titleTextsList cs

/-- The walk state with `text` and `title` replaced. -/
def Walk.withText (w : Walk) (text : List String) (title : String) : Walk :=
  { w with text := text, title := title }

/-- The sample database in which `http://a.test/` has a document already. -/
def indexedDB : DB :=
  { sampleDB with docs := [("http://a.test/", ⟨siteURL "a.test", "Old", 7, 1⟩)] }

/-- The step on `indexedDB` as it ends: the link is resolved and stored, the
page is not fetched. -/
def indexedResult : TxResult :=
  { db := { indexedDB with pending := [], links := [("http://a.test/", linkOf "a.test")] },
    log := ["http://a.test/"], countStats := ⟨0, 0, 0⟩, err := none,
    exit := Exit.alreadyIndexed }

/-- The counter of keywords in the stats bucket, when there is a decodable
record, is the number of records of the keywords bucket. -/
def KeywordCountOK (db : DB) : Prop :=
  ∀ cs, db.stats.Get "count" = some (some cs) → cs.KeywordCount = List.length db.keywords

/-- A page where the same anchor to `http://b.test/` occurs twice. -/
def twicePage : Node :=
  Node.mk NodeType.DocumentNode "" []
    [element "html" [element "body" [anchor "http://b.test/", anchor "http://b.test/"]]]

/-- The sample database with `http://b.test/` pending as well. -/
def pendingDB : DB :=
  { sampleDB with pending := [("http://a.test/", ()), ("http://b.test/", ())] }

/-- The step of the site with `twicePage` on `pendingDB` as it ends: one
key pending, a counter of two. -/
def twiceResult : TxResult :=
  { db :=
      { pending := [("http://b.test/", ())]
        docs := [("http://a.test/", ⟨siteURL "a.test", "", 0, 0⟩)]
        docKeywords := [("http://a.test/", [])]
        links :=
          [("http://a.test/", { linkOf "a.test" with Outgoing := some ["http://b.test/"] }),
           ("http://b.test/", { linkOf "b.test" with Incomming := some ["http://a.test/"] })]
        keywords := []
        stats := [("count", some ⟨1, 2, 0⟩)] }
    log := ["http://a.test/", "http://a.test/", "http://b.test/"]
    countStats := ⟨1, 2, 0⟩
    err := none
    exit := Exit.committed }

/-- Every redirect marker of the bucket has as target a key that holds a
record that is no marker (the key of a target is its fragment-free string,
under which `GetLink` looks it up). -/
def OneHop (links : Bucket Link) : Prop :=
  ∀ k m, links.Get k = some m → m.Redirect = true →
    ∃ l, links.Get m.URL.noFragment.String = some l ∧ l.Redirect = false

/-- The elements with tag `title` of the tree, in document order (depth-first,
left to right). -/
def titleElements : Node → List Node
  | .mk ty data attr children =>
    (if ty = NodeType.ElementNode ∧ data = "title" then [Node.mk ty data attr children] else [])
      ++ titleElementsList children
where
  /-- The title elements of a list of siblings. -/
  titleElementsList : List Node → List Node
    | [] => []
    | c :: cs => titleElements c ++ titleElementsList cs

/-- The title as the specification words it: the first text child of the
first `title` element in document order (empty without one). -/
def firstTitle (root : Node) : String :=
  match (titleElements root).head? with
  | some n => (firstText n.children).getD ""
  | none => ""

/-- A page with a `title` in its head and a second `title` inside an `svg`
element of its body. -/
def twoTitlePage : Node :=
  Node.mk NodeType.DocumentNode "" []
    [element "html"
      [element "head" [element "title" [textNode "First"]],
       element "body" [element "svg" [element "title" [textNode "Second"]]]]]

/-- The title of the document stored under `key`, if there is one. -/
def titleOf (docs : Bucket Document) (key : String) : Option String :=
  (docs.Get key).map Document.Title

/-- The sample database in which `http://b.test/` has a document already. -/
def childIndexedDB : DB :=
  { sampleDB with docs := [("http://b.test/", ⟨siteURL "b.test", "B", 0, 0⟩)] }

/-- The link that `GetLink` builds from the answer to a fetch (lines 71-79). -/
def fetchedLink (resp : Response) : Link :=
  { URL := resp.URL.noFragment, StatusCode := resp.StatusCode, ContentType := resp.ContentType,
    LastModified := stringsTrim resp.LastModified " \t\n", Redirect := false,
    Outgoing := none, Incomming := none }

/-- The redirect marker that `GetLink` builds for a final URL (lines 90-93). -/
def markerFor (finalURL : URL) : Link :=
  { Link.zero with URL := finalURL, Redirect := true }

/-- The links bucket that `GetLink` leaves after a fetch for the fragment-free
`url` that `resp` answers (lines 81-100): the link is put under the final
URL, and a marker under `url` when the two print differently. -/
def linksAfterFetch (s : Bucket Link) (url : URL) (resp : Response) : Bucket Link :=
  if resp.URL.noFragment.String ≠ url.String then
    (s.Put resp.URL.noFragment.String (fetchedLink resp).json).Put url.String
      (markerFor resp.URL.noFragment).json
  else s.Put resp.URL.noFragment.String (fetchedLink resp).json

/-- A run of `CrawlPage` up to the end of the walk over the page (lines
138-272): `cs` are the counters read, `k` the key dequeued, `uri` its parse,
`g` what `GetLink` returns for it, `resp` the answer to the fetch of the
page, `buff` its body, `root` the parsed body, and `w` the variables of the
closure `f` after `f(htmlRoot)`. -/
structure CommittedRun (env : Env) (db : DB) (log : List String) (cs : CountStats)
    (k : String) (uri : URL) (g : GetLinkResult) (resp : Response) (buff : List Nat)
    (root : Node) (w : Walk) : Prop where
  stats : db.stats.Get "count" = some (some cs)
  first : db.pending.First = some k
  parse : env.urlParse k = some uri
  resolve : GetLink env db.links log uri = .ret g
  noErr : g.err = none
  valid : ValidLink g.link = true
  fresh : db.docs.Get g.link.URL.String = none
  fetch : env.httpGet g.log g.link.URL.String = .ok resp
  body : resp.Body = some buff
  html : env.htmlParse buff = some root
  walk : f env root ⟨g.link, g.links, g.log ++ [g.link.URL.String], [], [], ""⟩ = .ret w

/-- The sample site with a vectorizer that returns the blank word with
frequency 1. -/
def blankWordEnv : Env :=
  { sampleEnv with GetVector := fun _ => ([("", 1)], 1) }

/-- The user info `user:pw`. -/
def userPw : Userinfo := { username := "user", password := "pw", passwordSet := true }

/-- The URL `http://user:pw@host/`. -/
def userURL (host : String) : URL := { siteURL host with User := some userPw }

/-- The sample site reached with user info: the page is
`http://user:pw@a.test/`. -/
def userEnv : Env :=
  { sampleEnv with
    httpGet := fun _ u =>
      if u = "http://user:pw@a.test/" then
        .ok { htmlResponse "a.test" 200 with URL := userURL "a.test" }
      else if u = "http://b.test/" then .ok (htmlResponse "b.test" 404)
      else .error "no such host"
    urlParse := fun s => if s = "http://user:pw@a.test/" then some (userURL "a.test") else none }

/-- A database whose frontier holds `http://user:pw@a.test/` and nothing
else. -/
def userDB : DB := { sampleDB with pending := [("http://user:pw@a.test/", ())] }

/-- The outcome of a second call that starts from what the first returned. -/
def Outcome.bind {α β : Type} (o : Outcome α) (g : α → Outcome β) : Outcome β :=
  match o with
  | .ret a => g a
  | .fatal => .fatal
  | .diverge => .diverge

/-- A host name of 32769 bytes. -/
def longHost : String := String.mk (List.replicate 32769 'x')

/-- A network where a request for `http://a.test/` is redirected to the
page `http://xx...x/`, whose URL has more than 32768 bytes, and a request
for anything else ends at `http://b.test/`. -/
def longEnv : Env :=
  { sampleEnv with
    httpGet := fun _ u =>
      if u = "http://a.test/" then .ok (htmlResponse longHost 200)
      else .ok (htmlResponse "b.test" 200) }

/-- `GetLink` called twice in a row on the same URL, the second time on
the bucket and the request history that the first call left: what the two
calls return. -/
def lookupTwice (env : Env) (s : Bucket Link) (u : URL) :
    Outcome (GetLinkResult × GetLinkResult) :=
  (GetLink env s [] u).bind fun r1 => (GetLink env r1.links r1.log u).map fun r2 => (r1, r2)

/-- The record of the parent that `AddOutgoingLink` encodes (lines 22-33):
the parent with the child's URL added to its outgoing set, a nil set
counting as empty. -/
def parentRecord (parentLink childLink : Link) : Link :=
  { parentLink with
    Outgoing := some (setAdd (parentLink.Outgoing.getD []) childLink.URL.String) }

/-- The record of the child that `AddOutgoingLink` encodes (lines 26-38):
the child with the parent's URL added to its incoming set, a nil set
counting as empty. -/
def childRecord (parentLink childLink : Link) : Link :=
  { childLink with
    Incomming := some (setAdd (childLink.Incomming.getD []) parentLink.URL.String) }

/-- A final URL under which `GetLink` stores a link that it finds again:
JSON gives the URL back as it is (it has no user info, or an empty one) and
bolt takes its string as a key. -/
def URL.storable (u : URL) : Prop :=
  u.json = u ∧ keyOK u.String = true

instance (u : URL) : Decidable u.storable :=
  inferInstanceAs (Decidable (_ ∧ _))

/-- Every answer of the network carries a final URL that is storable once
its fragment is dropped. -/
def Env.storableAnswers (env : Env) : Prop :=
  ∀ log u resp, env.httpGet log u = .ok resp → resp.URL.noFragment.storable

/-- A network where `http://a.test/` is redirected to
`http://user:pw@b.test/`, a request with empty user info to `b.test` is
redirected to `http://user:pw@c.test/`, and a request with empty user info to
`c.test` is redirected to `http://user:pw@b.test/`. -/
def cycleEnv : Env :=
  { sampleEnv with
    httpGet := fun _ u =>
      if u = "http://a.test/" then
        .ok { htmlResponse "b.test" 200 with URL := userURL "b.test" }
      else if u = "http://@b.test/" then
        .ok { htmlResponse "c.test" 200 with URL := userURL "c.test" }
      else if u = "http://@c.test/" then
        .ok { htmlResponse "b.test" 200 with URL := userURL "b.test" }
      else .error "no such host" }

/-- The links bucket after three calls of `GetLink` on `http://a.test/`
under `cycleEnv`, from the empty bucket: the markers under `http://@b.test/`
and `http://@c.test/` point at each other. -/
def cycleStore : Bucket Link :=
  [("http://user:pw@b.test/", { linkOf "b.test" with URL := (userURL "b.test").json }),
   ("http://a.test/", (markerFor (userURL "b.test")).json),
   ("http://user:pw@c.test/", { linkOf "c.test" with URL := (userURL "c.test").json }),
   ("http://@b.test/", (markerFor (userURL "c.test")).json),
   ("http://@c.test/", (markerFor (userURL "b.test")).json)]

/-- The bucket and the request history after `n` calls of `GetLink` on `u`,
one after the other, from the empty bucket and the empty history. -/
def lookups (env : Env) (u : URL) : Nat → Outcome (Bucket Link × List String)
  | 0 => .ret ([], [])
  | n + 1 =>
    (lookups env u n).bind fun s => (GetLink env s.1 s.2 u).map fun r => (r.links, r.log)

/-- Whether the record under `k` is a redirect marker whose target key holds
no record. -/
def danglingMarker (s : Bucket Link) (k : String) : Bool :=
  match s.Get k with
  | some m => m.Redirect && (s.Get m.URL.noFragment.String).isNone
  | none => false

/-- A site where `http://a.test/` is redirected to `http://b.test/`, whose
page has one anchor, to `http://a.test/`. -/
def redirectSite : Env :=
  { htmlSite selfPage with
    httpGet := fun _ u =>
      if u = "http://a.test/" then .ok (htmlResponse "b.test" 200)
      else if u = "http://b.test/" then .ok (htmlResponse "b.test" 200)
      else .error "no such host" }

/-- The child links that the loop over the attributes of an `a` element
registers (lines 220-243), in order: those for which the loop reaches
`AddOutgoingLink` and the `append` to `outgoing`.  The recursion is that of
`hrefLoop`. -/
def hrefChildren (env : Env) : List Attribute → Walk → List Link
  | [], _ => []
  | a :: rest, w =>
    if a.Key = "href" then
      match env.urlResolve w.link.URL a.Val with
      | none => []
      | some childURL =>
        if !(childURL.Scheme = "http" || childURL.Scheme = "https") then []
        else
          match GetLink env w.links w.log childURL with
          | .fatal => []
          | .diverge => []
          | .ret r =>
            if r.err.isSome then []
            else if !ValidLink r.link then []
            else
              r.link :: hrefChildren env rest
                { w with
                  links := AddOutgoingLink r.links w.link r.link
                  link := parentAfterAdd w.link r.link
                  log := r.log
                  outgoing := w.outgoing ++ [r.link.URL.String] }
    else hrefChildren env rest w

/-- The child links that the loops over several `a` elements register, one
element after the other. -/
def registered (env : Env) : List (List Attribute) → Walk → List Link
  | [], _ => []
  | attr :: rest, w =>
    hrefChildren env attr w ++
      (match hrefLoop env attr w with
        | .ret w' => registered env rest w'
        | .fatal => []
        | .diverge => [])

theorem Bucket.Get_mem {α : Type} (b : Bucket α) (k : String) (v : α)
    (h : b.Get k = some v) : (k, v) ∈ b := by
  induction b with
  | nil => simp [Bucket.Get] at h
  | cons p rest ih =>
    obtain ⟨k', v'⟩ := p
    simp only [Bucket.Get] at h
    split at h
    · rename_i hk; cases h; subst hk; exact List.mem_cons_self _ _
    · exact List.mem_cons_of_mem _ (ih h)

theorem fitsIn_iff (cs : List Char) (n : Nat) :
    fitsIn cs n = true ↔ (String.mk cs).utf8ByteSize ≤ n := by
  induction cs generalizing n with
  | nil => simp [fitsIn, String.utf8ByteSize, String.utf8ByteSize.go]
  | cons c cs ih =>
    simp only [fitsIn, String.utf8ByteSize, String.utf8ByteSize.go] at ih ⊢
    split
    · simp; omega
    · rw [ih]; omega

/-- The check `keyOK` is bolt's: the key is not blank and has at most
`MaxKeySize` bytes. -/
theorem keyOK_iff (k : String) :
    keyOK k = true ↔ k ≠ "" ∧ k.utf8ByteSize ≤ MaxKeySize := by
  simp only [keyOK, Bool.and_eq_true, decide_eq_true_eq, fitsIn_iff]
  rfl

theorem Bucket.Put_ok {α : Type} (b : Bucket α) (k : String) (v : α) (h : keyOK k = true) :
    b.Put k v = b.write k v := by
  simp [Bucket.Put, h]

theorem Bucket.Put_refused {α : Type} (b : Bucket α) (k : String) (v : α)
    (h : keyOK k = false) : b.Put k v = b := by
  simp [Bucket.Put, h]

theorem Bucket.mem_write {α : Type} (b : Bucket α) (k : String) (v : α) (p : String × α)
    (h : p ∈ b.write k v) : p = (k, v) ∨ p ∈ b := by
  induction b with
  | nil => simp [Bucket.write] at h; exact Or.inl h
  | cons q rest ih =>
    obtain ⟨k', v'⟩ := q
    simp only [Bucket.write] at h
    split at h
    · rcases List.mem_cons.mp h with h | h
      · exact Or.inl h
      · exact Or.inr (List.mem_cons_of_mem _ h)
    · rcases List.mem_cons.mp h with h | h
      · exact Or.inr (h ▸ List.mem_cons_self _ _)
      · rcases ih h with h | h
        · exact Or.inl h
        · exact Or.inr (List.mem_cons_of_mem _ h)

theorem Bucket.mem_Put {α : Type} (b : Bucket α) (k : String) (v : α) (p : String × α)
    (h : p ∈ b.Put k v) : p = (k, v) ∨ p ∈ b := by
  unfold Bucket.Put at h
  split at h
  · exact Bucket.mem_write b k v p h
  · exact Or.inr h

theorem Bucket.Get_write {α : Type} (b : Bucket α) (k : String) (v : α) (k' : String) :
    (b.write k v).Get k' = if k = k' then some v else b.Get k' := by
  induction b with
  | nil => simp [Bucket.write, Bucket.Get]
  | cons q rest ih =>
    obtain ⟨k₀, v₀⟩ := q
    simp only [Bucket.write]
    by_cases h0 : k₀ = k
    · subst h0
      by_cases h1 : k₀ = k' <;> simp [Bucket.Get, h1]
    · by_cases h1 : k₀ = k'
      · subst h1
        have : ¬ k = k₀ := fun h => h0 h.symm
        simp [Bucket.Get, h0, this]
      · simp [Bucket.Get, h0, h1, ih]

theorem Bucket.Get_Put {α : Type} (b : Bucket α) (k : String) (v : α) (k' : String) :
    (b.Put k v).Get k' = if keyOK k = true ∧ k = k' then some v else b.Get k' := by
  unfold Bucket.Put
  by_cases h : keyOK k = true
  · rw [if_pos h, Bucket.Get_write]; simp [h]
  · rw [if_neg h]; simp [h]

theorem Bucket.Get_Put_ne {α : Type} (b : Bucket α) (k : String) (v : α) (k' : String)
    (h : k ≠ k') : (b.Put k v).Get k' = b.Get k' := by
  rw [Bucket.Get_Put, if_neg (fun e => h e.2)]

theorem Bucket.Get_Delete {α : Type} (b : Bucket α) (k k' : String) :
    (b.Delete k).Get k' = if k = k' then none else b.Get k' := by
  induction b with
  | nil => simp [Bucket.Delete, Bucket.Get]
  | cons q rest ih =>
    obtain ⟨k₀, v₀⟩ := q
    unfold Bucket.Delete at ih ⊢
    by_cases h0 : k₀ = k
    · subst h0
      by_cases h1 : k₀ = k'
      · simp [List.filter, Bucket.Get, h1] at ih ⊢; simpa [h1] using ih
      · simp [List.filter, Bucket.Get, h1] at ih ⊢; simpa [h1] using ih
    · by_cases h1 : k₀ = k'
      · subst h1
        have : ¬ k = k₀ := fun h => h0 h.symm
        simp [List.filter, Bucket.Get, h0, this]
      · simp [List.filter, Bucket.Get, h0, h1] at ih ⊢; exact ih

theorem Bucket.length_write_le {α : Type} (b : Bucket α) (k : String) (v : α) :
    List.length b ≤ List.length (b.write k v) := by
  induction b with
  | nil => simp [Bucket.write]
  | cons q rest ih =>
    obtain ⟨k₀, v₀⟩ := q
    simp only [Bucket.write]
    split
    · simp
    · simp only [List.length_cons]; omega

theorem Bucket.length_Put_le {α : Type} (b : Bucket α) (k : String) (v : α) :
    List.length b ≤ List.length (b.Put k v) := by
  unfold Bucket.Put
  split
  · exact Bucket.length_write_le b k v
  · exact Nat.le_refl _

theorem Bucket.length_write_absent {α : Type} (b : Bucket α) (k : String) (v : α)
    (h : b.Get k = none) : List.length (b.write k v) = List.length b + 1 := by
  induction b with
  | nil => simp [Bucket.write]
  | cons q rest ih =>
    obtain ⟨k₀, v₀⟩ := q
    simp only [Bucket.Get] at h
    split at h
    · cases h
    · rename_i hk
      simp only [Bucket.write, hk, if_false, List.length_cons, ih h]

theorem Bucket.length_Put_absent {α : Type} (b : Bucket α) (k : String) (v : α)
    (hk : keyOK k = true) (h : b.Get k = none) :
    List.length (b.Put k v) = List.length b + 1 := by
  rw [Bucket.Put_ok b k v hk, Bucket.length_write_absent b k v h]

theorem Bucket.mem_keys_of_Get {α : Type} (b : Bucket α) (k : String) (v : α)
    (h : b.Get k = some v) : k ∈ b.keys := by
  have := Bucket.Get_mem b k v h
  exact List.mem_map.mpr ⟨(k, v), this, rfl⟩

theorem Bucket.length_le_of_nodup {α : Type} (b : Bucket α) (ks : List String)
    (hnd : ks.Nodup) (hin : ∀ k ∈ ks, ∃ v, b.Get k = some v) :
    ks.length ≤ List.length b := by
  have hsub : ks ⊆ b.keys := by
    intro k hk
    obtain ⟨v, hv⟩ := hin k hk
    exact Bucket.mem_keys_of_Get b k v hv
  have := (List.subperm_of_subset hnd hsub).length_le
  simpa [Bucket.keys] using this

theorem Bucket.two_le_length {α : Type} (b : Bucket α) (k1 k2 : String) (v1 v2 : α)
    (h1 : b.Get k1 = some v1) (h2 : b.Get k2 = some v2) (hne : k1 ≠ k2) :
    2 ≤ List.length b := by
  cases b with
  | nil => simp [Bucket.Get] at h1
  | cons p rest =>
    cases rest with
    | nil =>
      obtain ⟨k, v⟩ := p
      simp only [Bucket.Get] at h1 h2
      split at h1
      · split at h2
        · rename_i e1 e2; exact absurd (e1.symm.trans e2) hne
        · cases h2
      · cases h1
    | cons q rest => simp

theorem Bucket.Get_of_mem_keys (b : Bucket Unit) (k : String) (h : k ∈ b.keys) :
    b.Get k = some () := by
  induction b with
  | nil => simp [Bucket.keys] at h
  | cons p rest ih =>
    obtain ⟨k₀, v₀⟩ := p
    simp only [Bucket.keys, List.map_cons, List.mem_cons] at h
    simp only [Bucket.Get]
    by_cases hk : k₀ = k
    · simp [hk]
    · rcases h with h | h
      · exact absurd h.symm hk
      · simp [hk]; exact ih h

/-! ## Lemmas: the key order and the first key -/

theorem lexLe_refl (a : List Nat) : lexLe a a = true := by
  induction a with
  | nil => rfl
  | cons x xs ih => simp [lexLe, ih]

theorem lexLe_total (a b : List Nat) : lexLe a b = true ∨ lexLe b a = true := by
  induction a generalizing b with
  | nil => left; rfl
  | cons x xs ih =>
    cases b with
    | nil => right; rfl
    | cons y ys =>
      simp only [lexLe]
      by_cases h1 : x < y
      · left; simp [h1]
      · by_cases h2 : y < x
        · right; simp [h2]
        · simp only [h1, h2, if_false]; exact ih ys

theorem lexLe_trans (a b c : List Nat) (h1 : lexLe a b = true) (h2 : lexLe b c = true) :
    lexLe a c = true := by
  induction a generalizing b c with
  | nil => rfl
  | cons x xs ih =>
    cases b with
    | nil => simp [lexLe] at h1
    | cons y ys =>
      cases c with
      | nil => simp [lexLe] at h2
      | cons z zs =>
        simp only [lexLe] at h1 h2 ⊢
        by_cases hxy : x < y
        · by_cases hyz : y < z
          · have : x < z := by omega
            simp [this]
          · by_cases hzy : z < y
            · simp [hyz, hzy] at h2
            · have : x < z := by omega
              simp [this]
        · by_cases hyx : y < x
          · simp [hxy, hyx] at h1
          · simp only [hxy, hyx, if_false] at h1
            have hxy' : x = y := by omega
            subst hxy'
            by_cases hxz : x < z
            · simp [hxz]
            · by_cases hzx : z < x
              · simp [hxz, hzx] at h2
              · simp only [hxz, hzx, if_false] at h2 ⊢
                exact ih ys zs h1 h2

theorem lexLe_antisymm (a b : List Nat) (h1 : lexLe a b = true) (h2 : lexLe b a = true) :
    a = b := by
  induction a generalizing b with
  | nil =>
    cases b with
    | nil => rfl
    | cons y ys => simp [lexLe] at h2
  | cons x xs ih =>
    cases b with
    | nil => simp [lexLe] at h1
    | cons y ys =>
      simp only [lexLe] at h1 h2
      by_cases hxy : x < y
      · have : ¬ y < x := by omega
        simp [hxy, this] at h2
      · by_cases hyx : y < x
        · simp [hxy, hyx] at h1
        · simp only [hxy, hyx, if_false] at h1 h2
          have : x = y := by omega
          subst this
          rw [ih ys h1 h2]

theorem keyLe_refl (a : String) : keyLe a a = true := lexLe_refl _

theorem keyLe_total (a b : String) : keyLe a b = true ∨ keyLe b a = true := lexLe_total _ _

theorem keyLe_trans (a b c : String) (h1 : keyLe a b = true) (h2 : keyLe b c = true) :
    keyLe a c = true := lexLe_trans _ _ _ h1 h2

theorem keyLe_antisymm (a b : String) (h1 : keyLe a b = true) (h2 : keyLe b a = true) :
    a = b := by
  have h := lexLe_antisymm _ _ h1 h2
  have hinj : Function.Injective Char.toNat := by
    intro c d hcd
    rw [← Char.ofNat_toNat c, ← Char.ofNat_toNat d, hcd]
  exact String.toList_inj.mp (List.map_injective_iff.mpr hinj h)

theorem Bucket.First_eq_none {α : Type} (b : Bucket α) : b.First = none ↔ b = [] := by
  cases b with
  | nil => simp [Bucket.First]
  | cons p rest =>
    obtain ⟨k, v⟩ := p
    simp only [Bucket.First]
    cases Bucket.First rest <;> simp

theorem Bucket.First_min {α : Type} (b : Bucket α) (k : String) (h : b.First = some k) :
    k ∈ b.keys ∧ ∀ k' ∈ b.keys, keyLe k k' = true := by
  induction b generalizing k with
  | nil => simp [Bucket.First] at h
  | cons p rest ih =>
    obtain ⟨k₀, v₀⟩ := p
    simp only [Bucket.First] at h
    cases hr : Bucket.First rest with
    | none =>
      rw [hr] at h
      injection h with h
      subst h
      have : rest = [] := (Bucket.First_eq_none rest).mp hr
      subst this
      simp [Bucket.keys, keyLe_refl]
    | some m =>
      rw [hr] at h
      injection h with h
      obtain ⟨hm, hmin⟩ := ih m hr
      simp only [Bucket.keys, List.map_cons, List.mem_cons, forall_eq_or_imp]
      unfold keyMin at h
      by_cases hle : keyLe k₀ m = true
      · rw [if_pos hle] at h
        subst h
        exact ⟨Or.inl rfl, keyLe_refl _, fun k' hk' => keyLe_trans _ _ _ hle (hmin k' hk')⟩
      · rw [if_neg hle] at h
        subst h
        have hle2 : keyLe m k₀ = true := by
          rcases keyLe_total m k₀ with h | h
          · exact h
          · exact absurd h hle
        exact ⟨Or.inr hm, hle2, hmin⟩

/-! ## Lemmas: substring search -/

theorem startsWith_iff (s sub : List Char) : startsWith s sub = true ↔ sub <+: s := by
  induction s generalizing sub with
  | nil =>
    cases sub with
    | nil => simp [startsWith]
    | cons d ds => simp [startsWith]
  | cons c cs ih =>
    cases sub with
    | nil => simp [startsWith]
    | cons d ds =>
      simp only [startsWith, Bool.and_eq_true, decide_eq_true_eq, ih, List.cons_prefix_cons]
      constructor
      · rintro ⟨h1, h2⟩; exact ⟨h1.symm, h2⟩
      · rintro ⟨h1, h2⟩; exact ⟨h1.symm, h2⟩

theorem containsAt_iff (s sub : List Char) : containsAt s sub = true ↔ sub <:+: s := by
  induction s with
  | nil =>
    simp only [containsAt, startsWith_iff]
    constructor
    · intro h; exact h.isInfix
    · intro h
      have : sub = [] := List.eq_nil_of_infix_nil h
      subst this; exact List.prefix_refl _
  | cons c cs ih =>
    simp only [containsAt, Bool.or_eq_true, startsWith_iff, ih, List.infix_cons_iff]

/-! ## Lemmas: the recursion of GetLink -/

theorem GetLinkFuel_mono (env : Env) (s : Bucket Link) (log : List String) :
    ∀ (n : Nat) (u : URL) (r : GetLinkResult), GetLinkFuel env n s log u = .ret r →
      ∀ m, n ≤ m → GetLinkFuel env m s log u = .ret r := by
  intro n
  induction n with
  | zero => intro u r h; simp [GetLinkFuel] at h
  | succ n ih =>
    intro u r h m hm
    obtain ⟨m', rfl⟩ : ∃ m', m = m' + 1 := ⟨m - 1, by omega⟩
    simp only [GetLinkFuel] at h ⊢
    cases hg : s.Get u.noFragment.String with
    | none => rw [hg] at h; simpa using h
    | some link =>
      rw [hg] at h
      dsimp only at h ⊢
      by_cases hr : link.Redirect = true
      · rw [if_pos hr] at h ⊢
        exact ih _ _ h m' (by omega)
      · rw [if_neg hr] at h ⊢
        exact h

theorem GetLinkFuel_key (env : Env) (s : Bucket Link) (log : List String) (n : Nat)
    (u u' : URL) (h : u.noFragment.String = u'.noFragment.String) :
    GetLinkFuel env n s log u = GetLinkFuel env n s log u' := by
  cases n with
  | zero => rfl
  | succ n =>
    rw [GetLinkFuel, GetLinkFuel]
    dsimp only
    rw [h]

theorem GetLinkFuel_ne_fatal (env : Env) (s : Bucket Link) (log : List String) :
    ∀ (n : Nat) (u : URL), GetLinkFuel env n s log u ≠ .fatal := by
  intro n
  induction n with
  | zero => intro u h; simp [GetLinkFuel] at h
  | succ n ih =>
    intro u h
    rw [GetLinkFuel] at h
    dsimp only at h
    split at h
    · split at h
      · exact ih _ h
      · cases h
    · split at h <;> cases h

theorem GetLink_ne_fatal (env : Env) (s : Bucket Link) (log : List String) (u : URL) :
    GetLink env s log u ≠ .fatal := GetLinkFuel_ne_fatal env s log _ u

theorem GetLinkFuel_chain (env : Env) (s : Bucket Link) (log : List String) :
    ∀ (n : Nat) (u : URL) (r : GetLinkResult), GetLinkFuel env n s log u = .ret r →
      ∃ ks : List String, ks.Nodup ∧ (∀ k ∈ ks, ∃ l, s.Get k = some l) ∧
        (∀ pre k suf, ks = pre ++ k :: suf → ∀ v : URL, v.noFragment.String = k →
          GetLinkFuel env (suf.length + 2) s log v = .ret r) ∧
        GetLinkFuel env (ks.length + 1) s log u = .ret r := by
  intro n
  induction n with
  | zero => intro u r h; simp [GetLinkFuel] at h
  | succ n ih =>
    intro u r h
    have h0 := h
    rw [GetLinkFuel] at h
    dsimp only at h
    cases hg : s.Get u.noFragment.String with
    | none =>
      refine ⟨[], List.nodup_nil, by simp, ?_, ?_⟩
      · intro pre k suf e; simp at e
      · rw [GetLinkFuel]; dsimp only
        rw [hg] at h ⊢
        exact h
    | some link =>
      rw [hg] at h
      dsimp only at h
      by_cases hr : link.Redirect = true
      · rw [if_pos hr] at h
        obtain ⟨ks1, hnd, hin, hsuf, hu1⟩ := ih link.URL r h
        have hstep : ∀ (m : Nat) (v : URL), v.noFragment.String = u.noFragment.String →
            GetLinkFuel env m s log link.URL = .ret r →
            GetLinkFuel env (m + 1) s log v = .ret r := by
          intro m v hv hm
          rw [GetLinkFuel]; dsimp only
          rw [hv, hg]; dsimp only
          rw [if_pos hr]; exact hm
        by_cases hmem : u.noFragment.String ∈ ks1
        · obtain ⟨pre, suf, e⟩ := List.append_of_mem hmem
          refine ⟨u.noFragment.String :: suf, ?_, ?_, ?_, ?_⟩
          · rw [e] at hnd
            exact (List.nodup_append.mp hnd).2.1
          · intro k hk
            exact hin k (by rw [e]; exact List.mem_append_right _ hk)
          · intro pre2 k suf2 e2 v hv
            exact hsuf (pre ++ pre2) k suf2 (by rw [e, e2, List.append_assoc]) v hv
          · exact hsuf pre _ suf e u rfl
        · refine ⟨u.noFragment.String :: ks1, List.nodup_cons.mpr ⟨hmem, hnd⟩, ?_, ?_, ?_⟩
          · intro k hk
            rcases List.mem_cons.mp hk with hk | hk
            · exact ⟨link, by rw [hk]; exact hg⟩
            · exact hin k hk
          · intro pre k suf e v hv
            cases pre with
            | nil =>
              simp only [List.nil_append, List.cons.injEq] at e
              obtain ⟨e1, e2⟩ := e
              subst e2
              exact hstep _ v (by rw [hv, e1]) hu1
            | cons p pre' =>
              simp only [List.cons_append, List.cons.injEq] at e
              exact hsuf pre' k suf e.2 v hv
          · exact hstep _ u rfl hu1
      · rw [if_neg hr] at h
        refine ⟨[], List.nodup_nil, by simp, ?_, ?_⟩
        · intro pre k suf e; simp at e
        · rw [GetLinkFuel]; dsimp only
          rw [hg]; dsimp only
          rw [if_neg hr]; exact h

/-- Whenever the recursion of `GetLink` returns at some depth, it returns
within as many calls as the bucket has records plus one: the bound of
`GetLink` loses no result. -/
theorem GetLink_complete (env : Env) (s : Bucket Link) (log : List String) (u : URL)
    (r : GetLinkResult) :
    GetLink env s log u = .ret r ↔ ∃ n, GetLinkFuel env n s log u = .ret r := by
  constructor
  · intro h; exact ⟨_, h⟩
  · rintro ⟨n, h⟩
    obtain ⟨ks, hnd, hin, -, hk⟩ := GetLinkFuel_chain env s log n u r h
    have hlen := Bucket.length_le_of_nodup s ks hnd hin
    exact GetLinkFuel_mono env s log _ u r hk _ (by omega)

theorem GetLink_diverge_iff (env : Env) (s : Bucket Link) (log : List String) (u : URL) :
    GetLink env s log u = .diverge ↔ ∀ n, GetLinkFuel env n s log u = .diverge := by
  constructor
  · intro h n
    cases hn : GetLinkFuel env n s log u with
    | ret r =>
      have := (GetLink_complete env s log u r).mpr ⟨n, hn⟩
      rw [h] at this
      cases this
    | fatal => exact absurd hn (GetLinkFuel_ne_fatal env s log n u)
    | diverge => rfl
  · intro h
    exact h _

theorem URL.json_eq_self (u : URL) (h : u.User = none) : u.json = u := by
  cases u
  simp only at h
  simp [URL.json, h]

theorem URL.json_json (u : URL) : u.json.json = u.json := by
  cases u with
  | mk sc op us ho pa qu fr => cases us <;> rfl

theorem Link.json_eq_self_of_noUser (l : Link) (h : l.URL.User = none) : l.json = l := by
  cases l
  simp only at h
  simp [Link.json, URL.json_eq_self _ h]

theorem Link.json_eq_of (l : Link) (h : l.URL.json = l.URL) : l.json = l := by
  cases l
  simp only at h
  simp [Link.json, h]

theorem Link.json_idem (l : Link) : l.json.json = l.json := by
  simp [Link.json, URL.json_json]

theorem GetLinkFuel_succ (env : Env) (n : Nat) (s : Bucket Link) (log : List String) (u : URL) :
    GetLinkFuel env (n + 1) s log u =
      match s.Get u.noFragment.String with
      | some link =>
        if link.Redirect then GetLinkFuel env n s log link.URL else .ret ⟨link, none, s, log⟩
      | none =>
        match env.httpGet log u.noFragment.String with
        | .error e => .ret ⟨Link.zero, some e, s, log ++ [u.noFragment.String]⟩
        | .ok resp =>
          .ret ⟨fetchedLink resp, none, linksAfterFetch s u.noFragment resp,
            log ++ [u.noFragment.String]⟩ := by
  rw [GetLinkFuel]
  dsimp only
  cases s.Get u.noFragment.String with
  | some link => rfl
  | none =>
    dsimp only
    cases env.httpGet log u.noFragment.String with
    | error e => rfl
    | ok resp =>
      dsimp only [linksAfterFetch, fetchedLink, markerFor]

theorem linksAfterFetch_Get (s : Bucket Link) (v : URL) (resp : Response) (k : String) :
    (linksAfterFetch s v resp).Get k =
      if resp.URL.noFragment.String ≠ v.String ∧ keyOK v.String = true ∧ v.String = k then
        some (markerFor resp.URL.noFragment).json
      else if keyOK resp.URL.noFragment.String = true ∧ resp.URL.noFragment.String = k then
        some (fetchedLink resp).json
      else s.Get k := by
  unfold linksAfterFetch
  by_cases hd : resp.URL.noFragment.String = v.String
  · simp [hd, Bucket.Get_Put]
  · simp only [ne_eq, hd, not_false_eq_true, if_true, true_and, Bucket.Get_Put]

theorem GetLinkFuel_again (env : Env) :
    ∀ (n : Nat) (s : Bucket Link) (log : List String) (u : URL) (r : GetLinkResult),
      GetLinkFuel env n s log u = .ret r → r.err = none →
      (r.log ≠ log → r.link.URL.json = r.link.URL ∧ keyOK r.link.URL.String = true ∧
        ∀ k0, r.log = log ++ [k0] → keyOK k0 = true) →
      r.link.Redirect = false ∧
      ((r.links = s ∧ r.log = log) ∨ List.length s < List.length r.links) ∧
      (∀ k l, s.Get k = some l → r.links.Get k = some l ∨ r.links.Get k = some r.link) ∧
      GetLinkFuel env (n + 1) r.links r.log u = .ret ⟨r.link, none, r.links, r.log⟩ := by
  intro n
  induction n with
  | zero => intro s log u r h; simp [GetLinkFuel] at h
  | succ n ih =>
    intro s log u r h he hfetch
    rw [GetLinkFuel_succ] at h
    cases hg : s.Get u.noFragment.String with
    | some link =>
      rw [hg] at h
      dsimp only at h
      by_cases hr : link.Redirect = true
      · rw [if_pos hr] at h
        obtain ⟨h1, h2, h3, h4⟩ := ih s log link.URL r h he hfetch
        refine ⟨h1, h2, h3, ?_⟩
        rw [GetLinkFuel_succ]
        rcases h3 _ _ hg with hk | hk
        · rw [hk]; dsimp only; rw [if_pos hr]; exact h4
        · rw [hk]; dsimp only; simp [h1]
      · rw [if_neg hr] at h
        injection h with h
        subst h
        have hr' : link.Redirect = false := by simpa using hr
        refine ⟨hr', Or.inl ⟨rfl, rfl⟩, fun k l hk => Or.inl hk, ?_⟩
        rw [GetLinkFuel_succ, hg]; dsimp only; simp [hr']
    | none =>
      rw [hg] at h
      dsimp only at h
      cases hf : env.httpGet log u.noFragment.String with
      | error e => rw [hf] at h; injection h with h; subst h; simp at he
      | ok resp =>
        rw [hf] at h
        dsimp only at h
        injection h with h
        subst h
        obtain ⟨hU, hK, hR⟩ := hfetch (by simp)
        have hR' : keyOK u.noFragment.String = true := hR _ rfl
        have hj : (fetchedLink resp).json = fetchedLink resp := Link.json_eq_of _ hU
        have hmj : (markerFor resp.URL.noFragment).json = markerFor resp.URL.noFragment :=
          Link.json_eq_of _ hU
        have hK' : keyOK resp.URL.noFragment.String = true := hK
        dsimp only
        refine ⟨rfl, Or.inr ?_, ?_, ?_⟩
        · unfold linksAfterFetch
          split
          · rename_i hd
            rw [Bucket.length_Put_absent _ _ _ hR']
            · have := Bucket.length_Put_le s resp.URL.noFragment.String (fetchedLink resp).json
              omega
            · rw [Bucket.Get_Put_ne _ _ _ _ hd]; exact hg
          · rename_i hd
            have hd' : resp.URL.noFragment.String = u.noFragment.String := by
              simpa using hd
            rw [hd', Bucket.length_Put_absent _ _ _ hR' hg]; omega
        · intro k l hk
          rw [linksAfterFetch_Get, hj]
          by_cases hk2 : u.noFragment.String = k
          · subst hk2; rw [hg] at hk; cases hk
          · by_cases hk3 : resp.URL.noFragment.String = k
            · subst hk3; right; simp [hk2, hK']
            · left; simp [hk2, hk3, hk]
        · rw [GetLinkFuel_succ, linksAfterFetch_Get, hj, hmj]
          by_cases hd : resp.URL.noFragment.String = u.noFragment.String
          · have hnr : (fetchedLink resp).Redirect = false := rfl
            simp [hd, hR', hnr]
          · simp only [ne_eq, hd, not_false_eq_true, hR', and_self, if_true]
            have hm : (markerFor resp.URL.noFragment).Redirect = true := rfl
            rw [if_pos hm]
            rw [GetLinkFuel_succ, linksAfterFetch_Get, hj]
            have hnf : (markerFor resp.URL.noFragment).URL.noFragment = resp.URL.noFragment :=
              rfl
            rw [hnf]
            have hd' : ¬ u.noFragment.String = resp.URL.noFragment.String :=
              fun h => hd h.symm
            have hnr : (fetchedLink resp).Redirect = false := rfl
            simp [hd', hK', hnr]

/-- A call of `GetLink` that returns has read a record that is no marker, or
has made one fetch, for a key without a record: the fetch failed, or it was
answered and the bucket is `linksAfterFetch`. -/
theorem GetLinkFuel_inv (env : Env) (s : Bucket Link) (log : List String) :
    ∀ (n : Nat) (u : URL) (r : GetLinkResult), GetLinkFuel env n s log u = .ret r →
      (∃ k l, s.Get k = some l ∧ l.Redirect = false ∧ r = ⟨l, none, s, log⟩) ∨
      (∃ v : URL, v.Fragment = "" ∧ s.Get v.String = none ∧
        ((∃ e, env.httpGet log v.String = .error e ∧
            r = ⟨Link.zero, some e, s, log ++ [v.String]⟩) ∨
         (∃ resp, env.httpGet log v.String = .ok resp ∧
            r = ⟨fetchedLink resp, none, linksAfterFetch s v resp, log ++ [v.String]⟩))) := by
  intro n
  induction n with
  | zero => intro u r h; simp [GetLinkFuel] at h
  | succ n ih =>
    intro u r h
    rw [GetLinkFuel_succ] at h
    cases hg : s.Get u.noFragment.String with
    | some link =>
      rw [hg] at h
      dsimp only at h
      by_cases hr : link.Redirect = true
      · rw [if_pos hr] at h
        exact ih _ _ h
      · rw [if_neg hr] at h
        injection h with h
        subst h
        exact Or.inl ⟨_, _, hg, by simpa using hr, rfl⟩
    | none =>
      rw [hg] at h
      dsimp only at h
      right
      refine ⟨u.noFragment, rfl, hg, ?_⟩
      cases hf : env.httpGet log u.noFragment.String with
      | error e =>
        rw [hf] at h; injection h with h; subst h
        exact Or.inl ⟨e, rfl, rfl⟩
      | ok resp =>
        rw [hf] at h; injection h with h; subst h
        exact Or.inr ⟨resp, rfl, rfl⟩

/-! ## Lemmas: the walk and the index loop -/

theorem hrefLoop_ne_fatal (env : Env) (attr : List Attribute) :
    ∀ w, hrefLoop env attr w ≠ .fatal := by
  induction attr with
  | nil => intro w h; simp [hrefLoop] at h
  | cons a rest ih =>
    intro w h
    rw [hrefLoop] at h
    split at h
    · split at h
      · cases h
      · split at h
        · cases h
        · split at h
          · rename_i hg; exact GetLink_ne_fatal _ _ _ _ hg
          · cases h
          · split at h
            · cases h
            · split at h
              · cases h
              · exact ih _ h
    · exact ih _ h

theorem f_ne_fatal (env : Env) (n : Node) : ∀ w, f env n w ≠ .fatal := by
  refine Node.rec (motive_1 := fun n => ∀ w, f env n w ≠ .fatal)
    (motive_2 := fun cs => ∀ w, f.fChildren env cs w ≠ .fatal) ?_ ?_ ?_ n
  · intro ty data attr children ih w h
    rw [f] at h
    split at h
    · split at h
      · rename_i hx
        split at hx
        · exact hrefLoop_ne_fatal env attr w hx
        · cases hx
      · cases h
      · dsimp only at h
        split at h
        · cases h
        · exact ih _ h
    · split at h
      · cases h
      · exact ih _ h
  · intro w h; simp [f.fChildren] at h
  · intro c cs ihc ihcs w h
    rw [f.fChildren] at h
    split at h
    · exact ihcs _ h
    · rename_i hf; exact ihc _ hf
    · cases h

@[simp] theorem Keyword.json_Frequency (k : Keyword) : k.json.Frequency = k.Frequency := rfl

@[simp] theorem Keyword.json_Docs_Frequency (k : Keyword) :
    k.json.Docs.map DocumentRef.Frequency = k.Docs.map DocumentRef.Frequency := by
  simp [Keyword.json, List.map_map, Function.comp_def, DocumentRef.json]

theorem indexWord_inv (url : URL) (wc : List (String × Nat)) (st : IndexState) (word : String)
    (h : KeywordInv st.keywords) : KeywordInv (indexWord url wc st word).keywords := by
  unfold indexWord
  split
  · exact h
  · intro p hp
    dsimp only at hp
    rcases Bucket.mem_Put _ _ _ _ hp with hp | hp
    · subst hp
      cases hg : st.keywords.Get word with
      | none => simp [KeywordOK]
      | some stored =>
        have := h _ (Bucket.Get_mem _ _ _ hg)
        simp [KeywordOK] at this ⊢
        omega
    · exact h p hp

theorem indexWords_inv (url : URL) (wc : List (String × Nat)) (st : IndexState)
    (h : KeywordInv st.keywords) : KeywordInv (indexWords url wc st).keywords := by
  unfold indexWords
  generalize List.map Prod.fst wc = ws
  induction ws generalizing st with
  | nil => exact h
  | cons w ws ih => exact ih _ (indexWord_inv url wc st w h)

theorem wordGet_mem (wc : List (String × Nat)) (w : String) (h : wordGet wc w ≠ 0) :
    w ∈ List.map Prod.fst wc := by
  induction wc with
  | nil => simp [wordGet] at h
  | cons p rest ih =>
    obtain ⟨k, n⟩ := p
    simp only [wordGet] at h
    split at h
    · rename_i hk; subst hk; simp
    · simp only [List.map_cons, List.mem_cons]; exact Or.inr (ih h)

theorem indexWord_Get (url : URL) (wc : List (String × Nat)) (st : IndexState)
    (word w : String) :
    (indexWord url wc st word).keywords.Get w =
      if keyOK word = true ∧ word = w ∧ wordGet wc word ≠ 0 then
        some (keywordAfter url (st.keywords.Get word) (wordGet wc word)).json
      else st.keywords.Get w := by
  unfold indexWord
  split
  · rename_i h0; simp [h0]
  · rename_i h0
    dsimp only
    rw [Bucket.Get_Put]
    by_cases hw : word = w
    · subst hw
      by_cases hk : keyOK word = true
      · cases hg : st.keywords.Get word <;> simp [h0, hk, keywordAfter]
      · simp [hk]
    · simp [hw]

theorem indexWord_dockeys (url : URL) (wc : List (String × Nat)) (st : IndexState)
    (word : String) :
    (indexWord url wc st word).dockeys =
      st.dockeys ++ (if wordGet wc word ≠ 0 then [⟨word, wordGet wc word⟩] else []) := by
  unfold indexWord
  split
  · rename_i h0; simp [h0]
  · rename_i h0; simp [h0]

theorem foldl_indexWord_Get (url : URL) (wc : List (String × Nat)) (ws : List String)
    (hnd : ws.Nodup) (st : IndexState) (w : String) :
    (List.foldl (indexWord url wc) st ws).keywords.Get w =
      if keyOK w = true ∧ w ∈ ws ∧ wordGet wc w ≠ 0 then
        some (keywordAfter url (st.keywords.Get w) (wordGet wc w)).json
      else st.keywords.Get w := by
  induction ws generalizing st with
  | nil => simp
  | cons word ws ih =>
    have hnd2 := (List.nodup_cons.mp hnd)
    simp only [List.foldl_cons]
    rw [ih hnd2.2, indexWord_Get]
    by_cases hw : word = w
    · subst hw
      have : word ∉ ws := hnd2.1
      by_cases h0 : wordGet wc word = 0 <;> simp [this, h0]
    · have hw2 : ¬ w = word := fun h => hw h.symm
      simp [hw, hw2]

theorem foldl_indexWord_dockeys (url : URL) (wc : List (String × Nat)) (ws : List String)
    (st : IndexState) :
    (List.foldl (indexWord url wc) st ws).dockeys =
      st.dockeys ++ List.map (fun w => (⟨w, wordGet wc w⟩ : KeywordRef))
        (List.filter (fun w => decide (wordGet wc w ≠ 0)) ws) := by
  induction ws generalizing st with
  | nil => simp
  | cons word ws ih =>
    simp only [List.foldl_cons]
    rw [ih, indexWord_dockeys]
    by_cases h0 : wordGet wc word = 0 <;> simp [List.filter, h0]

theorem enqueue_fold (out : List String) (p : Bucket Unit) (cs : CountStats) :
    (List.foldl enqueue (p, cs) out).1 = putAll p out := by
  induction out generalizing p cs with
  | nil => rfl
  | cons l out ih => simp only [List.foldl_cons, putAll, enqueue] at ih ⊢; exact ih _ _

/-! ## Lemmas: the returns of the transaction function -/

theorem crawlTx_keywords (env : Env) (db : DB) (log : List String) (t : TxResult)
    (h : crawlTx env db log = .ret t) :
    t.db.keywords = db.keywords ∨
      ∃ url wc cs, t.db.keywords = (indexWords url wc ⟨db.keywords, cs, []⟩).keywords := by
  unfold crawlTx at h
  dsimp only at h
  repeat' split at h
  all_goals first
    | (cases h; done)
    | (injection h with h; subst h; left; rfl)
    | (injection h with h; subst h; right; exact ⟨_, _, _, rfl⟩)

theorem crawlTx_committed (env : Env) (db : DB) (log : List String) (t : TxResult)
    (h : crawlTx env db log = .ret t) (hc : t.exit = .committed) :
    ∃ cs k uri g resp buff root w,
      db.stats.Get "count" = some (some cs) ∧ db.pending.First = some k ∧
      env.urlParse k = some uri ∧ GetLink env db.links log uri = .ret g ∧
      g.err = none ∧ ValidLink g.link = true ∧ db.docs.Get g.link.URL.String = none ∧
      env.httpGet g.log g.link.URL.String = .ok resp ∧ resp.Body = some buff ∧
      env.htmlParse buff = some root ∧
      f env root ⟨g.link, g.links, g.log ++ [g.link.URL.String], [], [], ""⟩ = .ret w ∧
      t = indexPage env db (db.pending.Delete k) cs g.link buff.length w := by
  unfold crawlTx at h
  dsimp only at h
  repeat' split at h
  all_goals first
    | (cases h; done)
    | (injection h with h; subst h; cases hc; done)
    | skip
  injection h with h
  subst h
  refine ⟨_, _, _, _, _, _, _, _, by assumption, by assumption, by assumption, by assumption,
    ?_, ?_, ?_, by assumption, by assumption, by assumption, by assumption, rfl⟩
  all_goals simp_all

theorem crawlTx_err_cause (env : Env) (db : DB) (log : List String) (t : TxResult)
    (h : crawlTx env db log = .ret t) (he : t.err.isSome = true) : AbortCause env db log := by
  unfold crawlTx at h
  dsimp only at h
  repeat' split at h
  all_goals first
    | (cases h; done)
    | (injection h with h; subst h; simp [indexPage] at he; done)
    | (exact Or.inl (by assumption))
    | (exact Or.inr (Or.inl ⟨_, _, _, by assumption, by assumption, by assumption, by assumption⟩))
    | (refine Or.inr (Or.inr ⟨_, _, _, _, by assumption, by assumption, by assumption, ?_, ?_, ?_,
        by assumption⟩) <;> solve | simp_all)

theorem crawlTx_quiet_cause (env : Env) (db : DB) (log : List String) (t : TxResult)
    (h : crawlTx env db log = .ret t) (he : t.err = none) : QuietCause env db log := by
  unfold crawlTx at h
  dsimp only at h
  repeat' split at h
  all_goals first
    | (cases h; done)
    | (injection h with h; subst h; simp [indexPage] at he; done)
    | (exact ⟨_, by assumption, Or.inl (by assumption)⟩)
    | (refine ⟨_, by assumption, Or.inr ⟨_, _, by assumption, by assumption, ?_, Or.inl ?_⟩⟩ <;>
        solve | simp_all)
    | (refine ⟨_, by assumption, Or.inr ⟨_, _, by assumption, by assumption, ?_,
        Or.inr (Or.inl ⟨?_, ?_⟩)⟩⟩ <;> solve | simp_all)
    | (refine ⟨_, by assumption, Or.inr ⟨_, _, by assumption, by assumption, ?_,
        Or.inr (Or.inr ⟨?_, ?_, _, by assumption, Or.inl (by assumption)⟩)⟩⟩ <;> solve | simp_all)
    | (refine ⟨_, by assumption, Or.inr ⟨_, _, by assumption, by assumption, ?_,
        Or.inr (Or.inr ⟨?_, ?_, _, by assumption,
          Or.inr ⟨_, by assumption, Or.inl (by assumption)⟩⟩)⟩⟩ <;> solve | simp_all)
    | (refine ⟨_, by assumption, Or.inr ⟨_, _, by assumption, by assumption, ?_,
        Or.inr (Or.inr ⟨?_, ?_, _, by assumption,
          Or.inr ⟨_, by assumption, Or.inr ⟨_, _, by assumption, by assumption⟩⟩⟩)⟩⟩ <;>
        solve | simp_all)

theorem crawlTx_err_exit (env : Env) (db : DB) (log : List String) (t : TxResult)
    (h : crawlTx env db log = .ret t) :
    (t.err.isSome = true ↔ t.exit.isAborted = true) ∧
    (t.err = none ↔ (t.exit.isSkipped = true ∨ t.exit = .committed)) := by
  unfold crawlTx at h
  dsimp only at h
  repeat' split at h
  all_goals first
    | (cases h; done)
    | (injection h with h; subst h; simp [indexPage, Exit.isAborted, Exit.isSkipped])

theorem crawlTx_abort (env : Env) (db : DB) (log : List String) (cs : CountStats)
    (hs : db.stats.Get "count" = some (some cs)) (hc : AbortCause env db log) :
    ∃ t, crawlTx env db log = .ret t ∧ t.err.isSome = true := by
  rcases hc with h | ⟨k, uri, g, h1, h2, h3, h4⟩ | ⟨k, uri, g, e, h1, h2, h3, h4, h5, h6, h7⟩
  · simp [crawlTx, hs, h]
  · simp [crawlTx, hs, h1, h2, h3, h4]
  · simp [crawlTx, hs, h1, h2, h3, h4, h5, h6, h7]

theorem crawlTx_quiet (env : Env) (db : DB) (log : List String) (cs : CountStats)
    (hs : db.stats.Get "count" = some (some cs)) (hc : QuietCause env db log) :
    ∃ t, crawlTx env db log = .ret t ∧ t.err = none := by
  obtain ⟨k, h1, hc⟩ := hc
  rcases hc with h2 | ⟨uri, g, h2, h3, h4, hc⟩
  · simp [crawlTx, hs, h1, h2]
  · rcases hc with h5 | ⟨h5, h6⟩ | ⟨h5, h6, resp, h7, hc⟩
    · simp [crawlTx, hs, h1, h2, h3, h4, h5]
    · simp [crawlTx, hs, h1, h2, h3, h4, h5, h6]
    · rcases hc with h8 | ⟨buff, h8, hc⟩
      · simp [crawlTx, hs, h1, h2, h3, h4, h5, h6, h7, h8]
      · rcases hc with h9 | ⟨root, w, h9, h10⟩
        · simp [crawlTx, hs, h1, h2, h3, h4, h5, h6, h7, h8, h9]
        · simp [crawlTx, hs, h1, h2, h3, h4, h5, h6, h7, h8, h9, h10, indexPage]

theorem crawlTx_pending (env : Env) (db : DB) (log : List String) (t : TxResult) (k : String)
    (h : crawlTx env db log = .ret t) (hk : db.pending.First = some k) :
    ∃ ks, t.db.pending = putAll (db.pending.Delete k) ks ∧
      (t.exit.isSkipped = true → ks = []) := by
  unfold crawlTx at h
  dsimp only at h
  repeat' split at h
  all_goals first
    | (cases h; done)
    | (simp_all; done)
    | (injection h with h; subst h
       have hm := hk
       simp_all only [Option.some.injEq]
       first
         | exact ⟨[], rfl, fun _ => rfl⟩
         | exact ⟨[_], rfl, fun hx => by simp [Exit.isSkipped] at hx⟩
         | exact ⟨_, enqueue_fold _ _ _, fun hx => by simp [indexPage, Exit.isSkipped] at hx⟩)

theorem crawlTx_badURL (env : Env) (db : DB) (log : List String) (t : TxResult) (k : String)
    (h : crawlTx env db log = .ret t) (hk : db.pending.First = some k) :
    (t.exit = .badURL ↔ env.urlParse k = none) := by
  unfold crawlTx at h
  dsimp only at h
  repeat' split at h
  all_goals first
    | (cases h; done)
    | (simp_all; done)
    | (injection h with h; subst h; simp_all [indexPage])

theorem crawlTx_ne_fatal (env : Env) (db : DB) (log : List String) (cs : CountStats)
    (hs : db.stats.Get "count" = some (some cs)) : crawlTx env db log ≠ .fatal := by
  intro h
  unfold crawlTx at h
  dsimp only at h
  repeat' split at h
  all_goals first
    | (cases h; done)
    | (simp_all; done)
    | (rename_i hg; exact GetLink_ne_fatal _ _ _ _ hg)
    | (rename_i hf; exact f_ne_fatal _ _ _ hf)

theorem CrawlPage_ret (env : Env) (db : DB) (log : List String) (t : TxResult)
    (h : CrawlPage env db log = .ret t) :
    ∃ t0, crawlTx env db log = .ret t0 ∧
      t = { t0 with db := if t0.err.isSome then db else t0.db } := by
  unfold CrawlPage at h
  cases hc : crawlTx env db log with
  | fatal => rw [hc] at h; cases h
  | diverge => rw [hc] at h; cases h
  | ret t0 =>
    rw [hc] at h
    injection h with h
    exact ⟨t0, rfl, h.symm⟩

theorem CrawlPage_of_crawlTx (env : Env) (db : DB) (log : List String) (t0 : TxResult)
    (h : crawlTx env db log = .ret t0) :
    CrawlPage env db log = .ret { t0 with db := if t0.err.isSome then db else t0.db } := by
  unfold CrawlPage
  rw [h]

theorem CrawlPage_committed (env : Env) (db : DB) (log : List String) (t : TxResult)
    (h : CrawlPage env db log = .ret t) (hc : t.exit = .committed) :
    ∃ cs k uri g resp buff root w,
      db.stats.Get "count" = some (some cs) ∧ db.pending.First = some k ∧
      env.urlParse k = some uri ∧ GetLink env db.links log uri = .ret g ∧
      g.err = none ∧ ValidLink g.link = true ∧ db.docs.Get g.link.URL.String = none ∧
      env.httpGet g.log g.link.URL.String = .ok resp ∧ resp.Body = some buff ∧
      env.htmlParse buff = some root ∧
      f env root ⟨g.link, g.links, g.log ++ [g.link.URL.String], [], [], ""⟩ = .ret w ∧
      t = indexPage env db (db.pending.Delete k) cs g.link buff.length w := by
  obtain ⟨t0, h0, ht⟩ := CrawlPage_ret env db log t h
  have hc0 : t0.exit = .committed := by rw [ht] at hc; exact hc
  obtain ⟨cs, k, uri, g, resp, buff, root, w, h1, h2, h3, h4, h5, h6, h7, h8, h9, h10, h11, h12⟩ :=
    crawlTx_committed env db log t0 h0 hc0
  refine ⟨cs, k, uri, g, resp, buff, root, w, h1, h2, h3, h4, h5, h6, h7, h8, h9, h10, h11, ?_⟩
  rw [ht, h12]
  rfl

theorem CrawlPage_ne_fatal (env : Env) (db : DB) (log : List String) (cs : CountStats)
    (hs : db.stats.Get "count" = some (some cs)) : CrawlPage env db log ≠ .fatal := by
  intro h
  unfold CrawlPage at h
  split at h
  · cases h
  · rename_i hf; exact crawlTx_ne_fatal env db log cs hs hf
  · cases h

theorem CrawlPage_keywords_inv (env : Env) (db : DB) (log : List String)
    (h : KeywordInv db.keywords) :
    KeywordInv (persisted db (CrawlPage env db log)).keywords := by
  unfold CrawlPage
  cases hc : crawlTx env db log with
  | fatal => exact h
  | diverge => exact h
  | ret t =>
    simp only [persisted]
    split
    · exact h
    · rcases crawlTx_keywords env db log t hc with hk | ⟨url, wc, cs, hk⟩
      · rw [hk]; exact h
      · rw [hk]; exact indexWords_inv _ _ _ h

/-! ## The sample steps, evaluated -/

theorem sample_step : CrawlPage sampleEnv sampleDB [] = .ret sampleResult := by
  decide!

theorem offline_step : CrawlPage offlineEnv sampleDB [] = .ret offlineResult := by decide!

theorem queue_step : CrawlPage sampleEnv queueDB [] = .ret queueResult := by decide!

theorem redirect_lookup :
    GetLink redirectEnv [] [] (siteURL "a.test") = .ret redirectResult := by decide!

/-! ## C1: ValidLink -/

/-- C1: `ValidLink` accepts a link exactly when its scheme is `http` or
`https`, its status code lies in `[200, 299)` and its content type has
`html` as a contiguous, case-sensitive substring. -/
theorem ValidLink_iff (link : Link) :
    ValidLink link = true ↔
      (link.URL.Scheme = "http" ∨ link.URL.Scheme = "https") ∧
      (200 ≤ link.StatusCode ∧ link.StatusCode < 299) ∧
      "html".toList <:+: link.ContentType.toList := by
  have hc : stringsContains link.ContentType "html" = true ↔
      "html".toList <:+: link.ContentType.toList := containsAt_iff _ _
  rw [← hc]
  unfold ValidLink
  by_cases hs : link.URL.Scheme = "http" ∨ link.URL.Scheme = "https"
  · by_cases hr : 200 ≤ link.StatusCode ∧ link.StatusCode < 299
    · rcases hr with ⟨h1, h2⟩
      by_cases hx : stringsContains link.ContentType "html" = true
      · simp [hs, h1, h2, hx, not_lt.mpr h1]
      · simp [hs, h1, h2, hx, not_lt.mpr h1]
    · have : link.StatusCode < 200 ∨ 299 ≤ link.StatusCode := by omega
      simp [hs, hr, this]
  · simp [hs]

/-! ## C2: the edges written by a step -/

/-- C2: the claim fails on two pages.  On the page with anchors to `b.test` and
`c.test` both edges are registered (both children are enqueued and carry
`a.test` in their incoming sets), but the outgoing set stored under
`a.test` holds `c.test` only.  On the page that links to itself the record
stored under `a.test` has itself in its outgoing set and a nil incoming
set. -/
theorem edges_lost_on_sample_pages :
    (persisted sampleDB (CrawlPage (htmlSite forkPage) sampleDB [])).pending =
        [("http://b.test/", ()), ("http://c.test/", ())] ∧
      incomingOf (persisted sampleDB (CrawlPage (htmlSite forkPage) sampleDB [])).links
        "http://b.test/" = some ["http://a.test/"] ∧
      outgoingOf (persisted sampleDB (CrawlPage (htmlSite forkPage) sampleDB [])).links
        "http://a.test/" = some ["http://c.test/"] ∧
      outgoingOf (persisted sampleDB (CrawlPage (htmlSite selfPage) sampleDB [])).links
        "http://a.test/" = some ["http://a.test/"] ∧
      incomingOf (persisted sampleDB (CrawlPage (htmlSite selfPage) sampleDB [])).links
        "http://a.test/" = none := by
  decide!

/-! ## C3: the keyword aggregate -/

/-- C3: if every record of the keywords bucket has its aggregate equal to
the sum of its document frequencies, the same holds in the bucket persisted
by `CrawlPage` (whatever the network and the parsers answer, at whatever
return the step ends), and so after any number of calls; the empty bucket
is a starting point. -/
theorem keyword_aggregate_preserved (env : Env) (db : DB) (log : List String)
    (h : KeywordInv db.keywords) :
    KeywordInv (persisted db (CrawlPage env db log)).keywords ∧
    (∀ n, KeywordInv (crawlSteps env n (db, log)).1.keywords) ∧
    KeywordInv ([] : Bucket Keyword) := by
  refine ⟨CrawlPage_keywords_inv env db log h, ?_, ?_⟩
  · intro n
    induction n with
    | zero => exact h
    | succ n ih => exact CrawlPage_keywords_inv env _ _ ih
  · intro p hp; cases hp

theorem keyword_aggregate_preserved_witness :
    KeywordInv sampleDB.keywords ∧
    KeywordInv (persisted sampleDB (CrawlPage sampleEnv sampleDB [])).keywords ∧
    (persisted sampleDB (CrawlPage sampleEnv sampleDB [])).keywords =
      [("hello", ⟨2, [⟨siteURL "a.test", 2⟩]⟩), ("world", ⟨1, [⟨siteURL "a.test", 1⟩]⟩)] :=
  ⟨by decide, (keyword_aggregate_preserved sampleEnv sampleDB [] (by decide)).1, by decide!⟩

/-! ## Lemmas: committed runs -/

theorem CrawlPage_committed_run (env : Env) (db : DB) (log : List String) (t : TxResult)
    (h : CrawlPage env db log = .ret t) (hc : t.exit = .committed) :
    ∃ cs k uri g resp buff root w, CommittedRun env db log cs k uri g resp buff root w ∧
      t = indexPage env db (db.pending.Delete k) cs g.link buff.length w := by
  obtain ⟨cs, k, uri, g, resp, buff, root, w, h1, h2, h3, h4, h5, h6, h7, h8, h9, h10, h11, h12⟩ :=
    CrawlPage_committed env db log t h hc
  exact ⟨cs, k, uri, g, resp, buff, root, w, ⟨h1, h2, h3, h4, h5, h6, h7, h8, h9, h10, h11⟩, h12⟩

theorem CommittedRun.unique {env : Env} {db : DB} {log : List String} {cs cs' : CountStats}
    {k k' : String} {uri uri' : URL} {g g' : GetLinkResult} {resp resp' : Response}
    {buff buff' : List Nat} {root root' : Node} {w w' : Walk}
    (h : CommittedRun env db log cs k uri g resp buff root w)
    (h' : CommittedRun env db log cs' k' uri' g' resp' buff' root' w') :
    cs = cs' ∧ k = k' ∧ uri = uri' ∧ g = g' ∧ resp = resp' ∧ buff = buff' ∧ w = w' := by
  have e1 : cs = cs' := by
    have := h.stats.symm.trans h'.stats
    injection this with this; injection this
  have e2 : k = k' := by
    have := h.first.symm.trans h'.first
    injection this
  subst e1 e2
  have e3 : uri = uri' := by
    have := h.parse.symm.trans h'.parse
    injection this
  subst e3
  have e4 : g = g' := by
    have := h.resolve.symm.trans h'.resolve
    injection this
  subst e4
  have e5 : resp = resp' := by
    have := h.fetch.symm.trans h'.fetch
    injection this
  subst e5
  have e6 : buff = buff' := by
    have := h.body.symm.trans h'.body
    injection this
  subst e6
  have e7 : root = root' := by
    have := h.html.symm.trans h'.html
    injection this
  subst e7
  have e8 : w = w' := by
    have := h.walk.symm.trans h'.walk
    injection this
  exact ⟨rfl, rfl, rfl, rfl, rfl, rfl, e8⟩

/-! ## C4: the inverted index -/

/-- C4 fails for a word that bolt refuses as a key and for a page whose URL
carries user info.  With a vectorizer that returns the blank word with
frequency 1, the committed sample step leaves no record under that word.
On the page `http://user:pw@a.test/`, the record written for `hello` lists
the page with an empty user info, which is not the URL of the page. -/
theorem blank_word_gets_no_record :
    (CrawlPage blankWordEnv sampleDB []).map TxResult.exit = .ret Exit.committed ∧
    wordGet (blankWordEnv.GetVector "Hellohello world hello").1 "" = 1 ∧
    (persisted sampleDB (CrawlPage blankWordEnv sampleDB [])).keywords.Get "" = none ∧
    (persisted sampleDB (CrawlPage blankWordEnv sampleDB [])).keywords.Get "" ≠
      some (keywordAfter (siteURL "a.test") (sampleDB.keywords.Get "") 1) ∧
    (CrawlPage userEnv userDB []).map TxResult.exit = .ret Exit.committed ∧
    (persisted userDB (CrawlPage userEnv userDB [])).keywords.Get "hello" =
      some ⟨2, [⟨(userURL "a.test").json, 2⟩]⟩ ∧
    (persisted userDB (CrawlPage userEnv userDB [])).keywords.Get "hello" ≠
      some (keywordAfter (userURL "a.test") (userDB.keywords.Get "hello") 2) := by
  decide!

/-- C4, amended: in a committed step, with a vectorizer whose word map has
no repeated key, for the page URL `g.link.URL` and the joined text of the
walk: every word of non-zero frequency `n` that bolt takes as a key has as
new record the old one (or the empty one) with `n` added and
`DocumentRef{page, n}` put last, as JSON gives it back; a word of non-zero
frequency that bolt refuses as a key keeps the record, or the absence of
record, it had; so does every word of frequency 0 or absent from the map;
and the list put in doc-keywords under the page, which is stored when bolt
takes that key, holds exactly the pairs `(w, n)` of the map with `n > 0`,
each once. -/
theorem inverted_index_update (env : Env) (db : DB) (log : List String) (t : TxResult)
    (hvec : ∀ s, (List.map Prod.fst (env.GetVector s).1).Nodup)
    (h : CrawlPage env db log = .ret t) (hc : t.exit = .committed) :
    ∃ cs k uri g resp buff root w, CommittedRun env db log cs k uri g resp buff root w ∧
      (∀ word, wordGet (env.GetVector (String.join w.text)).1 word ≠ 0 → keyOK word = true →
        t.db.keywords.Get word =
          some (keywordAfter g.link.URL (db.keywords.Get word)
            (wordGet (env.GetVector (String.join w.text)).1 word)).json) ∧
      (∀ word, wordGet (env.GetVector (String.join w.text)).1 word ≠ 0 → keyOK word = false →
        t.db.keywords.Get word = db.keywords.Get word) ∧
      (∀ word, wordGet (env.GetVector (String.join w.text)).1 word = 0 →
        t.db.keywords.Get word = db.keywords.Get word) ∧
      ∃ dk : List KeywordRef,
        t.db.docKeywords = db.docKeywords.Put g.link.URL.String dk ∧
        (keyOK g.link.URL.String = true → t.db.docKeywords.Get g.link.URL.String = some dk) ∧
        dk.Nodup ∧
        (∀ word n, (⟨word, n⟩ : KeywordRef) ∈ dk ↔
          0 < n ∧ wordGet (env.GetVector (String.join w.text)).1 word = n) := by
  obtain ⟨cs, k, uri, g, resp, buff, root, w, hrun, ht⟩ :=
    CrawlPage_committed_run env db log t h hc
  subst ht
  refine ⟨cs, k, uri, g, resp, buff, root, w, hrun, ?_, ?_, ?_,
    (indexWords g.link.URL (env.GetVector (String.join w.text)).1 ⟨db.keywords, cs, []⟩).dockeys,
    rfl, ?_, ?_, ?_⟩
  · intro word hw hk
    simp only [indexPage, indexWords]
    rw [foldl_indexWord_Get _ _ _ (hvec _)]
    simp [hw, hk, wordGet_mem _ _ hw]
  · intro word hw hk
    simp only [indexPage, indexWords]
    rw [foldl_indexWord_Get _ _ _ (hvec _)]
    simp [hk]
  · intro word hw
    simp only [indexPage, indexWords]
    rw [foldl_indexWord_Get _ _ _ (hvec _)]
    simp [hw]
  · intro hk
    simp only [indexPage, Bucket.Get_Put, hk, and_self, if_true]
  · simp only [indexPage, indexWords]
    rw [foldl_indexWord_dockeys]
    simp only [List.nil_append]
    refine List.Nodup.map ?_ ((hvec _).filter _)
    intro a b hab
    injection hab
  · intro word n
    simp only [indexPage, indexWords]
    rw [foldl_indexWord_dockeys]
    simp only [List.nil_append, List.mem_map, List.mem_filter, decide_eq_true_eq]
    constructor
    · rintro ⟨a, ⟨_, ha0⟩, ha⟩
      injection ha with h1 h2
      subst h1
      exact ⟨by omega, h2⟩
    · rintro ⟨hn, hw⟩
      have hne : wordGet (env.GetVector (String.join w.text)).1 word ≠ 0 := by omega
      exact ⟨word, ⟨List.mem_map.mp (wordGet_mem _ _ hne), hne⟩, by rw [hw]⟩

theorem inverted_index_update_witness :
    (∀ s, (List.map Prod.fst (sampleEnv.GetVector s).1).Nodup) ∧
    sampleResult.exit = .committed ∧
    sampleResult.db.keywords.Get "hello" = some ⟨2, [⟨siteURL "a.test", 2⟩]⟩ ∧
    ∃ cs k uri g resp buff root w,
      CommittedRun sampleEnv sampleDB [] cs k uri g resp buff root w ∧
      (∀ word, wordGet (sampleEnv.GetVector (String.join w.text)).1 word ≠ 0 →
        keyOK word = true →
        sampleResult.db.keywords.Get word =
          some (keywordAfter g.link.URL (sampleDB.keywords.Get word)
            (wordGet (sampleEnv.GetVector (String.join w.text)).1 word)).json) ∧
      (∀ word, wordGet (sampleEnv.GetVector (String.join w.text)).1 word ≠ 0 →
        keyOK word = false →
        sampleResult.db.keywords.Get word = sampleDB.keywords.Get word) ∧
      (∀ word, wordGet (sampleEnv.GetVector (String.join w.text)).1 word = 0 →
        sampleResult.db.keywords.Get word = sampleDB.keywords.Get word) ∧
      ∃ dk : List KeywordRef,
        sampleResult.db.docKeywords = sampleDB.docKeywords.Put g.link.URL.String dk ∧
        (keyOK g.link.URL.String = true →
          sampleResult.db.docKeywords.Get g.link.URL.String = some dk) ∧
        dk.Nodup ∧
        (∀ word n, (⟨word, n⟩ : KeywordRef) ∈ dk ↔
          0 < n ∧ wordGet (sampleEnv.GetVector (String.join w.text)).1 word = n) :=
  have hvec : ∀ s, (List.map Prod.fst (sampleEnv.GetVector s).1).Nodup := by
    intro s
    simp only [sampleEnv]
    split <;> decide
  ⟨hvec, rfl, by decide,
    inverted_index_update sampleEnv sampleDB [] sampleResult hvec sample_step rfl⟩

/-! ## Lemmas: the seed -/

theorem seedURL_ok : keyOK seedURL = true := by decide!

/-! ## C5: an error leaves the database as it was -/

/-- C5: when `CrawlPage` returns an error, the database it persists is the
one before the call, bucket for bucket; the cause is one of the three of
`AbortCause`; a dequeued key is still pending; and on an empty frontier the
seed, which the transaction did write, is not in the persisted frontier. -/
theorem abort_leaves_store (env : Env) (db : DB) (log : List String) (t : TxResult)
    (h : CrawlPage env db log = .ret t) (he : t.err.isSome = true) :
    t.db = db ∧ persisted db (CrawlPage env db log) = db ∧
    (∃ cs, db.stats.Get "count" = some (some cs)) ∧
    AbortCause env db log ∧
    (∀ k, db.pending.First = some k → t.db.pending.Get k = some ()) ∧
    (db.pending.First = none →
      t.db.pending.Get seedURL = none ∧
      ∃ t0, crawlTx env db log = .ret t0 ∧ t0.db.pending.Get seedURL = some ()) := by
  obtain ⟨t0, h0, ht⟩ := CrawlPage_ret env db log t h
  have he0 : t0.err.isSome = true := by rw [ht] at he; exact he
  have hdb : t.db = db := by rw [ht]; simp [he0]
  refine ⟨hdb, ?_, ?_, crawlTx_err_cause env db log t0 h0 he0, ?_, ?_⟩
  · rw [h]; exact hdb
  · unfold crawlTx at h0
    split at h0
    · cases h0
    · cases h0
    · exact ⟨_, by assumption⟩
  · intro k hk
    rw [hdb]
    exact Bucket.Get_of_mem_keys _ _ (Bucket.First_min _ _ hk).1
  · intro hn
    have hnil : db.pending = [] := (Bucket.First_eq_none _).mp hn
    refine ⟨by rw [hdb, hnil]; rfl, t0, h0, ?_⟩
    unfold crawlTx at h0
    dsimp only at h0
    repeat' split at h0
    all_goals first
      | (cases h0; done)
      | (simp_all; done)
      | (injection h0 with h0; subst h0; simp [Bucket.Get_Put, seedURL_ok])

theorem abort_leaves_store_witness :
    offlineResult.err.isSome = true ∧ offlineResult.db = sampleDB ∧
    persisted sampleDB (CrawlPage offlineEnv sampleDB []) = sampleDB ∧
    (∃ cs, sampleDB.stats.Get "count" = some (some cs)) ∧
    AbortCause offlineEnv sampleDB [] ∧
    (∀ k, sampleDB.pending.First = some k → offlineResult.db.pending.Get k = some ()) ∧
    (sampleDB.pending.First = none →
      offlineResult.db.pending.Get seedURL = none ∧
      ∃ t0, crawlTx offlineEnv sampleDB [] = .ret t0 ∧ t0.db.pending.Get seedURL = some ()) :=
  ⟨rfl, abort_leaves_store offlineEnv sampleDB [] offlineResult offline_step rfl⟩

/-! ## C6: which returns carry an error -/

/-- C6: with a decodable CountStats record, `CrawlPage` returns an error
exactly under `AbortCause` (empty frontier, failed `GetLink` of the dequeued
URL, failed fetch of the page) and returns without error exactly under
`QuietCause` (unparseable URL, link rejected, URL already indexed, body
unreadable, body unparseable, page indexed); the error is there exactly at
the aborting returns; and the call never ends in `log.Fatal` (what is left
is the recursion without end of `GetLink` on a redirect cycle). -/
theorem error_iff_aborted (env : Env) (db : DB) (log : List String) (cs : CountStats)
    (hs : db.stats.Get "count" = some (some cs)) :
    ((∃ t, CrawlPage env db log = .ret t ∧ t.err.isSome = true) ↔ AbortCause env db log) ∧
    ((∃ t, CrawlPage env db log = .ret t ∧ t.err = none) ↔ QuietCause env db log) ∧
    (∀ t, CrawlPage env db log = .ret t →
      (t.err.isSome = true ↔ t.exit.isAborted = true) ∧
      (t.err = none ↔ (t.exit.isSkipped = true ∨ t.exit = .committed))) ∧
    CrawlPage env db log ≠ .fatal := by
  refine ⟨⟨?_, ?_⟩, ⟨?_, ?_⟩, ?_, CrawlPage_ne_fatal env db log cs hs⟩
  · rintro ⟨t, h, he⟩
    obtain ⟨t0, h0, ht⟩ := CrawlPage_ret env db log t h
    exact crawlTx_err_cause env db log t0 h0 (by rw [ht] at he; exact he)
  · intro hc
    obtain ⟨t0, h0, he0⟩ := crawlTx_abort env db log cs hs hc
    exact ⟨_, CrawlPage_of_crawlTx env db log t0 h0, he0⟩
  · rintro ⟨t, h, he⟩
    obtain ⟨t0, h0, ht⟩ := CrawlPage_ret env db log t h
    exact crawlTx_quiet_cause env db log t0 h0 (by rw [ht] at he; exact he)
  · intro hc
    obtain ⟨t0, h0, he0⟩ := crawlTx_quiet env db log cs hs hc
    exact ⟨_, CrawlPage_of_crawlTx env db log t0 h0, he0⟩
  · intro t h
    obtain ⟨t0, h0, ht⟩ := CrawlPage_ret env db log t h
    have := crawlTx_err_exit env db log t0 h0
    rw [ht]
    exact this

theorem error_iff_aborted_witness :
    sampleDB.stats.Get "count" = some (some ⟨0, 0, 0⟩) ∧
    ((∃ t, CrawlPage offlineEnv sampleDB [] = .ret t ∧ t.err.isSome = true) ↔
      AbortCause offlineEnv sampleDB []) ∧
    (∃ t, CrawlPage offlineEnv sampleDB [] = .ret t ∧ t.err.isSome = true) :=
  ⟨rfl, (error_iff_aborted offlineEnv sampleDB [] ⟨0, 0, 0⟩ rfl).1,
    ⟨offlineResult, offline_step, rfl⟩⟩

/-! ## C7: resolving twice -/

/-- C7 fails in three ways.  For `http://user:pw@a.test/` the first call
returns the link with the user info and the second call the stored record,
where JSON has left the user info empty.  When `http://a.test/` is
redirected to a URL of more than 32768 bytes, bolt refuses the record of the
final URL, and the second call follows the marker and fetches again.  When
the requested URL has more than 32768 bytes, bolt refuses the marker, and
the second call fetches again. -/
theorem second_lookup_differs :
    GetLink userEnv [] [] (userURL "a.test") =
      .ret ⟨{ linkOf "a.test" with URL := userURL "a.test" }, none,
        [("http://user:pw@a.test/", { linkOf "a.test" with URL := (userURL "a.test").json })],
        ["http://user:pw@a.test/"]⟩ ∧
    GetLink userEnv
        [("http://user:pw@a.test/", { linkOf "a.test" with URL := (userURL "a.test").json })]
        ["http://user:pw@a.test/"] (userURL "a.test") =
      .ret ⟨{ linkOf "a.test" with URL := (userURL "a.test").json }, none,
        [("http://user:pw@a.test/", { linkOf "a.test" with URL := (userURL "a.test").json })],
        ["http://user:pw@a.test/"]⟩ ∧
    (userURL "a.test").json ≠ userURL "a.test" ∧
    (lookupTwice longEnv [] (siteURL "a.test")).map
        (fun x => (x.1.err, x.1.log.length, x.2.log.length, decide (x.2.link = x.1.link))) =
      .ret (none, 1, 2, false) ∧
    (lookupTwice longEnv [] (siteURL longHost)).map
        (fun x => (x.1.err, x.1.log.length, x.2.log.length)) = .ret (none, 1, 2) := by
  decide!

/-- C7, amended: when `GetLink` on `u` returns a link without error, leaving
the bucket `r.links` and the request history `r.log`, and, in case it
fetched (the history has grown), JSON gives the final URL back as it is and
bolt takes the key of the final URL and the key that was requested, then a
second call on `u` from there returns the same link, the same bucket and the
same history: nothing is fetched and nothing is written, whatever the oracle
would answer. -/
theorem GetLink_idempotent (env : Env) (s : Bucket Link) (log : List String) (u : URL)
    (r : GetLinkResult) (h : GetLink env s log u = .ret r) (he : r.err = none)
    (hfetch : r.log ≠ log → r.link.URL.json = r.link.URL ∧ keyOK r.link.URL.String = true ∧
      ∀ k0, r.log = log ++ [k0] → keyOK k0 = true) :
    GetLink env r.links r.log u = .ret ⟨r.link, none, r.links, r.log⟩ := by
  unfold GetLink at h ⊢
  obtain ⟨-, h2, -, h4⟩ := GetLinkFuel_again env _ s log u r h he hfetch
  rcases h2 with ⟨hs, hl⟩ | hlen
  · rw [hs, hl, h]
    congr 1
    cases r
    simp_all
  · exact GetLinkFuel_mono env _ _ _ _ _ h4 _ (by omega)

theorem GetLink_idempotent_witness :
    GetLink redirectEnv [] [] (siteURL "a.test") = .ret redirectResult ∧
    redirectResult.err = none ∧ redirectResult.log ≠ [] ∧
    redirectResult.link.URL.json = redirectResult.link.URL ∧
    keyOK redirectResult.link.URL.String = true ∧ keyOK "http://a.test/" = true ∧
    GetLink redirectEnv redirectResult.links redirectResult.log (siteURL "a.test") =
      .ret ⟨redirectResult.link, none, redirectResult.links, redirectResult.log⟩ :=
  ⟨redirect_lookup, rfl, by decide, rfl, by decide, by decide,
    GetLink_idempotent redirectEnv [] [] (siteURL "a.test") redirectResult redirect_lookup rfl
      (fun _ => ⟨rfl, by decide, fun k0 hk => by
        have e : k0 = "http://a.test/" := by
          simp only [redirectResult, List.nil_append, List.cons.injEq, and_true] at hk
          exact hk.symm
        rw [e]; decide⟩)⟩

/-! ## C8: two redirect hops -/

/-- C8: when the record under `a` is a redirect marker, the record under its
target is a redirect marker, and the record under the target of that one is
a link that is no marker, `GetLink` on `a` returns this link with bucket and
request history untouched (keys are taken without fragment, as `GetLink`
takes them). -/
theorem GetLink_redirect_chain (env : Env) (s : Bucket Link) (log : List String) (a : URL)
    (mA mB lC : Link)
    (hA : s.Get a.noFragment.String = some mA) (hAr : mA.Redirect = true)
    (hB : s.Get mA.URL.noFragment.String = some mB) (hBr : mB.Redirect = true)
    (hC : s.Get mB.URL.noFragment.String = some lC) (hCr : lC.Redirect = false) :
    GetLink env s log a = .ret ⟨lC, none, s, log⟩ := by
  have hne : mA.URL.noFragment.String ≠ mB.URL.noFragment.String := by
    intro e
    rw [e, hC] at hB
    injection hB with hB
    rw [hB, hBr] at hCr
    cases hCr
  have hlen := Bucket.two_le_length s _ _ _ _ hB hC hne
  unfold GetLink
  obtain ⟨m, hm⟩ : ∃ m, List.length s + 1 = m + 3 := ⟨List.length s - 2, by omega⟩
  rw [hm, GetLinkFuel]
  dsimp only
  rw [hA]
  dsimp only
  rw [if_pos hAr, GetLinkFuel]
  dsimp only
  rw [hB]
  dsimp only
  rw [if_pos hBr, GetLinkFuel]
  dsimp only
  rw [hC]
  dsimp only
  simp [hCr]

theorem GetLink_redirect_chain_witness :
    (chainStore.Get (siteURL "a.test").noFragment.String = some (markerTo "b.test") ∧
      (markerTo "b.test").Redirect = true) ∧
    (chainStore.Get (markerTo "b.test").URL.noFragment.String = some (markerTo "c.test") ∧
      (markerTo "c.test").Redirect = true) ∧
    (chainStore.Get (markerTo "c.test").URL.noFragment.String = some (linkOf "c.test") ∧
      (linkOf "c.test").Redirect = false) ∧
    GetLink offlineEnv chainStore [] (siteURL "a.test") =
      .ret ⟨linkOf "c.test", none, chainStore, []⟩ :=
  ⟨⟨by decide, rfl⟩, ⟨by decide, rfl⟩, ⟨by decide, rfl⟩,
    GetLink_redirect_chain offlineEnv chainStore [] (siteURL "a.test")
      (markerTo "b.test") (markerTo "c.test") (linkOf "c.test")
      (by decide) rfl (by decide) rfl (by decide) rfl⟩

/-! ## C9: fragments -/

/-- C10: on a non-empty frontier the key `k` the step works on is the
smallest key (the only one below all others) in the order of the bucket;
inside the transaction pending is always `Delete k` followed by later `Put`
calls; and a step that ends skipped persists exactly `pending.Delete k`. -/
theorem frontier_dequeue (env : Env) (db : DB) (log : List String) (hne : db.pending ≠ []) :
    ∃ k, db.pending.First = some k ∧ k ∈ db.pending.keys ∧
      (∀ k' ∈ db.pending.keys, keyLe k k' = true) ∧
      (∀ k2 ∈ db.pending.keys, (∀ k' ∈ db.pending.keys, keyLe k2 k' = true) → k2 = k) ∧
      (∀ t0, crawlTx env db log = .ret t0 →
        (t0.exit = .badURL ↔ env.urlParse k = none) ∧
        ∃ ks, t0.db.pending = putAll (db.pending.Delete k) ks) ∧
      (∀ t, CrawlPage env db log = .ret t → t.exit.isSkipped = true →
        t.err = none ∧ t.db.pending = db.pending.Delete k ∧
        ∀ k', t.db.pending.Get k' = if k = k' then none else db.pending.Get k') := by
  cases hF : db.pending.First with
  | none => exact absurd ((Bucket.First_eq_none _).mp hF) hne
  | some k =>
    obtain ⟨hmem, hmin⟩ := Bucket.First_min _ _ hF
    refine ⟨k, rfl, hmem, hmin, ?_, ?_, ?_⟩
    · intro k2 hk2 hmin2
      exact keyLe_antisymm _ _ (hmin2 k hmem) (hmin k2 hk2)
    · intro t0 h0
      obtain ⟨ks, hks, -⟩ := crawlTx_pending env db log t0 k h0 hF
      exact ⟨crawlTx_badURL env db log t0 k h0 hF, ks, hks⟩
    · intro t h hskip
      obtain ⟨t0, h0, ht⟩ := CrawlPage_ret env db log t h
      have hskip0 : t0.exit.isSkipped = true := by rw [ht] at hskip; exact hskip
      have herr : t0.err = none := (crawlTx_err_exit env db log t0 h0).2.mpr (Or.inl hskip0)
      obtain ⟨ks, hks, hnil⟩ := crawlTx_pending env db log t0 k h0 hF
      have hp : t.db.pending = db.pending.Delete k := by
        rw [ht]; simp only [herr, Option.isSome_none, Bool.false_eq_true, if_false]
        rw [hks, hnil hskip0]; rfl
      refine ⟨by rw [ht]; exact herr, hp, ?_⟩
      intro k'
      rw [hp, Bucket.Get_Delete]

theorem frontier_dequeue_witness :
    queueDB.pending ≠ [] ∧ queueDB.pending.First = some "http://b.test/" ∧
    queueResult.exit.isSkipped = true ∧
    queueResult.db.pending = [("http://c.test/", ())] ∧
    ∃ k, queueDB.pending.First = some k ∧ k ∈ queueDB.pending.keys ∧
      (∀ k' ∈ queueDB.pending.keys, keyLe k k' = true) ∧
      (∀ k2 ∈ queueDB.pending.keys, (∀ k' ∈ queueDB.pending.keys, keyLe k2 k' = true) → k2 = k) ∧
      (∀ t0, crawlTx sampleEnv queueDB [] = .ret t0 →
        (t0.exit = .badURL ↔ sampleEnv.urlParse k = none) ∧
        ∃ ks, t0.db.pending = putAll (queueDB.pending.Delete k) ks) ∧
      (∀ t, CrawlPage sampleEnv queueDB [] = .ret t → t.exit.isSkipped = true →
        t.err = none ∧ t.db.pending = queueDB.pending.Delete k ∧
        ∀ k', t.db.pending.Get k' = if k = k' then none else queueDB.pending.Get k') :=
  ⟨by decide, by decide, rfl, rfl, frontier_dequeue sampleEnv queueDB [] (by decide)⟩

/-! ## Lemmas: the walk as anchors, text and title -/

theorem hrefLoop_withText (env : Env) (attr : List Attribute) :
    ∀ (w : Walk) (text : List String) (title : String),
      hrefLoop env attr (w.withText text title) =
        Outcome.map (fun w' => w'.withText text title) (hrefLoop env attr w) := by
  induction attr with
  | nil => intro w text title; simp [hrefLoop, Outcome.map]
  | cons a rest ih =>
    intro w text title
    rw [hrefLoop, hrefLoop]
    have e1 : (w.withText text title).link = w.link := rfl
    have e2 : (w.withText text title).links = w.links := rfl
    have e3 : (w.withText text title).log = w.log := rfl
    rw [e1, e2, e3]
    split
    · cases hres : env.urlResolve w.link.URL a.Val with
      | none => rfl
      | some childURL =>
        dsimp only
        split
        · rfl
        · cases hg : GetLink env w.links w.log childURL with
          | fatal => rfl
          | diverge => rfl
          | ret r =>
            dsimp only
            split
            · rfl
            · split
              · rfl
              · exact ih { link := parentAfterAdd w.link r.link,
                           links := AddOutgoingLink r.links w.link r.link, log := r.log,
                           outgoing := w.outgoing ++ [r.link.URL.String], text := w.text,
                           title := w.title } text title
    · exact ih w text title

theorem Outcome.map_map {α β γ : Type} (g : β → γ) (h : α → β) (o : Outcome α) :
    Outcome.map g (Outcome.map h o) = Outcome.map (fun a => g (h a)) o := by
  cases o <;> rfl

theorem hrefAll_withText (env : Env) (l : List (List Attribute)) :
    ∀ (w : Walk) (text : List String) (title : String),
      hrefAll env l (w.withText text title) =
        Outcome.map (fun w' => w'.withText text title) (hrefAll env l w) := by
  induction l with
  | nil => intro w text title; rfl
  | cons attr rest ih =>
    intro w text title
    rw [hrefAll, hrefAll, hrefLoop_withText]
    cases hrefLoop env attr w with
    | ret w1 => exact ih w1 text title
    | fatal => rfl
    | diverge => rfl

theorem hrefAll_append (env : Env) (l1 l2 : List (List Attribute)) :
    ∀ w, hrefAll env (l1 ++ l2) w =
      match hrefAll env l1 w with
      | .ret w1 => hrefAll env l2 w1
      | .fatal => .fatal
      | .diverge => .diverge := by
  induction l1 with
  | nil => intro w; rfl
  | cons attr rest ih =>
    intro w
    rw [List.cons_append, hrefAll, hrefAll]
    cases hrefLoop env attr w with
    | ret w1 => exact ih w1
    | fatal => rfl
    | diverge => rfl

theorem getLast_append_getD (l1 l2 : List String) (d : String) :
    (l1 ++ l2).getLast?.getD d = l2.getLast?.getD (l1.getLast?.getD d) := by
  cases l2 with
  | nil => simp
  | cons x xs =>
    rw [List.getLast?_append]
    cases h : (x :: xs).getLast? with
    | none => simp at h
    | some y => simp

theorem fChildren_eq_of (env : Env) (c : Node) (cs : List Node)
    (hc : ∀ w, f env c w =
      Outcome.map (fun w' => w'.withText (w.text ++ walkText c)
        ((titleTexts c).getLast?.getD w.title)) (hrefAll env (anchorsOf c) w))
    (hcs : ∀ w, f.fChildren env cs w =
      Outcome.map (fun w' => w'.withText (w.text ++ walkText.walkTextList cs)
        ((titleTexts.titleTextsList cs).getLast?.getD w.title))
        (hrefAll env (anchorsOf.anchorsOfList cs) w)) :
    ∀ w, f.fChildren env (c :: cs) w =
      Outcome.map (fun w' => w'.withText (w.text ++ walkText.walkTextList (c :: cs))
        ((titleTexts.titleTextsList (c :: cs)).getLast?.getD w.title))
        (hrefAll env (anchorsOf.anchorsOfList (c :: cs)) w) := by
  intro w
  rw [f.fChildren, hc, anchorsOf.anchorsOfList, hrefAll_append, walkText.walkTextList,
    titleTexts.titleTextsList, getLast_append_getD]
  cases hrefAll env (anchorsOf c) w with
  | fatal => rfl
  | diverge => rfl
  | ret w1 =>
    simp only [Outcome.map]
    rw [hcs, hrefAll_withText, Outcome.map_map]
    simp only [Walk.withText, List.append_assoc]
    cases hrefAll env (anchorsOf.anchorsOfList cs) w1 <;> rfl

theorem withText_self (w : Walk) : w.withText w.text w.title = w := rfl

theorem Outcome.map_id_of {α : Type} (g : α → α) (o : Outcome α)
    (h : ∀ a, o = .ret a → g a = a) : Outcome.map g o = o := by
  cases o with
  | ret a => simp only [Outcome.map]; rw [h a rfl]
  | fatal => rfl
  | diverge => rfl

theorem hrefLoop_keeps_text (env : Env) (attr : List Attribute) (w w1 : Walk)
    (h : hrefLoop env attr w = .ret w1) : w1.text = w.text ∧ w1.title = w.title := by
  have := hrefLoop_withText env attr w w.text w.title
  rw [withText_self, h] at this
  simp only [Outcome.map] at this
  injection this with this
  constructor
  · rw [this]; rfl
  · rw [this]; rfl

theorem f_eq (env : Env) (n : Node) :
    ∀ w, f env n w =
      Outcome.map (fun w' => w'.withText (w.text ++ walkText n)
        ((titleTexts n).getLast?.getD w.title)) (hrefAll env (anchorsOf n) w) := by
  refine Node.rec
    (motive_1 := fun n => ∀ w, f env n w =
      Outcome.map (fun w' => w'.withText (w.text ++ walkText n)
        ((titleTexts n).getLast?.getD w.title)) (hrefAll env (anchorsOf n) w))
    (motive_2 := fun cs => ∀ w, f.fChildren env cs w =
      Outcome.map (fun w' => w'.withText (w.text ++ walkText.walkTextList cs)
        ((titleTexts.titleTextsList cs).getLast?.getD w.title))
        (hrefAll env (anchorsOf.anchorsOfList cs) w)) ?_ ?_ ?_ n
  · intro ty data attr children ihc w
    rw [f, anchorsOf, walkText, titleTexts]
    by_cases hty : ty = NodeType.ElementNode
    · subst hty
      simp only [if_true, true_and]
      by_cases ha : data = "a"
      · subst ha
        simp only [if_true]
        have h1 : ¬ ("a" = "title") := by decide
        have h2 : ("a" == "script" || "a" == "style") = false := by decide
        have h3 : ¬ ("a" = "script" ∨ "a" = "style") := by decide
        simp only [h1, h3, if_false, List.nil_append, List.singleton_append, hrefAll]
        cases hl : hrefLoop env attr w with
        | fatal => rfl
        | diverge => rfl
        | ret w1 =>
          obtain ⟨ht, hti⟩ := hrefLoop_keeps_text env attr w w1 hl
          dsimp only
          have h4 : (decide ("a" = "script") || decide ("a" = "style")) = false := by decide
          simp only [h4, Bool.false_eq_true, if_false, reduceCtorEq, List.nil_append,
            List.append_eq]
          rw [ihc, ht, hti]
      · simp only [ha, if_false, List.nil_append, reduceCtorEq]
        by_cases htitle : data = "title"
        · subst htitle
          have h4 : (decide ("title" = "script") || decide ("title" = "style")) = false := by
            decide
          have h5 : ¬ ("title" = "script" ∨ "title" = "style") := by decide
          simp only [h4, h5, Bool.false_eq_true, if_false, if_true]
          cases hft : firstText children with
          | none =>
            simp only [Option.toList, List.nil_append]
            rw [ihc]
          | some t =>
            simp only [Option.toList]
            have e : ({ w with title := t } : Walk) = w.withText w.text t := rfl
            rw [e, ihc, hrefAll_withText, Outcome.map_map, getLast_append_getD]
            rfl
        · simp only [htitle, if_false, List.nil_append]
          by_cases hss : data = "script" ∨ data = "style"
          · have h4 : (decide (data = "script") || decide (data = "style")) = true := by
              simpa using hss
            simp only [h4, hss, if_true, hrefAll, Outcome.map, List.append_nil,
              List.getLast?_nil, Option.getD_none]
            rfl
          · have h4 : (decide (data = "script") || decide (data = "style")) = false := by
              simpa using hss
            simp only [h4, hss, Bool.false_eq_true, if_false]
            rw [ihc]
    · simp only [hty, if_false, false_and]
      by_cases htx : ty = NodeType.TextNode
      · subst htx
        simp only [if_true, hrefAll, Outcome.map, List.getLast?_nil, Option.getD_none]
        rfl
      · simp only [htx, if_false, List.nil_append]
        rw [ihc]
  · intro w
    simp only [f.fChildren, anchorsOf.anchorsOfList, walkText.walkTextList,
      titleTexts.titleTextsList, hrefAll, Outcome.map, List.append_nil, List.getLast?_nil,
      Option.getD_none]
    rfl
  · intro c cs ihc ihcs w
    exact fChildren_eq_of env c cs ihc ihcs w

/-! ## Lemmas: what a step leaves unchanged -/

theorem indexed_step : CrawlPage sampleEnv indexedDB [] = .ret indexedResult := by decide!

theorem indexed_lookup :
    GetLink sampleEnv indexedDB.links [] (siteURL "a.test") =
      .ret ⟨linkOf "a.test", none, [("http://a.test/", linkOf "a.test")], ["http://a.test/"]⟩ := by
  decide!

theorem crawlTx_frame (env : Env) (db : DB) (log : List String) (t : TxResult)
    (h : crawlTx env db log = .ret t) (hc : t.exit ≠ .committed) :
    t.db.docs = db.docs ∧ t.db.docKeywords = db.docKeywords ∧
    t.db.keywords = db.keywords ∧ t.db.stats = db.stats ∧
    db.stats.Get "count" = some (some t.countStats) := by
  unfold crawlTx at h
  dsimp only at h
  repeat' split at h
  all_goals first
    | (cases h; done)
    | (injection h with h; subst h; exact absurd rfl hc)
    | (injection h with h; subst h; exact ⟨rfl, rfl, rfl, rfl, by assumption⟩)

theorem indexPage_docs (env : Env) (db : DB) (pending : Bucket Unit) (cs : CountStats)
    (link : Link) (size : Nat) (w : Walk) :
    (indexPage env db pending cs link size w).db.docs =
      db.docs.Put link.URL.String
        (Document.json
          { URL := link.URL, Title := w.title, Size := size,
            Length := (env.GetVector (String.join w.text)).2 }) := rfl

theorem crawlTx_docs_mono (env : Env) (db : DB) (log : List String) (t : TxResult)
    (h : crawlTx env db log = .ret t) (key : String) (d0 : Document)
    (hd : db.docs.Get key = some d0) : t.db.docs.Get key = some d0 := by
  by_cases hc : t.exit = .committed
  · obtain ⟨cs, k, uri, g, resp, buff, root, w, -, -, -, -, -, -, h7, -, -, -, -, ht⟩ :=
      crawlTx_committed env db log t h hc
    rw [ht, indexPage_docs]
    by_cases hk : g.link.URL.String = key
    · rw [hk, hd] at h7; cases h7
    · rw [Bucket.Get_Put_ne _ _ _ _ hk]; exact hd
  · rw [(crawlTx_frame env db log t h hc).1]; exact hd

theorem CrawlPage_docs_mono (env : Env) (db : DB) (log : List String) (key : String)
    (d0 : Document) (hd : db.docs.Get key = some d0) :
    (persisted db (CrawlPage env db log)).docs.Get key = some d0 := by
  unfold CrawlPage
  cases hc : crawlTx env db log with
  | fatal => exact hd
  | diverge => exact hd
  | ret t =>
    simp only [persisted]
    split
    · exact hd
    · exact crawlTx_docs_mono env db log t hc key d0 hd

/-! ## C11: a URL that has a document is skipped -/

/-- C11: when the link that `GetLink` returns for the dequeued URL has a
document under its URL already, `CrawlPage` returns without error at a
skipping return, the request history is as `GetLink` left it (the page is
not fetched), and docs, doc-keywords, keywords and stats are the buckets of
before; and, for any database, a document record once stored under a key is
still there, unchanged, after any number of calls. -/
theorem dedup_skip (env : Env) (db : DB) (log : List String) (cs : CountStats) (k : String)
    (uri : URL) (g : GetLinkResult) (d : Document)
    (hs : db.stats.Get "count" = some (some cs)) (hk : db.pending.First = some k)
    (hu : env.urlParse k = some uri) (hg : GetLink env db.links log uri = .ret g)
    (he : g.err = none) (hd : db.docs.Get g.link.URL.String = some d) :
    (∃ t, CrawlPage env db log = .ret t ∧ t.err = none ∧ t.exit.isSkipped = true ∧
      t.log = g.log ∧ t.db.docs = db.docs ∧ t.db.docKeywords = db.docKeywords ∧
      t.db.keywords = db.keywords ∧ t.db.stats = db.stats) ∧
    (∀ (env' : Env) (db' : DB) (log' : List String) (key : String) (d0 : Document),
      db'.docs.Get key = some d0 →
        ∀ n, (crawlSteps env' n (db', log')).1.docs.Get key = some d0) := by
  constructor
  · by_cases hv : ValidLink g.link = true
    · have h0 : crawlTx env db log =
          .ret ⟨{ db with pending := db.pending.Delete k, links := g.links }, g.log, cs, none,
            .alreadyIndexed⟩ := by
        simp [crawlTx, hs, hk, hu, hg, he, hv, hd]
      exact ⟨_, CrawlPage_of_crawlTx env db log _ h0, rfl, rfl, rfl, rfl, rfl, rfl, rfl⟩
    · have h0 : crawlTx env db log =
          .ret ⟨{ db with pending := db.pending.Delete k, links := g.links }, g.log, cs, none,
            .invalidLink⟩ := by
        simp [crawlTx, hs, hk, hu, hg, he, hv]
      exact ⟨_, CrawlPage_of_crawlTx env db log _ h0, rfl, rfl, rfl, rfl, rfl, rfl, rfl⟩
  · intro env' db' log' key d0 h0 n
    induction n with
    | zero => exact h0
    | succ n ih => exact CrawlPage_docs_mono env' _ _ key d0 ih

theorem dedup_skip_witness :
    (indexedDB.stats.Get "count" = some (some ⟨0, 0, 0⟩) ∧
      indexedDB.pending.First = some "http://a.test/" ∧
      sampleEnv.urlParse "http://a.test/" = some (siteURL "a.test") ∧
      indexedDB.docs.Get (linkOf "a.test").URL.String =
        some ⟨siteURL "a.test", "Old", 7, 1⟩) ∧
    (∃ t, CrawlPage sampleEnv indexedDB [] = .ret t ∧ t.err = none ∧
      t.exit.isSkipped = true ∧ t.log = ["http://a.test/"] ∧ t.db.docs = indexedDB.docs ∧
      t.db.docKeywords = indexedDB.docKeywords ∧ t.db.keywords = indexedDB.keywords ∧
      t.db.stats = indexedDB.stats) :=
  ⟨⟨by decide, by decide, by decide, by decide⟩,
    (dedup_skip sampleEnv indexedDB [] ⟨0, 0, 0⟩ "http://a.test/" (siteURL "a.test")
      ⟨linkOf "a.test", none, [("http://a.test/", linkOf "a.test")], ["http://a.test/"]⟩
      ⟨siteURL "a.test", "Old", 7, 1⟩ (by decide) (by decide) (by decide) indexed_lookup rfl
      (by decide)).1⟩

/-! ## Lemmas: the counters -/

theorem Bucket.keys_write {α : Type} (b : Bucket α) (k : String) (v : α) :
    (b.write k v).keys = if k ∈ b.keys then b.keys else b.keys ++ [k] := by
  induction b with
  | nil => simp [Bucket.write, Bucket.keys]
  | cons q rest ih =>
    obtain ⟨k₀, v₀⟩ := q
    simp only [Bucket.write]
    by_cases h0 : k₀ = k
    · subst h0; simp [Bucket.keys]
    · have h0' : ¬ k = k₀ := fun h => h0 h.symm
      simp only [h0, if_false]
      simp only [Bucket.keys, List.map_cons, List.mem_cons, h0', false_or] at ih ⊢
      rw [ih]
      split <;> simp

theorem Bucket.keys_Put {α : Type} (b : Bucket α) (k : String) (v : α) :
    (b.Put k v).keys = if keyOK k = true ∧ k ∉ b.keys then b.keys ++ [k] else b.keys := by
  unfold Bucket.Put
  by_cases hk : keyOK k = true
  · rw [if_pos hk, Bucket.keys_write]
    by_cases hm : k ∈ b.keys <;> simp [hk, hm]
  · rw [if_neg hk]; simp [hk]

theorem Bucket.mem_keys_iff {α : Type} (b : Bucket α) (k : String) :
    k ∈ b.keys ↔ ∃ v, b.Get k = some v := by
  constructor
  · intro h
    induction b with
    | nil => simp [Bucket.keys] at h
    | cons q rest ih =>
      obtain ⟨k₀, v₀⟩ := q
      simp only [Bucket.Get]
      by_cases h0 : k₀ = k
      · exact ⟨v₀, by simp [h0]⟩
      · simp only [Bucket.keys, List.map_cons, List.mem_cons] at h
        rcases h with h | h
        · exact absurd h.symm h0
        · obtain ⟨v, hv⟩ := ih h
          exact ⟨v, by simp [h0, hv]⟩
  · rintro ⟨v, hv⟩
    exact Bucket.mem_keys_of_Get b k v hv

theorem Bucket.nodup_Put {α : Type} (b : Bucket α) (k : String) (v : α)
    (h : b.keys.Nodup) : (b.Put k v).keys.Nodup := by
  rw [Bucket.keys_Put]
  split
  · rename_i hk
    exact List.Nodup.append h (List.nodup_singleton k) (by simpa using hk.2)
  · exact h

theorem Bucket.nodup_Delete {α : Type} (b : Bucket α) (k : String)
    (h : b.keys.Nodup) : (b.Delete k).keys.Nodup := by
  unfold Bucket.Delete Bucket.keys at *
  exact (List.Nodup.sublist (List.Sublist.map _ (List.filter_sublist _)) h)

theorem Bucket.write_same {α : Type} (b : Bucket α) (k : String) (v : α)
    (h : b.Get k = some v) : b.write k v = b := by
  induction b with
  | nil => simp [Bucket.Get] at h
  | cons q rest ih =>
    obtain ⟨k₀, v₀⟩ := q
    simp only [Bucket.Get] at h
    simp only [Bucket.write]
    by_cases h0 : k₀ = k
    · simp only [h0, if_true] at h ⊢
      injection h with h
      rw [h]
    · simp only [h0, if_false] at h ⊢
      rw [ih h]

theorem Bucket.Put_same {α : Type} (b : Bucket α) (k : String) (v : α)
    (h : b.Get k = some v) : b.Put k v = b := by
  unfold Bucket.Put
  split
  · exact Bucket.write_same b k v h
  · rfl

theorem Bucket.length_write {α : Type} (b : Bucket α) (k : String) (v : α) :
    List.length (b.write k v) = List.length b + (if (b.Get k).isNone then 1 else 0) := by
  induction b with
  | nil => simp [Bucket.write, Bucket.Get]
  | cons q rest ih =>
    obtain ⟨k₀, v₀⟩ := q
    simp only [Bucket.write, Bucket.Get]
    by_cases h0 : k₀ = k
    · simp [h0]
    · simp only [h0, if_false, List.length_cons, ih]
      omega

theorem Bucket.length_Put {α : Type} (b : Bucket α) (k : String) (v : α) :
    List.length (b.Put k v) =
      List.length b + (if keyOK k = true ∧ (b.Get k).isNone then 1 else 0) := by
  unfold Bucket.Put
  by_cases hk : keyOK k = true
  · rw [if_pos hk, Bucket.length_write]; simp only [hk, true_and]
  · rw [if_neg hk]; simp [hk]

theorem putAll_nodup (ks : List String) : ∀ (b : Bucket Unit), b.keys.Nodup →
    (putAll b ks).keys.Nodup := by
  induction ks with
  | nil => intro b h; exact h
  | cons l ks ih => intro b h; exact ih _ (Bucket.nodup_Put b l () h)

theorem putAll_Get (ks : List String) : ∀ (b : Bucket Unit) (l : String),
    (putAll b ks).Get l = some () ↔ (keyOK l = true ∧ l ∈ ks) ∨ b.Get l = some () := by
  induction ks with
  | nil => intro b l; simp [putAll]
  | cons x ks ih =>
    intro b l
    have := ih (b.Put x ()) l
    simp only [putAll, List.foldl_cons] at this ⊢
    rw [this, Bucket.Get_Put, List.mem_cons]
    by_cases hx : x = l
    · subst hx
      by_cases hk : keyOK x = true
      · simp [hk]
      · simp [hk]
    · have hx' : ¬ l = x := fun h => hx h.symm
      simp [hx, hx']

theorem enqueue_fold_stats (out : List String) : ∀ (p : Bucket Unit) (cs : CountStats),
    (List.foldl enqueue (p, cs) out).2 =
      { cs with PendingCount := cs.PendingCount + out.length } := by
  induction out with
  | nil => intro p cs; rfl
  | cons l out ih =>
    intro p cs
    simp only [List.foldl_cons, enqueue]
    rw [ih]
    simp only [List.length_cons]
    congr 1
    omega

theorem indexWord_counts (url : URL) (wc : List (String × Nat)) (st : IndexState)
    (word : String) :
    (indexWord url wc st word).countStats =
      { st.countStats with KeywordCount := st.countStats.KeywordCount +
          (if wordGet wc word ≠ 0 ∧ st.keywords.Get word = none then 1 else 0) } ∧
    List.length (indexWord url wc st word).keywords =
      List.length st.keywords +
        (if wordGet wc word ≠ 0 ∧ keyOK word = true ∧ st.keywords.Get word = none
          then 1 else 0) := by
  unfold indexWord
  by_cases h0 : wordGet wc word = 0
  · simp [h0]
  · simp only [h0, if_false, ne_eq, not_false_eq_true, true_and]
    rw [Bucket.length_Put]
    cases hg : st.keywords.Get word <;> simp

theorem indexWords_counts (url : URL) (wc : List (String × Nat)) (ws : List String) :
    ∀ st : IndexState,
      (List.foldl (indexWord url wc) st ws).countStats.DocumentCount =
        st.countStats.DocumentCount ∧
      (List.foldl (indexWord url wc) st ws).countStats.PendingCount =
        st.countStats.PendingCount ∧
      ((∀ w ∈ ws, wordGet wc w ≠ 0 → keyOK w = true) →
        (List.foldl (indexWord url wc) st ws).countStats.KeywordCount +
            List.length st.keywords =
          st.countStats.KeywordCount +
            List.length (List.foldl (indexWord url wc) st ws).keywords) := by
  induction ws with
  | nil => intro st; simp
  | cons w ws ih =>
    intro st
    obtain ⟨h1, h2, h3⟩ := ih (indexWord url wc st w)
    obtain ⟨hc, hl⟩ := indexWord_counts url wc st w
    simp only [List.foldl_cons]
    rw [hc] at h1 h2 h3
    rw [hl] at h3
    refine ⟨h1, h2, ?_⟩
    intro hok
    have h3' := h3 (fun w' hw' => hok w' (List.mem_cons_of_mem _ hw'))
    simp only at h3'
    by_cases h0 : wordGet wc w ≠ 0
    · have hk := hok w (List.mem_cons_self _ _) h0
      simp only [h0, hk, not_false_eq_true, true_and] at h3'
      omega
    · simp only [h0, false_and, if_false] at h3'
      omega

theorem indexWord_nodup (url : URL) (wc : List (String × Nat)) (st : IndexState)
    (word : String) (h : st.keywords.keys.Nodup) :
    (indexWord url wc st word).keywords.keys.Nodup := by
  unfold indexWord
  split
  · exact h
  · exact Bucket.nodup_Put _ _ _ h

theorem indexWords_nodup (url : URL) (wc : List (String × Nat)) (st : IndexState)
    (h : st.keywords.keys.Nodup) : (indexWords url wc st).keywords.keys.Nodup := by
  unfold indexWords
  generalize List.map Prod.fst wc = ws
  induction ws generalizing st with
  | nil => exact h
  | cons w ws ih => exact ih _ (indexWord_nodup url wc st w h)

theorem indexPage_counts (env : Env) (db : DB) (pending : Bucket Unit) (cs : CountStats)
    (link : Link) (size : Nat) (w : Walk) :
    let t := indexPage env db pending cs link size w
    t.db.stats.Get "count" = some (some t.countStats) ∧
    t.countStats.DocumentCount = cs.DocumentCount + 1 ∧
    t.countStats.PendingCount = cs.PendingCount + w.outgoing.length ∧
    ((∀ word, wordGet (env.GetVector (String.join w.text)).1 word ≠ 0 → keyOK word = true) →
      t.countStats.KeywordCount + List.length db.keywords =
        cs.KeywordCount + List.length t.db.keywords) ∧
    t.db.pending = putAll pending w.outgoing ∧
    (db.keywords.keys.Nodup → t.db.keywords.keys.Nodup) := by
  obtain ⟨h1, h2, h3⟩ := indexWords_counts link.URL (env.GetVector (String.join w.text)).1
    (List.map Prod.fst (env.GetVector (String.join w.text)).1) ⟨db.keywords, cs, []⟩
  have hcount : keyOK "count" = true := by decide
  simp only [indexPage, indexWords, enqueue_fold_stats, enqueue_fold, Bucket.Get_Put, hcount,
    and_self, if_true]
  refine ⟨trivial, ?_, ?_, ?_, trivial, ?_⟩
  · rw [h1]
  · rw [h2]
  · intro hok
    exact h3 (fun w' _ hw' => hok w' hw')
  · intro hnd
    exact indexWords_nodup link.URL _ ⟨db.keywords, cs, []⟩ hnd

theorem CrawlPage_frame (env : Env) (db : DB) (log : List String) (t : TxResult)
    (h : CrawlPage env db log = .ret t) (hc : t.exit ≠ .committed) :
    t.db.docs = db.docs ∧ t.db.docKeywords = db.docKeywords ∧
    t.db.keywords = db.keywords ∧ t.db.stats = db.stats ∧
    db.stats.Get "count" = some (some t.countStats) := by
  obtain ⟨t0, h0, ht⟩ := CrawlPage_ret env db log t h
  have hc0 : t0.exit ≠ .committed := by rw [ht] at hc; exact hc
  obtain ⟨h1, h2, h3, h4, h5⟩ := crawlTx_frame env db log t0 h0 hc0
  rw [ht]
  dsimp only
  split
  · exact ⟨rfl, rfl, rfl, rfl, h5⟩
  · exact ⟨h1, h2, h3, h4, h5⟩

/-! ## C13: the pending counter -/

theorem twice_step : CrawlPage (htmlSite twicePage) pendingDB [] = .ret twiceResult := by
  decide!

/-- C13: in a committed step, where `w` is the state of the walk over the
parsed body of the page that was fetched for the dequeued key `k`, the
PendingCount stored and returned is the one read at the start plus the
length of the list `w.outgoing` (repeats and URLs already pending included);
the frontier is the old one without `k` after `Put` of each element of
`w.outgoing`: a key is pending afterwards exactly when it is an element of
the list that bolt takes as a key or was pending and is not `k`; a `Put` of a
pending key changes nothing; and a frontier that lists each key once still
does so. -/
theorem pending_counter (env : Env) (db : DB) (log : List String) (t : TxResult)
    (h : CrawlPage env db log = .ret t) (hc : t.exit = .committed) :
    ∃ cs k uri g resp buff root w, CommittedRun env db log cs k uri g resp buff root w ∧
      t.db.stats.Get "count" = some (some t.countStats) ∧
      t.countStats.PendingCount = cs.PendingCount + w.outgoing.length ∧
      t.db.pending = putAll (db.pending.Delete k) w.outgoing ∧
      (∀ l, t.db.pending.Get l = some () ↔
        (keyOK l = true ∧ l ∈ w.outgoing) ∨ (l ≠ k ∧ db.pending.Get l = some ())) ∧
      (∀ (b : Bucket Unit) (l : String), b.Get l = some () → b.Put l () = b) ∧
      (db.pending.keys.Nodup → t.db.pending.keys.Nodup) := by
  obtain ⟨cs, k, uri, g, resp, buff, root, w, hrun, ht⟩ :=
    CrawlPage_committed_run env db log t h hc
  obtain ⟨c1, -, c3, -, c5, -⟩ :=
    indexPage_counts env db (db.pending.Delete k) cs g.link buff.length w
  rw [← ht] at c1 c3 c5
  refine ⟨cs, k, uri, g, resp, buff, root, w, hrun, c1, c3, c5, ?_, ?_, ?_⟩
  · intro l
    rw [c5, putAll_Get, Bucket.Get_Delete]
    by_cases hl : k = l
    · subst hl; simp
    · have hl' : ¬ l = k := fun e => hl e.symm
      simp [hl, hl']
  · intro b l hb
    exact Bucket.Put_same b l () hb
  · intro hnd
    rw [c5]
    exact putAll_nodup _ _ (Bucket.nodup_Delete _ _ hnd)

theorem pending_counter_witness :
    twiceResult.exit = .committed ∧ twiceResult.countStats.PendingCount = 2 ∧
    twiceResult.db.pending = [("http://b.test/", ())] ∧
    ∃ cs k uri g resp buff root w,
      CommittedRun (htmlSite twicePage) pendingDB [] cs k uri g resp buff root w ∧
      twiceResult.db.stats.Get "count" = some (some twiceResult.countStats) ∧
      twiceResult.countStats.PendingCount = cs.PendingCount + w.outgoing.length ∧
      twiceResult.db.pending = putAll (pendingDB.pending.Delete k) w.outgoing ∧
      (∀ l, twiceResult.db.pending.Get l = some () ↔
        (keyOK l = true ∧ l ∈ w.outgoing) ∨ (l ≠ k ∧ pendingDB.pending.Get l = some ())) ∧
      (∀ (b : Bucket Unit) (l : String), b.Get l = some () → b.Put l () = b) ∧
      (pendingDB.pending.keys.Nodup → twiceResult.db.pending.keys.Nodup) :=
  ⟨rfl, rfl, rfl, pending_counter (htmlSite twicePage) pendingDB [] twiceResult twice_step rfl⟩

/-! ## C14: the keyword counter -/

theorem sampleDB_keywordCountOK : KeywordCountOK sampleDB := by
  intro cs hcs
  have e : sampleDB.stats.Get "count" = some (some ⟨0, 0, 0⟩) := by decide
  rw [e] at hcs
  injection hcs with hcs
  injection hcs with hcs
  subst hcs
  rfl

theorem CrawlPage_keywordCount (env : Env) (db : DB) (log : List String)
    (hwords : ∀ body word, wordGet (env.GetVector body).1 word ≠ 0 → keyOK word = true)
    (h : KeywordCountOK db) : KeywordCountOK (persisted db (CrawlPage env db log)) := by
  cases hc : CrawlPage env db log with
  | fatal => exact h
  | diverge => exact h
  | ret t =>
    simp only [persisted]
    by_cases hx : t.exit = .committed
    · obtain ⟨cs, k, uri, g, resp, buff, root, w, h1, -, -, -, -, -, -, -, -, -, -, ht⟩ :=
        CrawlPage_committed env db log t hc hx
      obtain ⟨c1, -, -, c4, -, -⟩ :=
        indexPage_counts env db (db.pending.Delete k) cs g.link buff.length w
      have c4' := c4 (hwords _)
      rw [← ht] at c1 c4'
      intro cs' hcs'
      rw [c1] at hcs'
      injection hcs' with hcs'
      injection hcs' with hcs'
      subst hcs'
      have := h cs h1
      omega
    · obtain ⟨-, -, f3, f4, -⟩ := CrawlPage_frame env db log t hc hx
      intro cs' hcs'
      rw [f4] at hcs'
      rw [f3]
      exact h cs' hcs'

theorem CrawlPage_keywords_nodup (env : Env) (db : DB) (log : List String)
    (h : db.keywords.keys.Nodup) :
    (persisted db (CrawlPage env db log)).keywords.keys.Nodup := by
  cases hc : CrawlPage env db log with
  | fatal => exact h
  | diverge => exact h
  | ret t =>
    simp only [persisted]
    by_cases hx : t.exit = .committed
    · obtain ⟨cs, k, uri, g, resp, buff, root, w, -, -, -, -, -, -, -, -, -, -, -, ht⟩ :=
        CrawlPage_committed env db log t hc hx
      obtain ⟨-, -, -, -, -, c6⟩ :=
        indexPage_counts env db (db.pending.Delete k) cs g.link buff.length w
      rw [← ht] at c6
      exact c6 h
    · rw [(CrawlPage_frame env db log t hc hx).2.2.1]; exact h

/-- C14 fails when the vectorizer returns a word that bolt refuses as a
key.  With the blank word at frequency 1, the committed sample step starts
with a counter of 0 and no keyword record and ends with a counter of 1 and no
keyword record. -/
theorem blank_word_is_counted :
    KeywordCountOK sampleDB ∧
    (CrawlPage blankWordEnv sampleDB []).map TxResult.exit = .ret Exit.committed ∧
    (persisted sampleDB (CrawlPage blankWordEnv sampleDB [])).stats.Get "count" =
      some (some ⟨1, 0, 1⟩) ∧
    (persisted sampleDB (CrawlPage blankWordEnv sampleDB [])).keywords = [] ∧
    ¬ KeywordCountOK (persisted sampleDB (CrawlPage blankWordEnv sampleDB [])) := by
  have e1 : (persisted sampleDB (CrawlPage blankWordEnv sampleDB [])).stats.Get "count" =
      some (some ⟨1, 0, 1⟩) := by decide!
  have e2 : (persisted sampleDB (CrawlPage blankWordEnv sampleDB [])).keywords = [] := by
    decide!
  refine ⟨sampleDB_keywordCountOK, by decide!, e1, e2, ?_⟩
  generalize persisted sampleDB (CrawlPage blankWordEnv sampleDB []) = d at e1 e2
  intro hok
  have := hok _ e1
  rw [e2] at this
  cases this

/-- C14, amended: one round of the index loop adds one to KeywordCount
exactly when the word has a non-zero frequency and no record in the keywords
bucket, and the bucket grows by one record exactly when, moreover, bolt
takes the word as a key; so, with a vectorizer all of whose words of non-zero
frequency bolt takes as keys, when the stored KeywordCount is the number of
records of the keywords bucket before `CrawlPage`, it is so in the database
persisted by the call, at whatever return, and after any number of calls;
and a bucket that lists each key once still does so. -/
theorem keyword_counter (env : Env) (db : DB) (log : List String)
    (hwords : ∀ body word, wordGet (env.GetVector body).1 word ≠ 0 → keyOK word = true)
    (h : KeywordCountOK db) :
    (∀ (url : URL) (wc : List (String × Nat)) (st : IndexState) (word : String),
      (indexWord url wc st word).countStats.KeywordCount =
          st.countStats.KeywordCount +
            (if wordGet wc word ≠ 0 ∧ st.keywords.Get word = none then 1 else 0) ∧
        List.length (indexWord url wc st word).keywords =
          List.length st.keywords +
            (if wordGet wc word ≠ 0 ∧ keyOK word = true ∧ st.keywords.Get word = none
              then 1 else 0)) ∧
    KeywordCountOK (persisted db (CrawlPage env db log)) ∧
    (∀ n, KeywordCountOK (crawlSteps env n (db, log)).1) ∧
    (db.keywords.keys.Nodup →
      (persisted db (CrawlPage env db log)).keywords.keys.Nodup) := by
  refine ⟨?_, CrawlPage_keywordCount env db log hwords h, ?_,
    CrawlPage_keywords_nodup env db log⟩
  · intro url wc st word
    obtain ⟨hc, hl⟩ := indexWord_counts url wc st word
    exact ⟨by rw [hc], hl⟩
  · intro n
    induction n with
    | zero => exact h
    | succ n ih => exact CrawlPage_keywordCount env _ _ hwords ih

theorem keyword_counter_witness :
    (∀ body word, wordGet (sampleEnv.GetVector body).1 word ≠ 0 → keyOK word = true) ∧
    KeywordCountOK sampleDB ∧ sampleResult.db.keywords.keys = ["hello", "world"] ∧
    sampleResult.countStats.KeywordCount = 2 ∧
    KeywordCountOK (persisted sampleDB (CrawlPage sampleEnv sampleDB [])) :=
  have hwords : ∀ body word, wordGet (sampleEnv.GetVector body).1 word ≠ 0 →
      keyOK word = true := by
    intro body word
    simp only [sampleEnv]
    split
    · simp only [wordGet]
      split
      · rename_i e; intro _; rw [← e]; decide
      · split
        · rename_i e; intro _; rw [← e]; decide
        · intro hx; exact absurd rfl hx
    · intro hx; exact absurd rfl hx
  have h0 : KeywordCountOK sampleDB := sampleDB_keywordCountOK
  ⟨hwords, h0, rfl, rfl, (keyword_counter sampleEnv sampleDB [] hwords h0).2.1⟩

/-! ## C19: the document counter -/

theorem AddOutgoingLink_eq (s : Bucket Link) (p c : Link) :
    AddOutgoingLink s p c =
      (s.Put c.URL.String (childRecord p c).json).Put p.URL.String (parentRecord p c).json := by
  unfold AddOutgoingLink childRecord parentRecord
  cases ho : p.Outgoing <;> cases hi : c.Incomming <;> simp [ho, hi]

theorem AddOutgoingLink_Get (s : Bucket Link) (p c : Link) (key : String) :
    (AddOutgoingLink s p c).Get key =
      if keyOK p.URL.String = true ∧ p.URL.String = key then some (parentRecord p c).json
      else if keyOK c.URL.String = true ∧ c.URL.String = key then some (childRecord p c).json
      else s.Get key := by
  rw [AddOutgoingLink_eq, Bucket.Get_Put, Bucket.Get_Put]

/-- C17 fails when bolt refuses a key and when a URL carries user info.  For
a child whose URL has more than 32768 bytes no record is stored under the
child's URL: the bucket holds the parent only.  For the child
`http://user:pw@b.test/` the record stored under the child's URL has an
empty user info, so it is not the given child with its incoming set
extended. -/
theorem long_child_is_not_stored :
    (linkOf "a.test").URL.String ≠ (linkOf longHost).URL.String ∧
    (AddOutgoingLink [] (linkOf "a.test") (linkOf longHost)).Get (linkOf longHost).URL.String =
      none ∧
    (AddOutgoingLink [] (linkOf "a.test") (linkOf longHost)).keys = ["http://a.test/"] ∧
    (linkOf "a.test").URL.String ≠ ({ linkOf "b.test" with URL := userURL "b.test" } : Link).URL.String ∧
    (AddOutgoingLink [] (linkOf "a.test") { linkOf "b.test" with URL := userURL "b.test" }).Get
        "http://user:pw@b.test/" =
      some { linkOf "b.test" with
        URL := (userURL "b.test").json, Incomming := some ["http://a.test/"] } ∧
    (AddOutgoingLink [] (linkOf "a.test") { linkOf "b.test" with URL := userURL "b.test" }).Get
        "http://user:pw@b.test/" ≠
      some (childRecord (linkOf "a.test") { linkOf "b.test" with URL := userURL "b.test" }) := by
  decide!

/-- C17, amended: for a parent and a child whose URLs print differently,
after `AddOutgoingLink`, when bolt takes the parent's URL as a key the record
under it is the parent with the child's URL added to its outgoing set (a nil
set counting as empty), as JSON gives it back; when bolt takes the child's
URL as a key the record under it is the child with the parent's URL added to
its incoming set, as JSON gives it back; a key that bolt refuses holds what
it held; and so does every other key. -/
theorem AddOutgoingLink_edge (links : Bucket Link) (parentLink childLink : Link)
    (hne : parentLink.URL.String ≠ childLink.URL.String) :
    (keyOK parentLink.URL.String = true →
      (AddOutgoingLink links parentLink childLink).Get parentLink.URL.String =
        some (Link.json { parentLink with
          Outgoing := some (setAdd (parentLink.Outgoing.getD []) childLink.URL.String) })) ∧
    (keyOK childLink.URL.String = true →
      (AddOutgoingLink links parentLink childLink).Get childLink.URL.String =
        some (Link.json { childLink with
          Incomming := some (setAdd (childLink.Incomming.getD []) parentLink.URL.String) })) ∧
    (keyOK parentLink.URL.String = false →
      (AddOutgoingLink links parentLink childLink).Get parentLink.URL.String =
        links.Get parentLink.URL.String) ∧
    (keyOK childLink.URL.String = false →
      (AddOutgoingLink links parentLink childLink).Get childLink.URL.String =
        links.Get childLink.URL.String) ∧
    (∀ key, key ≠ parentLink.URL.String → key ≠ childLink.URL.String →
      (AddOutgoingLink links parentLink childLink).Get key = links.Get key) ∧
    (∀ l : Link, l.URL.json = l.URL → l.json = l) ∧
    (∀ (m : List String) (u x : String), x ∈ setAdd m u ↔ x ∈ m ∨ x = u) := by
  have hne' : ¬ childLink.URL.String = parentLink.URL.String := fun e => hne e.symm
  refine ⟨?_, ?_, ?_, ?_, ?_, Link.json_eq_of, ?_⟩
  · intro hk
    rw [AddOutgoingLink_Get]
    simp [hk]
    rfl
  · intro hk
    rw [AddOutgoingLink_Get]
    simp [hk, hne]
    rfl
  · intro hk
    rw [AddOutgoingLink_Get]
    simp [hk, hne']
  · intro hk
    rw [AddOutgoingLink_Get]
    simp [hk, hne]
  · intro key h1 h2
    have h1' : ¬ parentLink.URL.String = key := fun e => h1 e.symm
    have h2' : ¬ childLink.URL.String = key := fun e => h2 e.symm
    rw [AddOutgoingLink_Get]
    simp [h1', h2']
  · intro m u x
    unfold setAdd
    split
    · rename_i hu
      constructor
      · intro h; exact Or.inl h
      · rintro (h | h)
        · exact h
        · rw [h]; exact hu
    · simp

theorem AddOutgoingLink_edge_witness :
    (linkOf "a.test").URL.String ≠ (linkOf "b.test").URL.String ∧
    keyOK (linkOf "a.test").URL.String = true ∧ keyOK (linkOf "b.test").URL.String = true ∧
    AddOutgoingLink [] (linkOf "a.test") (linkOf "b.test") =
      [("http://b.test/", { linkOf "b.test" with Incomming := some ["http://a.test/"] }),
       ("http://a.test/", { linkOf "a.test" with Outgoing := some ["http://b.test/"] })] ∧
    (AddOutgoingLink [] (linkOf "a.test") (linkOf "b.test")).Get (linkOf "a.test").URL.String =
      some (Link.json { linkOf "a.test" with
        Outgoing := some (setAdd ((linkOf "a.test").Outgoing.getD [])
          (linkOf "b.test").URL.String) }) :=
  ⟨by decide, by decide, by decide, by decide,
    (AddOutgoingLink_edge [] (linkOf "a.test") (linkOf "b.test") (by decide)).1 (by decide)⟩

/-! ## Lemmas: redirect markers -/

theorem Bucket.Get_Put_self {α : Type} (b : Bucket α) (k : String) (v : α)
    (hk : keyOK k = true) : (b.Put k v).Get k = some v := by
  rw [Bucket.Get_Put, if_pos ⟨hk, rfl⟩]

theorem OneHop_nil : OneHop [] := by
  intro k m h; simp [Bucket.Get] at h

theorem OneHop_Put_link (s : Bucket Link) (k : String) (l : Link) (h : OneHop s)
    (hl : l.Redirect = false) : OneHop (s.Put k l) := by
  by_cases hok : keyOK k = true
  · intro k' m hm hr
    rw [Bucket.Get_Put] at hm
    by_cases hk : k = k'
    · rw [if_pos ⟨hok, hk⟩] at hm
      injection hm with hm
      rw [← hm, hl] at hr
      cases hr
    · rw [if_neg (fun e => hk e.2)] at hm
      obtain ⟨l', h1, h2⟩ := h k' m hm hr
      rw [Bucket.Get_Put]
      by_cases ht : k = m.URL.noFragment.String
      · exact ⟨l, by rw [if_pos ⟨hok, ht⟩], hl⟩
      · exact ⟨l', by rw [if_neg (fun e => ht e.2)]; exact h1, h2⟩
  · rw [Bucket.Put_refused _ _ _ (by simpa using hok)]; exact h

theorem OneHop_Put_marker (s : Bucket Link) (k : String) (m : Link) (h : OneHop s)
    (hk : s.Get k = none)
    (ht : ∃ l, s.Get m.URL.noFragment.String = some l ∧ l.Redirect = false) :
    OneHop (s.Put k m) := by
  by_cases hok : keyOK k = true
  · intro k' m' hm hr
    rw [Bucket.Get_Put] at hm
    have key : ∀ m0 : Link,
        (∃ l, s.Get m0.URL.noFragment.String = some l ∧ l.Redirect = false) →
        ∃ l, (s.Put k m).Get m0.URL.noFragment.String = some l ∧ l.Redirect = false := by
      rintro m0 ⟨l, h1, h2⟩
      refine ⟨l, ?_, h2⟩
      rw [Bucket.Get_Put]
      by_cases hkt : k = m0.URL.noFragment.String
      · rw [← hkt, hk] at h1; cases h1
      · rw [if_neg (fun e => hkt e.2)]; exact h1
    by_cases hkk : k = k'
    · rw [if_pos ⟨hok, hkk⟩] at hm
      injection hm with hm
      subst hm
      exact key m ht
    · rw [if_neg (fun e => hkk e.2)] at hm
      exact key m' (h k' m' hm hr)
  · rw [Bucket.Put_refused _ _ _ (by simpa using hok)]; exact h

theorem GetLinkFuel_noRedirect (env : Env) (s : Bucket Link) (log : List String)
    (n : Nat) (u : URL) (r : GetLinkResult) (h : GetLinkFuel env n s log u = .ret r) :
    r.link.Redirect = false := by
  rcases GetLinkFuel_inv env s log n u r h with ⟨k, l, -, hl, e⟩ | ⟨v, -, -, h2⟩
  · rw [e]; exact hl
  · rcases h2 with ⟨e, -, e2⟩ | ⟨resp, -, e2⟩ <;> rw [e2] <;> rfl

theorem linksAfterFetch_oneHop (s : Bucket Link) (v : URL) (resp : Response) (hs : OneHop s)
    (hg : s.Get v.String = none) (hst : resp.URL.noFragment.storable) :
    OneHop (linksAfterFetch s v resp) := by
  have h1 : OneHop (s.Put resp.URL.noFragment.String (fetchedLink resp).json) :=
    OneHop_Put_link s _ _ hs rfl
  unfold linksAfterFetch
  split
  · rename_i hne
    refine OneHop_Put_marker _ _ _ h1 ?_ ?_
    · rw [Bucket.Get_Put_ne _ _ _ _ hne]; exact hg
    · have e : (markerFor resp.URL.noFragment).json.URL.noFragment = resp.URL.noFragment := by
        show resp.URL.noFragment.json.noFragment = _
        rw [hst.1]
        rfl
      rw [e]
      exact ⟨_, Bucket.Get_Put_self _ _ _ hst.2, rfl⟩
  · exact h1

theorem GetLinkFuel_oneHop (env : Env) (s : Bucket Link) (log : List String)
    (hs : OneHop s) (n : Nat) (u : URL) (r : GetLinkResult)
    (h : GetLinkFuel env n s log u = .ret r)
    (hst : r.err = none → r.log ≠ log → r.link.URL.storable) :
    OneHop r.links := by
  rcases GetLinkFuel_inv env s log n u r h with ⟨k, l, -, hl, e⟩ | ⟨v, -, hg, h2⟩
  · rw [e]; exact hs
  · rcases h2 with ⟨e, -, e2⟩ | ⟨resp, -, e2⟩
    · rw [e2]; exact hs
    · subst e2
      exact linksAfterFetch_oneHop s v resp hs hg (hst rfl (by simp))

theorem GetLinkFuel_storable (env : Env) (henv : env.storableAnswers) (s : Bucket Link)
    (log : List String) (n : Nat) (u : URL) (r : GetLinkResult)
    (h : GetLinkFuel env n s log u = .ret r) :
    r.err = none → r.log ≠ log → r.link.URL.storable := by
  intro he hl
  rcases GetLinkFuel_inv env s log n u r h with ⟨k, l, -, -, e⟩ | ⟨v, -, hg, h2⟩
  · rw [e] at hl; exact absurd rfl hl
  · rcases h2 with ⟨e, -, e2⟩ | ⟨resp, hf, e2⟩
    · rw [e2] at he; cases he
    · rw [e2]; exact henv _ _ _ hf

theorem AddOutgoingLink_oneHop (s : Bucket Link) (p c : Link) (hs : OneHop s)
    (hp : p.Redirect = false) (hc : c.Redirect = false) :
    OneHop (AddOutgoingLink s p c) := by
  rw [AddOutgoingLink_eq]
  exact OneHop_Put_link _ _ _ (OneHop_Put_link _ _ _ hs hc) hp

theorem GetLinkFuel_two (env : Env) (s : Bucket Link) (log : List String) (hs : OneHop s)
    (u : URL) : ∃ r, GetLinkFuel env 2 s log u = .ret r := by
  rw [GetLinkFuel_succ]
  cases hg : s.Get u.noFragment.String with
  | none =>
    dsimp only
    split <;> exact ⟨_, rfl⟩
  | some link =>
    dsimp only
    by_cases hr : link.Redirect = true
    · rw [if_pos hr]
      obtain ⟨l, h1, h2⟩ := hs _ _ hg hr
      rw [GetLinkFuel_succ, h1]
      dsimp only
      rw [if_neg (by simp [h2])]
      exact ⟨_, rfl⟩
    · rw [if_neg hr]; exact ⟨_, rfl⟩

theorem GetLink_oneHop (env : Env) (henv : env.storableAnswers) (s : Bucket Link)
    (log : List String) (hs : OneHop s) (u : URL) :
    ∃ r, GetLink env s log u = .ret r ∧ GetLinkFuel env 2 s log u = .ret r ∧
      OneHop r.links ∧ r.link.Redirect = false := by
  obtain ⟨r, hr⟩ := GetLinkFuel_two env s log hs u
  exact ⟨r, (GetLink_complete env s log u r).mpr ⟨2, hr⟩, hr,
    GetLinkFuel_oneHop env s log hs 2 u r hr (GetLinkFuel_storable env henv s log 2 u r hr),
    GetLinkFuel_noRedirect env s log 2 u r hr⟩

theorem hrefLoop_oneHop (env : Env) (henv : env.storableAnswers) (attr : List Attribute) :
    ∀ w : Walk, OneHop w.links → w.link.Redirect = false →
      ∃ w', hrefLoop env attr w = .ret w' ∧ OneHop w'.links ∧ w'.link.Redirect = false := by
  induction attr with
  | nil => intro w h1 h2; exact ⟨w, rfl, h1, h2⟩
  | cons a rest ih =>
    intro w h1 h2
    rw [hrefLoop]
    split
    · cases hres : env.urlResolve w.link.URL a.Val with
      | none => exact ⟨w, rfl, h1, h2⟩
      | some childURL =>
        dsimp only
        split
        · exact ⟨w, rfl, h1, h2⟩
        · obtain ⟨r, hr, -, hr1, hr2⟩ := GetLink_oneHop env henv w.links w.log h1 childURL
          rw [hr]
          dsimp only
          split
          · exact ⟨_, rfl, hr1, h2⟩
          · split
            · exact ⟨_, rfl, hr1, h2⟩
            · exact ih _ (AddOutgoingLink_oneHop _ _ _ hr1 h2 hr2) h2
    · exact ih w h1 h2

theorem hrefAll_oneHop (env : Env) (henv : env.storableAnswers) (l : List (List Attribute)) :
    ∀ w : Walk, OneHop w.links → w.link.Redirect = false →
      ∃ w', hrefAll env l w = .ret w' ∧ OneHop w'.links ∧ w'.link.Redirect = false := by
  induction l with
  | nil => intro w h1 h2; exact ⟨w, rfl, h1, h2⟩
  | cons attr rest ih =>
    intro w h1 h2
    obtain ⟨w1, e1, a1, b1⟩ := hrefLoop_oneHop env henv attr w h1 h2
    rw [hrefAll, e1]
    exact ih w1 a1 b1

theorem f_oneHop (env : Env) (henv : env.storableAnswers) (n : Node) (w : Walk)
    (h1 : OneHop w.links) (h2 : w.link.Redirect = false) :
    ∃ w', f env n w = .ret w' ∧ OneHop w'.links := by
  obtain ⟨w1, e1, a1, -⟩ := hrefAll_oneHop env henv (anchorsOf n) w h1 h2
  rw [f_eq, e1]
  exact ⟨_, rfl, a1⟩

theorem GetLink_ret_oneHop (env : Env) (henv : env.storableAnswers) (s : Bucket Link)
    (log : List String) (u : URL) (r : GetLinkResult) (hs : OneHop s)
    (h : GetLink env s log u = .ret r) : OneHop r.links ∧ r.link.Redirect = false :=
  ⟨GetLinkFuel_oneHop env s log hs _ u r h (GetLinkFuel_storable env henv s log _ u r h),
    GetLinkFuel_noRedirect env s log _ u r h⟩

theorem f_ret_oneHop (env : Env) (henv : env.storableAnswers) (n : Node) (w w' : Walk)
    (h1 : OneHop w.links) (h2 : w.link.Redirect = false) (h : f env n w = .ret w') :
    OneHop w'.links := by
  obtain ⟨w1, e1, a1⟩ := f_oneHop env henv n w h1 h2
  rw [e1] at h
  injection h with h
  rw [← h]
  exact a1

theorem f_ne_diverge (env : Env) (henv : env.storableAnswers) (n : Node) (w : Walk)
    (h1 : OneHop w.links) (h2 : w.link.Redirect = false) : f env n w ≠ .diverge := by
  obtain ⟨w1, e1, -⟩ := f_oneHop env henv n w h1 h2
  rw [e1]
  intro h
  cases h

theorem crawlTx_oneHop (env : Env) (henv : env.storableAnswers) (db : DB) (log : List String)
    (hdb : OneHop db.links) :
    crawlTx env db log ≠ .diverge ∧ ∀ t, crawlTx env db log = .ret t → OneHop t.db.links := by
  constructor
  · intro h
    unfold crawlTx at h
    dsimp only at h
    repeat' split at h
    all_goals first
      | (cases h; done)
      | (rename_i hg
         obtain ⟨r, hr, -⟩ := GetLink_oneHop env henv db.links log hdb _
         rw [hr] at hg
         cases hg)
      | (rename_i hf
         obtain ⟨h1, h2⟩ := GetLink_ret_oneHop env henv _ _ _ _ hdb (by assumption)
         exact absurd hf (f_ne_diverge env henv _ _ (by exact h1) (by exact h2)))
  · intro t h
    unfold crawlTx at h
    dsimp only at h
    repeat' split at h
    all_goals first
      | (cases h; done)
      | (injection h with h; subst h; exact hdb)
      | (injection h with h; subst h
         exact (GetLink_ret_oneHop env henv _ _ _ _ hdb (by assumption)).1)
      | (injection h with h; subst h
         exact f_ret_oneHop env henv _ _ _
           (GetLink_ret_oneHop env henv _ _ _ _ hdb (by assumption)).1
           (GetLink_ret_oneHop env henv _ _ _ _ hdb (by assumption)).2 (by assumption))

theorem CrawlPage_oneHop (env : Env) (henv : env.storableAnswers) (db : DB)
    (log : List String) (hdb : OneHop db.links) :
    CrawlPage env db log ≠ .diverge ∧
    OneHop (persisted db (CrawlPage env db log)).links := by
  obtain ⟨h1, h2⟩ := crawlTx_oneHop env henv db log hdb
  unfold CrawlPage
  cases hc : crawlTx env db log with
  | fatal => exact ⟨(by intro h; cases h), hdb⟩
  | diverge => exact absurd hc h1
  | ret t =>
    refine ⟨(by intro h; cases h), ?_⟩
    simp only [persisted]
    split
    · exact hdb
    · exact h2 t hc

theorem danglingMarker_not_oneHop (s : Bucket Link) (k : String)
    (h : danglingMarker s k = true) : ¬ OneHop s := by
  intro hs
  unfold danglingMarker at h
  cases hg : s.Get k with
  | none => rw [hg] at h; cases h
  | some m =>
    rw [hg] at h
    simp only [Bool.and_eq_true, Option.isNone_iff_eq_none] at h
    obtain ⟨l, hl, -⟩ := hs k m hg h.1
    rw [h.2] at hl
    cases hl

theorem redirectSite_storable : redirectSite.storableAnswers := by
  intro log u resp h
  simp only [redirectSite] at h
  split at h
  · injection h with h; rw [← h]; decide
  · split at h
    · injection h with h; rw [← h]; decide
    · cases h

theorem redirectSite_step :
    (crawlSteps redirectSite 1 (sampleDB, [])).1.links =
      [("http://b.test/",
          { linkOf "b.test" with
            Outgoing := some ["http://b.test/"], Incomming := none }),
       ("http://a.test/", markerTo "b.test")] := by
  decide!

/-! ## C20: redirect chains are one hop long -/

/-- C20 fails when bolt refuses the key of a final URL and when a final URL
carries user info.  When `http://a.test/` is redirected to a URL of more
than 32768 bytes, one call of `GetLink` on the empty bucket leaves a marker
under `http://a.test/` whose target holds no record.  Under `cycleEnv`,
where redirects end at URLs with user info, three calls of `GetLink` on
`http://a.test/` from the empty bucket leave the markers of `cycleStore`,
which point at each other, and the fourth call never returns. -/
theorem redirect_cycle_arises :
    (GetLink longEnv [] [] (siteURL "a.test")).map
        (fun r => (r.err, r.links.keys, danglingMarker r.links "http://a.test/")) =
      .ret (none, ["http://a.test/"], true) ∧
    (∀ r, GetLink longEnv [] [] (siteURL "a.test") = .ret r → ¬ OneHop r.links) ∧
    lookups cycleEnv (siteURL "a.test") 3 =
      .ret (cycleStore, ["http://a.test/", "http://@b.test/", "http://@c.test/"]) ∧
    GetLink cycleEnv cycleStore ["http://a.test/", "http://@b.test/", "http://@c.test/"]
        (siteURL "a.test") = .diverge ∧
    (∀ n, GetLinkFuel cycleEnv n cycleStore
        ["http://a.test/", "http://@b.test/", "http://@c.test/"] (siteURL "a.test") =
      .diverge) := by
  have e1 : (GetLink longEnv [] [] (siteURL "a.test")).map
        (fun r => (r.err, r.links.keys, danglingMarker r.links "http://a.test/")) =
      .ret (none, ["http://a.test/"], true) := by decide!
  have e2 : GetLink cycleEnv cycleStore
      ["http://a.test/", "http://@b.test/", "http://@c.test/"] (siteURL "a.test") =
      .diverge := by decide!
  refine ⟨e1, ?_, by decide!, e2, (GetLink_diverge_iff _ _ _ _).mp e2⟩
  intro r hr
  rw [hr] at e1
  simp only [Outcome.map, Outcome.ret.injEq, Prod.mk.injEq] at e1
  exact danglingMarker_not_oneHop _ _ e1.2.2

/-- C20, amended: the property `OneHop` (every redirect marker points at a
key that holds a record that is no marker) holds of the empty bucket; it is
kept by a call of `GetLink` that did not fetch, whose fetch failed, or whose
fetch ended at a storable URL (one that JSON gives back as it is and whose
string bolt takes as a key); it is kept by `AddOutgoingLink` on links that
are no markers, as all links returned by `GetLink` are; under it `GetLink`
returns within two calls, that is after at most one redirect hop; and when
every answer of the network ends at a storable URL, a database whose links
bucket has the property keeps it through any number of calls of `CrawlPage`,
none of which runs into a redirect cycle. -/
theorem redirects_one_hop (env : Env) (db : DB) (log : List String)
    (henv : env.storableAnswers) (h : OneHop db.links) :
    OneHop ([] : Bucket Link) ∧
    (∀ (s : Bucket Link) (log' : List String) (u : URL) (r : GetLinkResult), OneHop s →
      GetLink env s log' u = .ret r →
      (r.err = none → r.log ≠ log' → r.link.URL.storable) ∧
      OneHop r.links ∧ r.link.Redirect = false) ∧
    (∀ (env' : Env) (s : Bucket Link) (log' : List String) (u : URL) (r : GetLinkResult),
      OneHop s → GetLink env' s log' u = .ret r →
      (r.err = none → r.log ≠ log' → r.link.URL.storable) →
      OneHop r.links ∧ r.link.Redirect = false) ∧
    (∀ (s : Bucket Link) (p c : Link), OneHop s → p.Redirect = false → c.Redirect = false →
      OneHop (AddOutgoingLink s p c)) ∧
    (∀ (s : Bucket Link) (log' : List String) (u : URL), OneHop s →
      ∃ r, GetLink env s log' u = .ret r ∧ GetLinkFuel env 2 s log' u = .ret r) ∧
    (∀ n, OneHop (crawlSteps env n (db, log)).1.links ∧
      CrawlPage env (crawlSteps env n (db, log)).1 (crawlSteps env n (db, log)).2 ≠
        .diverge) := by
  refine ⟨OneHop_nil, ?_, ?_, ?_, ?_, ?_⟩
  · intro s log' u r hs hr
    exact ⟨GetLinkFuel_storable env henv s log' _ u r hr,
      GetLink_ret_oneHop env henv s log' u r hs hr⟩
  · intro env' s log' u r hs hr hst
    exact ⟨GetLinkFuel_oneHop env' s log' hs _ u r hr hst,
      GetLinkFuel_noRedirect env' s log' _ u r hr⟩
  · intro s p c hs hp hc
    exact AddOutgoingLink_oneHop s p c hs hp hc
  · intro s log' u hs
    obtain ⟨r, h1, h2, -⟩ := GetLink_oneHop env henv s log' hs u
    exact ⟨r, h1, h2⟩
  · intro n
    have hn : OneHop (crawlSteps env n (db, log)).1.links := by
      induction n with
      | zero => exact h
      | succ n ih => exact (CrawlPage_oneHop env henv _ _ ih).2
    exact ⟨hn, (CrawlPage_oneHop env henv _ _ hn).1⟩

theorem redirects_one_hop_witness :
    redirectSite.storableAnswers ∧ OneHop sampleDB.links ∧
    (crawlSteps redirectSite 1 (sampleDB, [])).1.links.Get "http://a.test/" =
      some (markerTo "b.test") ∧
    (markerTo "b.test").Redirect = true ∧
    OneHop (crawlSteps redirectSite 1 (sampleDB, [])).1.links ∧
    CrawlPage redirectSite (crawlSteps redirectSite 1 (sampleDB, [])).1
      (crawlSteps redirectSite 1 (sampleDB, [])).2 ≠ .diverge :=
  have h0 : OneHop sampleDB.links := by
    intro k m hm
    simp [sampleDB, Bucket.Get] at hm
  ⟨redirectSite_storable, h0, by rw [redirectSite_step]; decide, rfl,
    (redirects_one_hop redirectSite sampleDB [] redirectSite_storable h0).2.2.2.2.2 1⟩

/-! ## C16: the text of the page -/

theorem visibleText_eq_walkText (n : Node) :
    textLeaves n = true → visibleText n = walkText n := by
  refine Node.rec
    (motive_1 := fun n => textLeaves n = true → visibleText n = walkText n)
    (motive_2 := fun cs => textLeaves.textLeavesList cs = true →
      visibleText.visibleTextList cs = walkText.walkTextList cs) ?_ ?_ ?_ n
  · intro ty data attr children ih hwf
    rw [textLeaves] at hwf
    simp only [Bool.and_eq_true] at hwf
    obtain ⟨hleaf, hwfc⟩ := hwf
    rw [visibleText, walkText, ih hwfc]
    by_cases hty : ty = NodeType.ElementNode
    · subst hty
      by_cases hss : data = "script" ∨ data = "style"
      · have h4 : (decide (data = "script") || decide (data = "style")) = true := by
          simpa using hss
        simp [hss, h4]
      · have h4 : (decide (data = "script") || decide (data = "style")) = false := by
          simpa using hss
        simp [hss, h4]
    · by_cases htx : ty = NodeType.TextNode
      · subst htx
        simp only [if_true] at hleaf
        have hnil : children = [] := by
          cases children with
          | nil => rfl
          | cons c cs => simp at hleaf
        subst hnil
        simp [walkText.walkTextList]
      · simp [hty, htx]
  · intro _; rfl
  · intro c cs ihc ihcs hwf
    rw [textLeaves.textLeavesList] at hwf
    simp only [Bool.and_eq_true] at hwf
    rw [visibleText.visibleTextList, walkText.walkTextList, ihc hwf.1, ihcs hwf.2]

theorem f_ret_text (env : Env) (n : Node) (w0 w : Walk) (h : f env n w0 = .ret w) :
    w.text = w0.text ++ walkText n ∧ w.title = (titleTexts n).getLast?.getD w0.title := by
  rw [f_eq] at h
  cases hh : hrefAll env (anchorsOf n) w0 with
  | fatal => rw [hh] at h; cases h
  | diverge => rw [hh] at h; cases h
  | ret w1 =>
    rw [hh] at h
    simp only [Outcome.map] at h
    injection h with h
    rw [← h]
    exact ⟨rfl, rfl⟩

/-- C16: in a committed step, where `root` is the parsed body of the page and
`w` the state of the walk over it, on a tree whose text nodes are leaves the
list `text` that the walk collects is the data of all text nodes of `root`
without a `script` or `style` element above them, in document order, and the
vectorizer is called on the concatenation of that list: the keyword list and
the document `doc` that the step puts under the URL of the page (and that are
read there when bolt takes that key) have the words and the length of
`GetVector (String.join (visibleText root))`.  For any such tree and any
start, the walk is the link handling of its anchors followed by that text
and the title. -/
theorem text_extraction (env : Env) (db : DB) (log : List String) (t : TxResult)
    (h : CrawlPage env db log = .ret t) (hc : t.exit = .committed) :
    (∃ cs k uri g resp buff root w doc,
      CommittedRun env db log cs k uri g resp buff root w ∧
      doc = Document.json
        { URL := g.link.URL, Title := w.title, Size := buff.length,
          Length := (env.GetVector (String.join w.text)).2 } ∧
      (textLeaves root = true →
        w.text = visibleText root ∧
        t.db.docKeywords =
          db.docKeywords.Put g.link.URL.String
            (indexWords g.link.URL (env.GetVector (String.join (visibleText root))).1
              ⟨db.keywords, cs, []⟩).dockeys ∧
        t.db.docs = db.docs.Put g.link.URL.String doc ∧
        (keyOK g.link.URL.String = true →
          t.db.docKeywords.Get g.link.URL.String =
            some (indexWords g.link.URL (env.GetVector (String.join (visibleText root))).1
              ⟨db.keywords, cs, []⟩).dockeys ∧
          t.db.docs.Get g.link.URL.String = some doc) ∧
        doc.Length = (env.GetVector (String.join (visibleText root))).2)) ∧
    (∀ (root : Node) (w0 : Walk), textLeaves root = true →
      f env root w0 =
        Outcome.map (fun w' => w'.withText (w0.text ++ visibleText root)
          ((titleTexts root).getLast?.getD w0.title)) (hrefAll env (anchorsOf root) w0)) := by
  constructor
  · obtain ⟨cs, k, uri, g, resp, buff, root, w, hrun, ht⟩ :=
      CrawlPage_committed_run env db log t h hc
    refine ⟨cs, k, uri, g, resp, buff, root, w, _, hrun, rfl, ?_⟩
    intro hwf
    have htext : w.text = visibleText root := by
      rw [(f_ret_text env root _ w hrun.walk).1, visibleText_eq_walkText root hwf]
      rfl
    refine ⟨htext, ?_, ?_, ?_, ?_⟩
    · rw [ht, ← htext]
      rfl
    · rw [ht]
      rfl
    · intro hk
      constructor
      · rw [ht, ← htext]
        simp only [indexPage, Bucket.Get_Put, hk, and_self, if_true]
      · rw [ht]
        simp only [indexPage, Bucket.Get_Put, hk, and_self, if_true]
    · rw [← htext]
      rfl
  · intro root w0 hwf
    rw [f_eq, visibleText_eq_walkText root hwf]

theorem text_extraction_witness :
    sampleResult.exit = .committed ∧ textLeaves samplePage = true ∧
    visibleText samplePage = ["Hello", "hello world hello"] ∧
    sampleResult.db.docKeywords.Get "http://a.test/" = some [⟨"hello", 2⟩, ⟨"world", 1⟩] ∧
    ∃ cs k uri g resp buff root w doc,
      CommittedRun sampleEnv sampleDB [] cs k uri g resp buff root w ∧
      doc = Document.json
        { URL := g.link.URL, Title := w.title, Size := buff.length,
          Length := (sampleEnv.GetVector (String.join w.text)).2 } ∧
      (textLeaves root = true →
        w.text = visibleText root ∧
        sampleResult.db.docKeywords =
          sampleDB.docKeywords.Put g.link.URL.String
            (indexWords g.link.URL (sampleEnv.GetVector (String.join (visibleText root))).1
              ⟨sampleDB.keywords, cs, []⟩).dockeys ∧
        sampleResult.db.docs = sampleDB.docs.Put g.link.URL.String doc ∧
        (keyOK g.link.URL.String = true →
          sampleResult.db.docKeywords.Get g.link.URL.String =
            some (indexWords g.link.URL
              (sampleEnv.GetVector (String.join (visibleText root))).1
              ⟨sampleDB.keywords, cs, []⟩).dockeys ∧
          sampleResult.db.docs.Get g.link.URL.String = some doc) ∧
        doc.Length = (sampleEnv.GetVector (String.join (visibleText root))).2) :=
  ⟨rfl, by decide, by decide, by decide,
    (text_extraction sampleEnv sampleDB [] sampleResult sample_step rfl).1⟩

/-! ## C15: the title of the page -/

/-- C15 fails on a page with two `title` elements: the title stored is that
of the second one, not that of the first. -/
theorem title_is_not_first :
    titleOf (persisted sampleDB (CrawlPage (htmlSite twoTitlePage) sampleDB [])).docs
        "http://a.test/" = some "Second" ∧
    firstTitle twoTitlePage = "First" ∧
    titleOf (persisted sampleDB (CrawlPage (htmlSite twoTitlePage) sampleDB [])).docs
        "http://a.test/" ≠ some (firstTitle twoTitlePage) := by
  decide!

/-- C15, amended: in a committed step, where `root` is the parsed body of the
page and `w` the state of the walk over it, the title that the walk ends
with, which is the title of the Document `doc` that the step puts under the
URL of the page (and that is read there when bolt takes that key), is the
first text child of the last `title` element, in document order, among those
that the walk reaches (not below a `script` or `style` element) and that
have a text child; it is empty when there is none. -/
theorem title_is_last (env : Env) (db : DB) (log : List String) (t : TxResult)
    (h : CrawlPage env db log = .ret t) (hc : t.exit = .committed) :
    ∃ cs k uri g resp buff root w doc,
      CommittedRun env db log cs k uri g resp buff root w ∧
      doc = Document.json
        { URL := g.link.URL, Title := w.title, Size := buff.length,
          Length := (env.GetVector (String.join w.text)).2 } ∧
      w.title = (titleTexts root).getLast?.getD "" ∧
      t.db.docs = db.docs.Put g.link.URL.String doc ∧
      (keyOK g.link.URL.String = true → t.db.docs.Get g.link.URL.String = some doc) ∧
      doc.Title = (titleTexts root).getLast?.getD "" := by
  obtain ⟨cs, k, uri, g, resp, buff, root, w, hrun, ht⟩ :=
    CrawlPage_committed_run env db log t h hc
  have htitle : w.title = (titleTexts root).getLast?.getD "" :=
    (f_ret_text env root _ w hrun.walk).2
  refine ⟨cs, k, uri, g, resp, buff, root, w, _, hrun, rfl, htitle, ?_, ?_, htitle⟩
  · rw [ht]
    rfl
  · intro hk
    rw [ht]
    simp only [indexPage, Bucket.Get_Put, hk, and_self, if_true]

theorem title_is_last_witness :
    sampleResult.exit = .committed ∧ (titleTexts samplePage).getLast?.getD "" = "Hello" ∧
    titleOf sampleResult.db.docs "http://a.test/" = some "Hello" ∧
    ∃ cs k uri g resp buff root w doc,
      CommittedRun sampleEnv sampleDB [] cs k uri g resp buff root w ∧
      doc = Document.json
        { URL := g.link.URL, Title := w.title, Size := buff.length,
          Length := (sampleEnv.GetVector (String.join w.text)).2 } ∧
      w.title = (titleTexts root).getLast?.getD "" ∧
      sampleResult.db.docs = sampleDB.docs.Put g.link.URL.String doc ∧
      (keyOK g.link.URL.String = true →
        sampleResult.db.docs.Get g.link.URL.String = some doc) ∧
      doc.Title = (titleTexts root).getLast?.getD "" :=
  ⟨rfl, by decide, by decide,
    title_is_last sampleEnv sampleDB [] sampleResult sample_step rfl⟩

/-! ## Lemmas: the links that are enqueued -/

theorem hrefLoop_outgoing (env : Env) (attr : List Attribute) :
    ∀ w w' : Walk, hrefLoop env attr w = .ret w' →
      w'.outgoing = w.outgoing ++ (hrefChildren env attr w).map (fun c => c.URL.String) ∧
      ∀ c ∈ hrefChildren env attr w, ValidLink c = true := by
  induction attr with
  | nil =>
    intro w w' h
    rw [hrefLoop] at h
    injection h with h
    rw [← h]
    simp [hrefChildren]
  | cons a rest ih =>
    intro w w' h
    rw [hrefLoop] at h
    rw [hrefChildren]
    split at h
    · rename_i ha
      rw [if_pos ha]
      cases hres : env.urlResolve w.link.URL a.Val with
      | none => rw [hres] at h; injection h with h; rw [← h]; simp
      | some childURL =>
        rw [hres] at h
        dsimp only at h ⊢
        split at h
        · rename_i hs
          rw [if_pos hs]
          injection h with h; rw [← h]; simp
        · rename_i hs
          rw [if_neg hs]
          cases hg : GetLink env w.links w.log childURL with
          | fatal => rw [hg] at h; cases h
          | diverge => rw [hg] at h; cases h
          | ret r =>
            rw [hg] at h
            dsimp only at h ⊢
            split at h
            · rename_i he
              rw [if_pos he]
              injection h with h; rw [← h]; simp
            · rename_i he
              rw [if_neg he]
              split at h
              · rename_i hv
                rw [if_pos hv]
                injection h with h; rw [← h]; simp
              · rename_i hv
                rw [if_neg hv]
                obtain ⟨h1, h2⟩ := ih _ w' h
                constructor
                · rw [h1]; simp
                · intro c hc
                  rcases List.mem_cons.mp hc with hc | hc
                  · rw [hc]; simpa using hv
                  · exact h2 c hc
    · rename_i ha
      rw [if_neg ha]
      exact ih w w' h

theorem hrefAll_outgoing (env : Env) (l : List (List Attribute)) :
    ∀ w w' : Walk, hrefAll env l w = .ret w' →
      w'.outgoing = w.outgoing ++ (registered env l w).map (fun c => c.URL.String) ∧
      ∀ c ∈ registered env l w, ValidLink c = true := by
  induction l with
  | nil =>
    intro w w' h
    rw [hrefAll] at h
    injection h with h
    rw [← h]
    simp [registered]
  | cons attr rest ih =>
    intro w w' h
    rw [hrefAll] at h
    rw [registered]
    cases h1 : hrefLoop env attr w with
    | fatal => rw [h1] at h; cases h
    | diverge => rw [h1] at h; cases h
    | ret w1 =>
      rw [h1] at h
      dsimp only at h ⊢
      obtain ⟨a1, a2⟩ := hrefLoop_outgoing env attr w w1 h1
      obtain ⟨b1, b2⟩ := ih w1 w' h
      constructor
      · rw [b1, a1]; simp
      · intro c hc
        rcases List.mem_append.mp hc with hc | hc
        · exact a2 c hc
        · exact b2 c hc

theorem f_outgoing (env : Env) (n : Node) (w w' : Walk) (h : f env n w = .ret w') :
    w'.outgoing =
      w.outgoing ++ (registered env (anchorsOf n) w).map (fun c => c.URL.String) ∧
    ∀ c ∈ registered env (anchorsOf n) w, ValidLink c = true := by
  rw [f_eq] at h
  cases h1 : hrefAll env (anchorsOf n) w with
  | fatal => rw [h1] at h; cases h
  | diverge => rw [h1] at h; cases h
  | ret w1 =>
    rw [h1] at h
    simp only [Outcome.map] at h
    injection h with h
    rw [← h]
    exact hrefAll_outgoing env _ w w1 h1

/-! ## C18: what enters the frontier -/

/-- C18 fails on two pages.  The page `http://a.test/` that links to itself
is dequeued and indexed, and after the step it is pending again while it has
a document.  On a database where `http://b.test/` has a document, a page
that links to it makes it pending. -/
theorem indexed_urls_enter_frontier :
    sampleDB.pending.First = some "http://a.test/" ∧
    (persisted sampleDB (CrawlPage (htmlSite selfPage) sampleDB [])).pending.Get
        "http://a.test/" = some () ∧
    titleOf (persisted sampleDB (CrawlPage (htmlSite selfPage) sampleDB [])).docs
        "http://a.test/" = some "" ∧
    childIndexedDB.pending.Get "http://b.test/" = none ∧
    (persisted childIndexedDB (CrawlPage (htmlSite forkPage) childIndexedDB [])).pending.Get
        "http://b.test/" = some () ∧
    titleOf (persisted childIndexedDB (CrawlPage (htmlSite forkPage) childIndexedDB [])).docs
        "http://b.test/" = some "B" := by
  decide!

/-- C18, amended: in a committed step, where `w` is the state of the walk
over the parsed body of the page fetched for the dequeued key `k`, the list
`w.outgoing` holds the URLs of the child links that the walk registered, in
order, and each of these links passed `ValidLink`; the frontier is the old
one without `k` after `Put` of each element of `w.outgoing`: a key is pending
afterwards exactly when bolt takes it as a key and it is the URL of a
registered child, or it was pending and is not `k`.  Neither the docs bucket
nor the dequeued URL is looked at when a URL is enqueued. -/
theorem frontier_gets_valid_links (env : Env) (db : DB) (log : List String) (t : TxResult)
    (h : CrawlPage env db log = .ret t) (hc : t.exit = .committed) :
    ∃ cs k uri g resp buff root w, CommittedRun env db log cs k uri g resp buff root w ∧
      w.outgoing =
        (registered env (anchorsOf root)
          ⟨g.link, g.links, g.log ++ [g.link.URL.String], [], [], ""⟩).map
            (fun c => c.URL.String) ∧
      (∀ c ∈ registered env (anchorsOf root)
          ⟨g.link, g.links, g.log ++ [g.link.URL.String], [], [], ""⟩, ValidLink c = true) ∧
      t.db.pending = putAll (db.pending.Delete k) w.outgoing ∧
      (∀ l, t.db.pending.Get l = some () ↔
        (keyOK l = true ∧
          ∃ c ∈ registered env (anchorsOf root)
            ⟨g.link, g.links, g.log ++ [g.link.URL.String], [], [], ""⟩, l = c.URL.String) ∨
        (l ≠ k ∧ db.pending.Get l = some ())) := by
  obtain ⟨cs, k, uri, g, resp, buff, root, w, hrun, ht⟩ :=
    CrawlPage_committed_run env db log t h hc
  obtain ⟨-, -, -, -, c5, -⟩ :=
    indexPage_counts env db (db.pending.Delete k) cs g.link buff.length w
  rw [← ht] at c5
  obtain ⟨o1, o2⟩ := f_outgoing env root _ w hrun.walk
  simp only [List.nil_append] at o1
  refine ⟨cs, k, uri, g, resp, buff, root, w, hrun, o1, o2, c5, ?_⟩
  intro l
  rw [c5, putAll_Get, Bucket.Get_Delete, o1]
  have hmem : (l ∈ List.map (fun c : Link => c.URL.String)
        (registered env (anchorsOf root)
          ⟨g.link, g.links, g.log ++ [g.link.URL.String], [], [], ""⟩)) ↔
      ∃ c ∈ registered env (anchorsOf root)
        ⟨g.link, g.links, g.log ++ [g.link.URL.String], [], [], ""⟩, l = c.URL.String := by
    rw [List.mem_map]
    constructor
    · rintro ⟨c, hc, e⟩; exact ⟨c, hc, e.symm⟩
    · rintro ⟨c, hc, e⟩; exact ⟨c, hc, e.symm⟩
  rw [hmem]
  by_cases hl : k = l
  · subst hl; simp
  · have hl' : ¬ l = k := fun e => hl e.symm
    simp [hl, hl']

theorem frontier_gets_valid_links_witness :
    twiceResult.exit = .committed ∧
    registered (htmlSite twicePage) (anchorsOf twicePage)
        ⟨linkOf "a.test", [("http://a.test/", linkOf "a.test")],
          ["http://a.test/", "http://a.test/"], [], [], ""⟩ =
      [linkOf "b.test", { linkOf "b.test" with Incomming := some ["http://a.test/"] }] ∧
    twiceResult.db.pending = [("http://b.test/", ())] ∧
    ∃ cs k uri g resp buff root w,
      CommittedRun (htmlSite twicePage) pendingDB [] cs k uri g resp buff root w ∧
      w.outgoing =
        (registered (htmlSite twicePage) (anchorsOf root)
          ⟨g.link, g.links, g.log ++ [g.link.URL.String], [], [], ""⟩).map
            (fun c => c.URL.String) ∧
      (∀ c ∈ registered (htmlSite twicePage) (anchorsOf root)
          ⟨g.link, g.links, g.log ++ [g.link.URL.String], [], [], ""⟩, ValidLink c = true) ∧
      twiceResult.db.pending = putAll (pendingDB.pending.Delete k) w.outgoing ∧
      (∀ l, twiceResult.db.pending.Get l = some () ↔
        (keyOK l = true ∧
          ∃ c ∈ registered (htmlSite twicePage) (anchorsOf root)
            ⟨g.link, g.links, g.log ++ [g.link.URL.String], [], [], ""⟩, l = c.URL.String) ∨
        (l ≠ k ∧ pendingDB.pending.Get l = some ())) :=
  ⟨rfl, by decide!, rfl,
    frontier_gets_valid_links (htmlSite twicePage) pendingDB [] twiceResult twice_step rfl⟩

/-! ## Lemmas: a rejected child -/

end Het
